import Mathlib

set_option maxRecDepth 100000

/-!
# Verification of the retrocompressor LZHUF/TD0 codec core

Shallow embedding of the Rust sources (`lzss_huff.rs`, `tools/adaptive_huff.rs`,
`tools/ring_buffer.rs`, `td0.rs`, `direct_ports/lzhuf.rs`) and proofs of the
specified properties.
-/

namespace Retro

/-- CRC-16 step over one byte, polynomial 0xA097, high-bit-driven shift-XOR.
Embeds the inner loop of `td0.rs::crc16`. -/
def crc16Byte (crc : Nat) (b : Nat) : Nat :=
  let crc := (crc ^^^ (b <<< 8)) % 65536
  (List.range 8).foldl
    (fun c _ =>
      let shifted := (c <<< 1) % 65536
      if c &&& 0x8000 = 0 then shifted else shifted ^^^ 0xa097)
    crc

/-- CRC-16 over a byte list with a seed, embedding `td0.rs::crc16`. -/
def crc16 (seed : Nat) (buf : List Nat) : Nat :=
  buf.foldl crc16Byte (seed % 65536)

/-! ## Position-coder tables (`tools/adaptive_huff.rs`) -/

/-- `P_LEN`: bits used to encode the upper 6 bits of a match position. -/
def pLenTable : List Nat := [
  3, 4, 4, 4, 5, 5, 5, 5, 5, 5, 5, 5, 6, 6, 6, 6,
  6, 6, 6, 6, 6, 6, 6, 6, 7, 7, 7, 7, 7, 7, 7, 7,
  7, 7, 7, 7, 7, 7, 7, 7, 7, 7, 7, 7, 7, 7, 7, 7,
  8, 8, 8, 8, 8, 8, 8, 8, 8, 8, 8, 8, 8, 8, 8, 8]

/-- `P_CODE`: left-justified codes for the upper 6 bits of a match position. -/
def pCodeTable : List Nat := [
  0x00, 0x20, 0x30, 0x40, 0x50, 0x58, 0x60, 0x68,
  0x70, 0x78, 0x80, 0x88, 0x90, 0x94, 0x98, 0x9C,
  0xA0, 0xA4, 0xA8, 0xAC, 0xB0, 0xB4, 0xB8, 0xBC,
  0xC0, 0xC2, 0xC4, 0xC6, 0xC8, 0xCA, 0xCC, 0xCE,
  0xD0, 0xD2, 0xD4, 0xD6, 0xD8, 0xDA, 0xDC, 0xDE,
  0xE0, 0xE2, 0xE4, 0xE6, 0xE8, 0xEA, 0xEC, 0xEE,
  0xF0, 0xF1, 0xF2, 0xF3, 0xF4, 0xF5, 0xF6, 0xF7,
  0xF8, 0xF9, 0xFA, 0xFB, 0xFC, 0xFD, 0xFE, 0xFF]

/-- `D_LEN`: decoding table for the number of bits encoding the upper 6
position bits, indexed by the next 8 input bits (256 literal entries,
transcribed from the source). -/
def dLenTable : List Nat := [
  0x03, 0x03, 0x03, 0x03, 0x03, 0x03, 0x03, 0x03,
  0x03, 0x03, 0x03, 0x03, 0x03, 0x03, 0x03, 0x03,
  0x03, 0x03, 0x03, 0x03, 0x03, 0x03, 0x03, 0x03,
  0x03, 0x03, 0x03, 0x03, 0x03, 0x03, 0x03, 0x03,
  0x04, 0x04, 0x04, 0x04, 0x04, 0x04, 0x04, 0x04,
  0x04, 0x04, 0x04, 0x04, 0x04, 0x04, 0x04, 0x04,
  0x04, 0x04, 0x04, 0x04, 0x04, 0x04, 0x04, 0x04,
  0x04, 0x04, 0x04, 0x04, 0x04, 0x04, 0x04, 0x04,
  0x04, 0x04, 0x04, 0x04, 0x04, 0x04, 0x04, 0x04,
  0x04, 0x04, 0x04, 0x04, 0x04, 0x04, 0x04, 0x04,
  0x05, 0x05, 0x05, 0x05, 0x05, 0x05, 0x05, 0x05,
  0x05, 0x05, 0x05, 0x05, 0x05, 0x05, 0x05, 0x05,
  0x05, 0x05, 0x05, 0x05, 0x05, 0x05, 0x05, 0x05,
  0x05, 0x05, 0x05, 0x05, 0x05, 0x05, 0x05, 0x05,
  0x05, 0x05, 0x05, 0x05, 0x05, 0x05, 0x05, 0x05,
  0x05, 0x05, 0x05, 0x05, 0x05, 0x05, 0x05, 0x05,
  0x05, 0x05, 0x05, 0x05, 0x05, 0x05, 0x05, 0x05,
  0x05, 0x05, 0x05, 0x05, 0x05, 0x05, 0x05, 0x05,
  0x06, 0x06, 0x06, 0x06, 0x06, 0x06, 0x06, 0x06,
  0x06, 0x06, 0x06, 0x06, 0x06, 0x06, 0x06, 0x06,
  0x06, 0x06, 0x06, 0x06, 0x06, 0x06, 0x06, 0x06,
  0x06, 0x06, 0x06, 0x06, 0x06, 0x06, 0x06, 0x06,
  0x06, 0x06, 0x06, 0x06, 0x06, 0x06, 0x06, 0x06,
  0x06, 0x06, 0x06, 0x06, 0x06, 0x06, 0x06, 0x06,
  0x07, 0x07, 0x07, 0x07, 0x07, 0x07, 0x07, 0x07,
  0x07, 0x07, 0x07, 0x07, 0x07, 0x07, 0x07, 0x07,
  0x07, 0x07, 0x07, 0x07, 0x07, 0x07, 0x07, 0x07,
  0x07, 0x07, 0x07, 0x07, 0x07, 0x07, 0x07, 0x07,
  0x07, 0x07, 0x07, 0x07, 0x07, 0x07, 0x07, 0x07,
  0x07, 0x07, 0x07, 0x07, 0x07, 0x07, 0x07, 0x07,
  0x08, 0x08, 0x08, 0x08, 0x08, 0x08, 0x08, 0x08,
  0x08, 0x08, 0x08, 0x08, 0x08, 0x08, 0x08, 0x08]

/-- `D_CODE`: decoded upper-6 position values, indexed like `D_LEN`
(256 literal entries, transcribed from the source). -/
def dCodeTable : List Nat := [
  0x00, 0x00, 0x00, 0x00, 0x00, 0x00, 0x00, 0x00,
  0x00, 0x00, 0x00, 0x00, 0x00, 0x00, 0x00, 0x00,
  0x00, 0x00, 0x00, 0x00, 0x00, 0x00, 0x00, 0x00,
  0x00, 0x00, 0x00, 0x00, 0x00, 0x00, 0x00, 0x00,
  0x01, 0x01, 0x01, 0x01, 0x01, 0x01, 0x01, 0x01,
  0x01, 0x01, 0x01, 0x01, 0x01, 0x01, 0x01, 0x01,
  0x02, 0x02, 0x02, 0x02, 0x02, 0x02, 0x02, 0x02,
  0x02, 0x02, 0x02, 0x02, 0x02, 0x02, 0x02, 0x02,
  0x03, 0x03, 0x03, 0x03, 0x03, 0x03, 0x03, 0x03,
  0x03, 0x03, 0x03, 0x03, 0x03, 0x03, 0x03, 0x03,
  0x04, 0x04, 0x04, 0x04, 0x04, 0x04, 0x04, 0x04,
  0x05, 0x05, 0x05, 0x05, 0x05, 0x05, 0x05, 0x05,
  0x06, 0x06, 0x06, 0x06, 0x06, 0x06, 0x06, 0x06,
  0x07, 0x07, 0x07, 0x07, 0x07, 0x07, 0x07, 0x07,
  0x08, 0x08, 0x08, 0x08, 0x08, 0x08, 0x08, 0x08,
  0x09, 0x09, 0x09, 0x09, 0x09, 0x09, 0x09, 0x09,
  0x0A, 0x0A, 0x0A, 0x0A, 0x0A, 0x0A, 0x0A, 0x0A,
  0x0B, 0x0B, 0x0B, 0x0B, 0x0B, 0x0B, 0x0B, 0x0B,
  0x0C, 0x0C, 0x0C, 0x0C, 0x0D, 0x0D, 0x0D, 0x0D,
  0x0E, 0x0E, 0x0E, 0x0E, 0x0F, 0x0F, 0x0F, 0x0F,
  0x10, 0x10, 0x10, 0x10, 0x11, 0x11, 0x11, 0x11,
  0x12, 0x12, 0x12, 0x12, 0x13, 0x13, 0x13, 0x13,
  0x14, 0x14, 0x14, 0x14, 0x15, 0x15, 0x15, 0x15,
  0x16, 0x16, 0x16, 0x16, 0x17, 0x17, 0x17, 0x17,
  0x18, 0x18, 0x19, 0x19, 0x1A, 0x1A, 0x1B, 0x1B,
  0x1C, 0x1C, 0x1D, 0x1D, 0x1E, 0x1E, 0x1F, 0x1F,
  0x20, 0x20, 0x21, 0x21, 0x22, 0x22, 0x23, 0x23,
  0x24, 0x24, 0x25, 0x25, 0x26, 0x26, 0x27, 0x27,
  0x28, 0x28, 0x29, 0x29, 0x2A, 0x2A, 0x2B, 0x2B,
  0x2C, 0x2C, 0x2D, 0x2D, 0x2E, 0x2E, 0x2F, 0x2F,
  0x30, 0x31, 0x32, 0x33, 0x34, 0x35, 0x36, 0x37,
  0x38, 0x39, 0x3A, 0x3B, 0x3C, 0x3D, 0x3E, 0x3F]

def pLen (i : Nat) : Nat := pLenTable.getD i 0
def pCode (i : Nat) : Nat := pCodeTable.getD i 0
def dLen (b : Nat) : Nat := dLenTable.getD b 0
def dCode (b : Nat) : Nat := dCodeTable.getD b 0

/-! ## Adaptive Huffman coder state (`tools/adaptive_huff.rs`) -/

/-- State of `AdaptiveHuffman`.  The Rust `Vec` fields are modelled as total
functions on `Nat`; indices outside the vector bounds are never read by the
non-panicking executions the theorems quantify over. -/
structure Huff where
  numSymb : Nat
  bits : List Bool
  ptr : Nat
  freq : Nat → Nat
  parent : Nat → Nat
  son : Nat → Nat
  symbMap : Nat → Nat

namespace Huff

def maxFreq : Nat := 0x8000

/-- `node_count = 2*num_symbols - 1` -/
def nodeCount (h : Huff) : Nat := 2 * h.numSymb - 1

/-- `root = 2*num_symbols - 2` -/
def rootIdx (h : Huff) : Nat := 2 * h.numSymb - 2

/-- `AdaptiveHuffman::create` (the bit vector is built from the input bytes
elsewhere; here the bits are passed directly). -/
def create (bits : List Bool) (numSymbols : Nat) : Huff :=
  { numSymb := numSymbols
    bits := bits
    ptr := 0
    freq := fun _ => 0
    parent := fun _ => 0
    son := fun _ => 0
    symbMap := fun _ => 0 }

/-- `advance` -/
def advance (h : Huff) (bits : Nat) : Huff := { h with ptr := h.ptr + bits }

/-- Frequencies produced by the two loops of `start_huff` (closed recursive
form): leaves `i < n` get `1`; internal `n ≤ j ≤ 2n-2` gets the sum of its two
sons `2*(j-n)` and `2*(j-n)+1`.  The recursion descends to strictly smaller
slots, so `i + 1` units of fuel always suffice; the fuel merely makes the
recursion structural. -/
def startFreqA (n : Nat) : Nat → Nat → Nat
  | 0, _ => 0
  | fuel + 1, i =>
    if i < n then 1
    else if i < 2 * n - 1 then
      startFreqA n fuel (2 * (i - n)) + startFreqA n fuel (2 * (i - n) + 1)
    else 0

def startFreq (n i : Nat) : Nat := startFreqA n (i + 1) i

/-- `start_huff`.  The loop-assigned arrays are written in closed form:
`son i = i + node_count` and `symb_map i = i` for leaves, `son j = 2*(j-n)`
for internal `j`, `parent m = n + m/2` for `m < root`, the backstop
`freq node_count = 0xffff`, and `parent root = 0`. -/
def startHuff (h : Huff) : Huff :=
  let n := h.numSymb
  { h with
    freq := fun i => if i = 2 * n - 1 then 0xffff else startFreq n i
    son := fun i =>
      if i < n then i + (2 * n - 1)
      else if i < 2 * n - 1 then 2 * (i - n)
      else h.son i
    parent := fun i =>
      if i = 2 * n - 2 then 0
      else if i < 2 * n - 2 then n + i / 2
      else h.parent i
    symbMap := fun i => if i < n then i else h.symbMap i }

/-- Inner scan of `update`: `while k > freq[l] { l += 1 }`.  The fuel is set
by the caller to more than the table size; on well-formed states the
`0xffff` backstop stops the scan long before the fuel runs out. -/
def updateScan (freq : Nat → Nat) (k l : Nat) : Nat → Nat
  | 0 => l
  | fuel + 1 => if k > freq l then updateScan freq k (l + 1) fuel else l

/-- The frequency increment `freq[c] += 1` opening each iteration of
`update`'s sorting loop. -/
def incFreq (g : Huff) (c : Nat) : Huff :=
  { g with freq := fun x => if x = c then g.freq c + 1 else g.freq x }

/-- The node exchange of `update`: swap the frequencies and sons of slots
`c` and `l` (`k = freq c` is the just-incremented frequency), fixing the
parent pointers of internal sons and the symbol map of leaf sons. -/
def swapNodes (g : Huff) (c l : Nat) : Huff :=
  let T := g.nodeCount
  let k := g.freq c
  let freq2 : Nat → Nat := fun x => if x = c then g.freq l else if x = l then k else g.freq x
  let i := g.son c
  let parent2 : Nat → Nat :=
    if i < T then fun x => if x = i ∨ x = i + 1 then l else g.parent x else g.parent
  let symbMap2 : Nat → Nat :=
    if i < T then g.symbMap else fun x => if x = i - T then l else g.symbMap x
  let j := g.son l
  let son2 : Nat → Nat := fun x => if x = l then i else g.son x
  let parent3 : Nat → Nat :=
    if j < T then fun x => if x = j ∨ x = j + 1 then c else parent2 x else parent2
  let symbMap3 : Nat → Nat :=
    if j < T then symbMap2 else fun x => if x = j - T then c else symbMap2 x
  let son3 : Nat → Nat := fun x => if x = c then j else son2 x
  { g with freq := freq2, parent := parent3, son := son3, symbMap := symbMap3 }

/-- One pass of the sorting loop of `update` (from the node `c` upward).
Each iteration increments `freq c`, swaps `c` with the farthest slot of
smaller frequency if the ascending order was disturbed, and moves to the
parent; it stops when the parent index is `0` (the root was processed). -/
def updateLoop (h : Huff) (c : Nat) : Nat → Huff
  | 0 => h
  | fuel + 1 =>
    let h1 := incFreq h c
    let k := h1.freq c
    if k > h1.freq (c + 1) then
      let l := updateScan h1.freq k (c + 1) (h1.nodeCount + 2) - 1
      let h2 := swapNodes h1 c l
      let c2 := h2.parent l
      if c2 = 0 then h2 else updateLoop h2 c2 fuel
    else
      let c2 := h1.parent c
      if c2 = 0 then h1 else updateLoop h1 c2 fuel

/-- Leaf-collection pass of `rebuild_huff`: leaves are packed to the left in
slot order with halved frequencies `(freq+1)/2`.  The source reads `freq[i]`
and `son[i]` from the partially rewritten arrays, but since the write index
`j` never catches up with the read index `i` before the read, the values read
are the original ones, as used here. -/
def collectLeaves (T : Nat) (freq son : Nat → Nat) : Nat × (Nat → Nat) × (Nat → Nat) :=
  (List.range T).foldl
    (fun acc i =>
      if son i ≥ T then
        (acc.1 + 1,
         fun x => if x = acc.1 then (freq i + 1) / 2 else acc.2.1 x,
         fun x => if x = acc.1 then son i else acc.2.2 x)
      else acc)
    (0, freq, son)

/-- Downward scan of `rebuild_huff`: `while f < freq[k] { k -= 1 }`, returning
the final `k`.  (If `f` were below every frequency the source would underflow
at `k = 0`; that situation cannot arise on the states considered.) -/
def scanDown (freq : Nat → Nat) (f : Nat) : Nat → Nat
  | 0 => 0
  | k + 1 => if f < freq (k + 1) then scanDown freq f k else k + 1

/-- The descending copy loop `for kp in (k..k+l).rev() { g[kp+1] = g[kp] }`.
The argument is the iteration count `l`; iterations run from `kp = k+l-1`
down to `kp = k`. -/
def shiftLoop (g : Nat → Nat) (k : Nat) : Nat → (Nat → Nat)
  | 0 => g
  | m + 1 => shiftLoop (fun x => if x = k + m + 1 then g (k + m) else g x) k m

/-- Parent-construction loop of `rebuild_huff`: for each `j` from `num_symb`
to `node_count - 1`, sum the pair at `(i, i+1)`, find the insertion slot `k`
keeping `freq` ascending, right-shift `(j-k)*2` slots of `freq` and `son`,
and write the new node at `k`. -/
def rebuildLoop (T : Nat) (freq son : Nat → Nat) (i j : Nat) : (Nat → Nat) × (Nat → Nat) :=
  if _h : j < T then
    let f := freq i + freq (i + 1)
    let freqA : Nat → Nat := fun x => if x = j then f else freq x
    let k := scanDown freqA f (j - 1) + 1
    let l := (j - k) * 2
    let freqB := shiftLoop freqA k l
    let freqC : Nat → Nat := fun x => if x = k then f else freqB x
    let sonB := shiftLoop son k l
    let sonC : Nat → Nat := fun x => if x = k then i else sonB x
    rebuildLoop T freqC sonC (i + 2) (j + 1)
  else (freq, son)
termination_by T - j

/-- Final pass of `rebuild_huff`: reconnect `parent` (for internal sons) and
`symb_map` (for leaf sons) from the rebuilt `son` array. -/
def connectParents (T : Nat) (son : Nat → Nat) (parent symbMap : Nat → Nat) :
    (Nat → Nat) × (Nat → Nat) :=
  (List.range T).foldl
    (fun ps i =>
      let k := son i
      if k ≥ T then (ps.1, fun x => if x = k - T then i else ps.2 x)
      else ((fun x => if x = k ∨ x = k + 1 then i else ps.1 x), ps.2))
    (parent, symbMap)

/-- `rebuild_huff`. -/
def rebuildHuff (h : Huff) : Huff :=
  let T := h.nodeCount
  let c := collectLeaves T h.freq h.son
  let fs := rebuildLoop T c.2.1 c.2.2 0 h.numSymb
  let ps := connectParents T fs.2 h.parent h.symbMap
  { h with freq := fs.1, son := fs.2, parent := ps.1, symbMap := ps.2 }

/-- `update`: rebuild on saturation, then run the sorting loop from the leaf
of the symbol.  The loop fuel `node_count + 1` covers the longest possible
leaf-to-root walk of a well-formed table. -/
def update (h : Huff) (c0 : Nat) : Huff :=
  let h1 := if h.freq h.rootIdx = Huff.maxFreq then h.rebuildHuff else h
  updateLoop h1 (h1.symbMap c0) (h1.nodeCount + 1)

/-- `get_bit`: one bit at the internal pointer; at end of input returns `0`
without advancing the pointer. -/
def getBit (h : Huff) : Nat × Huff :=
  match h.bits.get? h.ptr with
  | some b => (if b then 1 else 0, { h with ptr := h.ptr + 1 })
  | none => (0, h)

/-- Accumulating bit reader: `acc = acc*2 + bit`, `n` times (the source ORs
the new bit into the shifted accumulator, which is the same operation). -/
def readBits (h : Huff) (acc : Nat) : Nat → Nat × Huff
  | 0 => (acc, h)
  | n + 1 =>
    let b := h.getBit
    readBits b.2 (acc * 2 + b.1) n

/-- `get_byte`: the next 8 bits, MSB first. -/
def getByte (h : Huff) : Nat × Huff := h.readBits 0 8

/-- `decode_position`: read 8 bits, look up `D_CODE`/`D_LEN`, consume
`D_LEN - 2` further bits into the scratch register, and combine the upper 6
bits with the lower 6 bits of the register.  (The `u16` register cannot
overflow: at most `255 * 64 + 63`.) -/
def decodePosition (h : Huff) : Nat × Huff :=
  let r8 := h.getByte
  let upper6 := (dCode r8.1) <<< 6
  let codedBits := dLen r8.1
  let reg := r8.2.readBits r8.1 (codedBits - 2)
  (upper6 ||| (reg.1 &&& 0x3f), reg.2)

/-- Root-to-leaf walk of `decode_char`; fuel covers the tree depth. -/
def decodeCharLoop (h : Huff) (c : Nat) : Nat → Nat × Huff
  | 0 => (c, h)
  | fuel + 1 =>
    if c < h.nodeCount then
      let b := h.getBit
      decodeCharLoop b.2 (b.2.son (c + b.1)) fuel
    else (c, h)

/-- `decode_char`. -/
def decodeChar (h : Huff) : Nat × Huff :=
  let w := h.decodeCharLoop (h.son h.rootIdx) (h.nodeCount + 1)
  let c2 := w.1 - h.nodeCount
  (c2, w.2.update c2)

end Huff

/-- `put_code`: append the top `numBits` bits of the 16-bit `code` to the
output, MSB first. -/
def putCode (numBits code : Nat) (obuf : List Bool) : List Bool :=
  obuf ++ (List.range numBits).map (fun t => decide ((code <<< t) &&& 0x8000 ≠ 0))

namespace Huff

/-- Leaf-to-root walk of `encode_char`, accumulating the path bits in
reverse into a 16-bit register; returns (bit count, register). -/
def encodeCharLoop (h : Huff) (i j k : Nat) : Nat → Nat × Nat
  | 0 => (j, i)
  | fuel + 1 =>
    let i2 := i / 2 + (if k % 2 = 1 then 0x8000 else 0)
    let j2 := j + 1
    let k2 := h.parent k
    if k2 = h.rootIdx then (j2, i2) else encodeCharLoop h i2 j2 k2 fuel

/-- `encode_char`. -/
def encodeChar (h : Huff) (c : Nat) (obuf : List Bool) : Huff × List Bool :=
  let ji := h.encodeCharLoop 0 0 (h.symbMap c) (h.nodeCount + 1)
  (h.update c, putCode ji.1 ji.2 obuf)

/-- `encode_position`. -/
def encodePosition (c : Nat) (obuf : List Bool) : List Bool :=
  let i := c >>> 6
  putCode 6 ((c &&& 0x3f) <<< 10) (putCode (pLen i) ((pCode i) <<< 8) obuf)

end Huff

/-! ## LZSS stage, direct port (`direct_ports/lzhuf.rs`) -/

def WIN_SIZE : Nat := 4096
def LOOKAHEAD : Nat := 60
def THRESHOLD : Nat := 2
def NIL : Nat := WIN_SIZE

/-- LZSS state of the direct port: the dictionary (with the
`LOOKAHEAD - 1` mirror bytes after the ring proper) and the index-tree
pointer arrays.  `match_position` is an `i32` in the source. -/
structure LZSS where
  dict : Nat → Nat
  matchPosition : Int
  matchLength : Nat
  lson : Nat → Nat
  rson : Nat → Nat
  dad : Nat → Nat

namespace LZSS

/-- `LZSS::new` followed by `init_tree`. -/
def init : LZSS :=
  { dict := fun _ => 0
    matchPosition := 0
    matchLength := 0
    lson := fun _ => 0
    rson := fun x => if WIN_SIZE + 1 ≤ x ∧ x ≤ WIN_SIZE + 256 then NIL else 0
    dad := fun x => if x < WIN_SIZE then NIL else 0 }

/-- Inner comparison loop of `insert_node`: compare the keys at `r` and `p`
from byte `i` on; returns the match length and the difference (`cmp`) of the
first mismatching bytes (`0` if all `LOOKAHEAD` bytes match).  The fuel
`LOOKAHEAD - i` makes the recursion structural; it is exactly the number of
remaining iterations, so the `fuel = 0` fallback only fires when `i` has
already reached `LOOKAHEAD`. -/
def matchLenA (dict : Nat → Nat) (r p : Nat) : Nat → Nat → Nat × Int
  | 0, i => (i, 0)
  | fuel + 1, i =>
    if i < LOOKAHEAD then
      let cmp : Int := (dict (r + i) : Int) - (dict (p + i) : Int)
      if cmp ≠ 0 then (i, cmp) else matchLenA dict r p fuel (i + 1)
    else (i, 0)

def matchLen (dict : Nat → Nat) (r p i : Nat) : Nat × Int :=
  matchLenA dict r p (LOOKAHEAD - i) i

/-- Offset of a candidate match at dictionary position `p` relative to the
cursor `r`: `((r - p) & (WIN_SIZE-1)) - 1` in `i32` arithmetic; the
two's-complement AND with `WIN_SIZE - 1` is the nonnegative residue
mod `WIN_SIZE`. -/
def offsetOf (r p : Nat) : Int := ((r : Int) - (p : Int)).emod WIN_SIZE - 1

/-- The full-match replacement block at the end of `insert_node` (replace
node `p` by `r` in place). -/
def replaceNode (st : LZSS) (r p : Nat) : LZSS :=
  let d1 : Nat → Nat := fun x => if x = r then st.dad p else st.dad x
  let l1 : Nat → Nat := fun x => if x = r then st.lson p else st.lson x
  let r1 : Nat → Nat := fun x => if x = r then st.rson p else st.rson x
  let d2 : Nat → Nat := fun x => if x = l1 p then r else d1 x
  let d3 : Nat → Nat := fun x => if x = r1 p then r else d2 x
  let rl : (Nat → Nat) × (Nat → Nat) :=
    if r1 (d3 p) = p then ((fun x => if x = d3 p then r else r1 x), l1)
    else (r1, (fun x => if x = d3 p then r else l1 x))
  let d4 : Nat → Nat := fun x => if x = p then NIL else d3 x
  { st with dad := d4, lson := rl.2, rson := rl.1 }

/-- One candidate update of `insert_node` (the two `if` blocks guarded by
`i > THRESHOLD`); returns the updated `(match_position, match_length)`. -/
def candStep (best : Int × Nat) (off : Int) (i : Nat) : Int × Nat :=
  if i > THRESHOLD then
    let b1 := if i > best.2 then (off, i) else best
    if i = b1.2 ∧ off < b1.1 then (off, b1.2) else b1
  else best

/-- Main descent loop of `insert_node`.  Each iteration moves to the son on
the side selected by the last comparison (`cmp >= 0`: right), attaching `r`
and stopping if that son is `NIL`; otherwise it compares the keys, folds the
visited candidate into the match bookkeeping, and either replaces the node in
situ on a full-`LOOKAHEAD` match or descends further.  Alongside the state it
returns the (ghost) list of candidates visited as `(offset, length)` pairs,
newest last; the list is not part of the Rust state and only instruments the
proof. -/
def insertLoop (st : LZSS) (r p : Nat) (cmp : Int) (cands : List (Int × Nat)) :
    Nat → LZSS × List (Int × Nat)
  | 0 => (st, cands)
  | fuel + 1 =>
    let next := if cmp ≥ 0 then st.rson p else st.lson p
    if next ≠ NIL then
      let mc := matchLen st.dict r next 1
      let off := offsetOf r next
      let best := candStep (st.matchPosition, st.matchLength) off mc.1
      let st2 : LZSS := { st with matchPosition := best.1, matchLength := best.2 }
      let cands2 := cands ++ [(off, mc.1)]
      if st2.matchLength ≥ LOOKAHEAD then (replaceNode st2 r next, cands2)
      else insertLoop st2 r next mc.2 cands2 fuel
    else
      if cmp ≥ 0 then
        ({ st with rson := fun x => if x = p then r else st.rson x,
                   dad := fun x => if x = r then p else st.dad x }, cands)
      else
        ({ st with lson := fun x => if x = p then r else st.lson x,
                   dad := fun x => if x = r then p else st.dad x }, cands)

/-- `insert_node(r)`: reset the match bookkeeping, seed the descent at the
root slot of the first key byte (initial `cmp = 1`), and descend.  Fuel
bounds the descent depth; `WIN_SIZE + 1` covers any acyclic tree. -/
def insertNode (st : LZSS) (r : Nat) : LZSS × List (Int × Nat) :=
  let p := WIN_SIZE + 1 + st.dict r
  let st1 : LZSS :=
    { st with rson := fun x => if x = r then NIL else st.rson x,
              lson := fun x => if x = r then NIL else st.lson x,
              matchLength := 0 }
  insertLoop st1 r p 1 [] (WIN_SIZE + 1)

/-- Right-spine descent in `delete_node`: `loop { q = rson[q]; if rson[q] == NIL break }`. -/
def rightTerminus (rson : Nat → Nat) (q : Nat) : Nat → Nat
  | 0 => q
  | fuel + 1 =>
    let q2 := rson q
    if rson q2 = NIL then q2 else rightTerminus rson q2 fuel

/-- `delete_node(p)`. -/
def deleteNode (st : LZSS) (p : Nat) : LZSS :=
  if st.dad p = NIL then st
  else
    let qstate : Nat × LZSS :=
      if st.rson p = NIL then (st.lson p, st)
      else if st.lson p = NIL then (st.rson p, st)
      else
        let q0 := st.lson p
        let st1 :=
          if st.rson q0 ≠ NIL then
            let q := rightTerminus st.rson q0 (WIN_SIZE + 1)
            let rs1 : Nat → Nat := fun x => if x = st.dad q then st.lson q else st.rson x
            let dd1 : Nat → Nat := fun x => if x = st.lson q then st.dad q else st.dad x
            let ls1 : Nat → Nat := fun x => if x = q then st.lson p else st.lson x
            let dd2 : Nat → Nat := fun x => if x = st.lson p then q else dd1 x
            (q, { st with rson := rs1, dad := dd2, lson := ls1 })
          else (q0, st)
        let q := st1.1
        let s2 := st1.2
        let rs2 : Nat → Nat := fun x => if x = q then s2.rson p else s2.rson x
        let dd3 : Nat → Nat := fun x => if x = s2.rson p then q else s2.dad x
        (q, { s2 with rson := rs2, dad := dd3 })
    let q := qstate.1
    let s3 := qstate.2
    let dd4 : Nat → Nat := fun x => if x = q then s3.dad p else s3.dad x
    let s4 : LZSS :=
      if s3.rson (s3.dad p) = p then
        { s3 with dad := dd4, rson := fun x => if x = s3.dad p then q else s3.rson x }
      else
        { s3 with dad := dd4, lson := fun x => if x = s3.dad p then q else s3.lson x }
    { s4 with dad := fun x => if x = p then NIL else s4.dad x }

end LZSS

/-! ## Byte/bit conversions (`bit_vec::BitVec`) -/

/-- Bits of one byte, most significant first (`BitVec::from_bytes`). -/
def byteBits (b : Nat) : List Bool :=
  (List.range 8).map (fun t => decide ((b <<< t) &&& 0x80 ≠ 0))

/-- Bit stream of a byte list, MSB-first within each byte. -/
def bitsOfBytes (bs : List Nat) : List Bool := bs.flatMap byteBits

/-- Value of a bit list read MSB-first. -/
def valOfBits (bs : List Bool) : Nat :=
  bs.foldl (fun a b => a * 2 + (if b then 1 else 0)) 0

/-- `BitVec::to_bytes`: pack bits into bytes MSB-first, zero-padding the
trailing partial byte. -/
def bitsToBytes (bits : List Bool) : List Nat :=
  if _h : bits = [] then []
  else valOfBits ((bits ++ List.replicate 7 false).take 8) :: bitsToBytes (bits.drop 8)
termination_by bits.length
decreasing_by
  simp only [List.length_drop]
  have : bits.length ≠ 0 := fun hz => _h (List.eq_nil_of_length_eq_zero hz)
  omega

/-- Little-endian bytes of `n as u32` (`u32::to_le_bytes`). -/
def le32 (n : Nat) : List Nat :=
  [n % 256, n / 256 % 256, n / 65536 % 256, n / 16777216 % 256]

/-- Error kinds of `crate::Error`, with `io` for propagated stream errors. -/
inductive Error where
  | fileFormatMismatch
  | fileTooLarge
  | badChecksum
  | io
deriving DecidableEq, Repr

/-! ## LZHUF encoder (`direct_ports/lzhuf.rs::encode`) -/

/-- Number of symbols of the LZHUF Huffman coder:
`N_CHAR = 256 - THRESHOLD + LOOKAHEAD`. -/
def N_CHAR : Nat := 256 - THRESHOLD + LOOKAHEAD

/-- `match_position as u16` (the `i32` is reinterpreted mod 2^16). -/
def posToU16 (z : Int) : Nat := (z.emod 65536).toNat

/-- State threaded through the encoder main loop. -/
structure EncState where
  lzss : LZSS
  huff : Huff
  obuf : List Bool
  input : List Nat
  s : Nat
  r : Nat
  len : Nat

/-- First inner loop of the encoder: read a byte, slide the window
(`delete_node`, store, mirror, advance, `insert_node`), `i` counting up to
`last_match_length`; breaks when the input is exhausted.  Returns the state
and the number of iterations completed. -/
def encInner1 (st : EncState) (i last : Nat) : Nat → EncState × Nat
  | 0 => (st, i)
  | fuel + 1 =>
    if i < last then
      match st.input with
      | [] => (st, i)
      | c :: rest =>
        let lz1 := (st.lzss.deleteNode st.s)
        let dict2 : Nat → Nat := fun x =>
          if x = st.s then c
          else if st.s < LOOKAHEAD - 1 ∧ x = st.s + WIN_SIZE then c
          else lz1.dict x
        let s2 := (st.s + 1) % WIN_SIZE
        let r2 := (st.r + 1) % WIN_SIZE
        let lz2 := (({ lz1 with dict := dict2 } : LZSS).insertNode r2).1
        encInner1 { st with lzss := lz2, input := rest, s := s2, r := r2 } (i + 1) last fuel
    else (st, i)

/-- Initial dictionary of the encoder: positions `0 .. WIN_SIZE-LOOKAHEAD`
backfilled with spaces, then up to `LOOKAHEAD` input bytes at `r`. -/
def encInitDict (ibuf : List Nat) : Nat → Nat := fun x =>
  if x < WIN_SIZE - LOOKAHEAD then 32
  else if x < WIN_SIZE - LOOKAHEAD + min LOOKAHEAD ibuf.length then
    ibuf.getD (x - (WIN_SIZE - LOOKAHEAD)) 0
  else 0

/-- The priming inserts: `insert_node(r - i)` for `i = 1 ..= LOOKAHEAD`,
then `insert_node(r)`. -/
def encPrime (lz : LZSS) (r : Nat) : Nat → LZSS
  | 0 => (lz.insertNode r).1
  | i + 1 => encPrime ((lz.insertNode (r - (LOOKAHEAD - i))).1) r i

/-- Second inner loop (the input is exhausted; keep sliding and shrinking
`len`, re-indexing while `len > 0`), with the `usize` subtraction modelled
faithfully as fallible: `len -= 1` with `len = 0` is an arithmetic-overflow
program error in Rust (debug builds panic; release builds wrap to
`2^64 - 1`, after which the `len <= 0` exit test cannot succeed for another
`2^64 - 1` decrements, so the loop keeps emitting tokens without bound).
`none` marks that error. -/
def encInner2Checked (st : EncState) (i last : Nat) : Nat → Option EncState
  | 0 => some st
  | fuel + 1 =>
    if i < last then
      let lz1 := st.lzss.deleteNode st.s
      let s2 := (st.s + 1) % WIN_SIZE
      let r2 := (st.r + 1) % WIN_SIZE
      if st.len = 0 then none
      else
        let len2 := st.len - 1
        let lz2 := if len2 > 0 then (lz1.insertNode r2).1 else lz1
        encInner2Checked { st with lzss := lz2, s := s2, r := r2, len := len2 }
          (i + 1) last fuel
    else some st

/-- Encoder main loop over the checked second inner loop. -/
def encMainChecked (st : EncState) : Nat → Option EncState
  | 0 => some st
  | fuel + 1 =>
    let ml := if st.lzss.matchLength > st.len then st.len else st.lzss.matchLength
    let st1 : EncState :=
      if ml ≤ THRESHOLD then
        let hb := st.huff.encodeChar (st.lzss.dict st.r) st.obuf
        { st with lzss := { st.lzss with matchLength := 1 }, huff := hb.1, obuf := hb.2 }
      else
        let hb := st.huff.encodeChar (255 - THRESHOLD + ml) st.obuf
        let ob2 := Huff.encodePosition (posToU16 st.lzss.matchPosition) hb.2
        { st with lzss := { st.lzss with matchLength := ml }, huff := hb.1, obuf := ob2 }
    let last := st1.lzss.matchLength
    let w1 := encInner1 st1 0 last (last + 1)
    match encInner2Checked w1.1 w1.2 last (last + 1) with
    | none => none
    | some st2 => if st2.len = 0 then some st2 else encMainChecked st2 fuel

/-- `encode`'s bitstream with the checked length bookkeeping. -/
def encodeBodyChecked (ibuf : List Nat) : Option (List Bool) :=
  let r := WIN_SIZE - LOOKAHEAD
  let len := min LOOKAHEAD ibuf.length
  let lz0 : LZSS := { LZSS.init with dict := encInitDict ibuf }
  let lz1 := encPrime lz0 r LOOKAHEAD
  let huff := (Huff.create [] N_CHAR).startHuff
  let st0 : EncState :=
    { lzss := lz1, huff := huff, obuf := [], input := ibuf.drop len
      s := 0, r := r, len := len }
  (encMainChecked st0 (ibuf.length + LOOKAHEAD + 1)).map (fun st => st.obuf)

/-- `encode` with the checked length bookkeeping: `none` when the size gate
rejects the input or when the main loop hits the `len -= 1` underflow. -/
def lzhufEncodeChecked (ibuf : List Nat) : Option (List Nat) :=
  if ibuf.length ≥ 4294967295 then none
  else (encodeBodyChecked ibuf).map
    (fun body => le32 ibuf.length ++ bitsToBytes body)

/-- The head of one main-loop iteration (everything before the two inner
loops): clamp `match_length` to `len`, emit either a literal or a
length/position pair, and record `last_match_length` in `matchLength`.
`encMainChecked (fuel+1)` is definitionally this step followed by the two
inner loops (`encMainChecked_eq` below). -/
def encStep1 (st : EncState) : EncState :=
  let ml := if st.lzss.matchLength > st.len then st.len else st.lzss.matchLength
  if ml ≤ THRESHOLD then
    let hb := st.huff.encodeChar (st.lzss.dict st.r) st.obuf
    { st with lzss := { st.lzss with matchLength := 1 }, huff := hb.1, obuf := hb.2 }
  else
    let hb := st.huff.encodeChar (255 - THRESHOLD + ml) st.obuf
    let ob2 := Huff.encodePosition (posToU16 st.lzss.matchPosition) hb.2
    { st with lzss := { st.lzss with matchLength := ml }, huff := hb.1, obuf := ob2 }

/-- `encode` with all three outcomes separated: `some (.error .fileTooLarge)`
when the size gate fires, `some (.ok out)` when compression completes and
returns, and `none` when the body hits the `len -= 1` usize overflow (a
program error, not a returned `Err`). -/
def lzhufEncodeE (ibuf : List Nat) : Option (Except Error (List Nat)) :=
  if ibuf.length ≥ 4294967295 then some (.error .fileTooLarge)
  else (encodeBodyChecked ibuf).map
    (fun body => .ok (le32 ibuf.length ++ bitsToBytes body))

/-! ## LZHUF decoder (`lzss_huff.rs::expand`) -/

/-- Match-copy inner loop of `expand`: `strlen` iterations of read at
relative offset `-(dpos+1)`, push, store at the cursor, advance. -/
def copyLoop (ring : Nat → Nat) (pos : Nat) (ans : List Nat) (dpos : Nat) :
    Nat → (Nat → Nat) × Nat × List Nat
  | 0 => (ring, pos, ans)
  | k + 1 =>
    let src := (((pos : Int) - (dpos : Int) - 1).emod WIN_SIZE).toNat
    let c8 := ring src
    copyLoop (fun x => if x = pos then c8 else ring x) ((pos + 1) % WIN_SIZE)
      (ans ++ [c8]) dpos k

/-- Decoder main loop: `while ans.len() < textsize`.  Each iteration decodes
one symbol; a literal appends one byte, a length-code appends
`c + THRESHOLD - 255 ≥ 3` bytes, so `textsize` iterations of fuel always
suffice to reach `textsize` bytes. -/
def expandLoop (huff : Huff) (ring : Nat → Nat) (pos : Nat) (ans : List Nat)
    (textsize : Nat) : Nat → List Nat
  | 0 => ans
  | fuel + 1 =>
    if ans.length < textsize then
      let dc := huff.decodeChar
      if dc.1 < 256 then
        expandLoop dc.2 (fun x => if x = pos then dc.1 else ring x)
          ((pos + 1) % WIN_SIZE) (ans ++ [dc.1]) textsize fuel
      else
        let dp := dc.2.decodePosition
        let strlen := dc.1 + THRESHOLD - 255
        let w := copyLoop ring pos ans dp.1 strlen
        expandLoop dp.2 w.1 w.2.1 w.2.2 textsize fuel
    else ans

/-- `expand`: empty input returns empty without touching the header; inputs
of 1..3 bytes panic in the source when indexing `ibuf[1..4]` and are mapped
to `[]` here; otherwise read the 4-byte little-endian `textsize`, skip 32
bits, and run the decoder loop over the space-backfilled ring. -/
def expand (ibuf : List Nat) : List Nat :=
  match ibuf with
  | [] => []
  | b0 :: b1 :: b2 :: b3 :: _ =>
    let huff := ((Huff.create (bitsOfBytes ibuf) N_CHAR).startHuff).advance 32
    let textsize := b0 + 256 * b1 + 65536 * b2 + 16777216 * b3
    let ring0 : Nat → Nat := fun i => if i < WIN_SIZE - LOOKAHEAD then 32 else 0
    expandLoop huff ring0 (WIN_SIZE - LOOKAHEAD) [] textsize textsize
  | _ => []

/-! ## TD0 framing (`td0.rs`) -/

/-- Codec selected by the TD0 version byte. -/
inductive Codec where
  | lzw
  | lzhuf
deriving DecidableEq, Repr

/-- Header stage of `td0.rs::expand`: read the 12-byte header, require the
`"td"` signature, validate the CRC over bytes `[0..10]` against the
little-endian CRC at `[10..12]`, flip the signature to `"TD"`, recompute and
rewrite the CRC, and dispatch on `header[4] < 20`.  Returns the rewritten
header and the selected payload codec; the payload transformation itself is
delegated to the selected codec.  A short read surfaces as an IO error. -/
def td0ExpandHeader (ibuf : List Nat) : Except Error (List Nat × Codec) :=
  if ibuf.length < 12 then .error .io
  else
    let hdr := ibuf.take 12
    if hdr.take 2 ≠ [0x74, 0x64] then .error .fileFormatMismatch
    else
      let crc := crc16 0 (hdr.take 10)
      if [crc % 256, crc / 256] ≠ hdr.drop 10 then .error .badChecksum
      else
        let hdr2 := [0x54, 0x44] ++ ((hdr.drop 2).take 8)
        let crc2 := crc16 0 hdr2
        let outHdr := hdr2 ++ [crc2 % 256, crc2 / 256]
        if hdr.getD 4 0 < 20 then .ok (outHdr, .lzw) else .ok (outHdr, .lzhuf)

/-- Header stage of `td0.rs::compress` (the mirror image: requires `"TD"`,
flips to `"td"`). -/
def td0CompressHeader (ibuf : List Nat) : Except Error (List Nat × Codec) :=
  if ibuf.length < 12 then .error .io
  else
    let hdr := ibuf.take 12
    if hdr.take 2 ≠ [0x54, 0x44] then .error .fileFormatMismatch
    else
      let crc := crc16 0 (hdr.take 10)
      if [crc % 256, crc / 256] ≠ hdr.drop 10 then .error .badChecksum
      else
        let hdr2 := [0x74, 0x64] ++ ((hdr.drop 2).take 8)
        let crc2 := crc16 0 hdr2
        let outHdr := hdr2 ++ [crc2 % 256, crc2 / 256]
        if hdr.getD 4 0 < 20 then .ok (outHdr, .lzw) else .ok (outHdr, .lzhuf)

/-! ## Supporting lemmas -/

theorem copyLoop_length (dpos : Nat) :
    ∀ (k : Nat) (ring : Nat → Nat) (pos : Nat) (ans : List Nat),
      (copyLoop ring pos ans dpos k).2.2.length = ans.length + k := by
  intro k
  induction k with
  | zero => intro ring pos ans; simp [copyLoop]
  | succ m ih =>
    intro ring pos ans
    simp only [copyLoop]
    rw [ih]
    simp
    omega

theorem expandLoop_length (textsize : Nat) :
    ∀ (fuel : Nat) (huff : Huff) (ring : Nat → Nat) (pos : Nat) (ans : List Nat),
      min textsize (ans.length + fuel) ≤ (expandLoop huff ring pos ans textsize fuel).length := by
  intro fuel
  induction fuel with
  | zero => intro huff ring pos ans; simp [expandLoop]
  | succ m ih =>
    intro huff ring pos ans
    simp only [expandLoop]
    by_cases hlt : ans.length < textsize
    · simp only [if_pos hlt]
      by_cases hc : (huff.decodeChar).1 < 256
      · simp only [if_pos hc]
        refine le_trans ?_ (ih _ _ _ _)
        simp
        omega
      · simp only [if_neg hc]
        refine le_trans ?_ (ih _ _ _ _)
        have hcl := copyLoop_length ((huff.decodeChar).2.decodePosition).1
          ((huff.decodeChar).1 + THRESHOLD - 255) ring pos ans
        rw [hcl]
        have h3 : 1 ≤ (huff.decodeChar).1 + THRESHOLD - 255 := by
          simp only [THRESHOLD]; omega
        omega
    · simp only [if_neg hlt]
      omega

theorem valOfBits_foldl (bs : List Bool) :
    ∀ a : Nat, bs.foldl (fun x b => x * 2 + (if b then 1 else 0)) a =
      a * 2 ^ bs.length + valOfBits bs := by
  induction bs with
  | nil => intro a; simp [valOfBits]
  | cons b t ih =>
    intro a
    rw [List.foldl_cons, ih]
    have hv : valOfBits (b :: t) = (if b then 1 else 0) * 2 ^ t.length + valOfBits t := by
      show List.foldl _ 0 (b :: t) = _
      rw [List.foldl_cons, ih]
      ring
    rw [hv, List.length_cons]
    ring

theorem valOfBits_cons (b : Bool) (t : List Bool) :
    valOfBits (b :: t) = (if b then 1 else 0) * 2 ^ t.length + valOfBits t := by
  show List.foldl _ 0 (b :: t) = _
  rw [List.foldl_cons, valOfBits_foldl]
  ring

theorem valOfBits_append (u v : List Bool) :
    valOfBits (u ++ v) = valOfBits u * 2 ^ v.length + valOfBits v := by
  show List.foldl _ 0 (u ++ v) = _
  rw [List.foldl_append, valOfBits_foldl]
  rfl

theorem valOfBits_lt (bs : List Bool) : valOfBits bs < 2 ^ bs.length := by
  induction bs with
  | nil => simp [valOfBits]
  | cons b t ih =>
    rw [valOfBits_cons, List.length_cons]
    have h2 : (if b then 1 else 0) * 2 ^ t.length ≤ 2 ^ t.length := by
      cases b <;> simp
    have h3 : 2 ^ (t.length + 1) = 2 ^ t.length + 2 ^ t.length := by ring
    omega

theorem readBits_spec :
    ∀ (n : Nat) (h : Huff) (acc : Nat), h.ptr + n ≤ h.bits.length →
      h.readBits acc n =
        (acc * 2 ^ n + valOfBits ((h.bits.drop h.ptr).take n),
         { h with ptr := h.ptr + n }) := by
  intro n
  induction n with
  | zero =>
    intro h acc _
    simp [Huff.readBits, valOfBits]
  | succ n ih =>
    intro h acc hin
    have hlt : h.ptr < h.bits.length := by omega
    have hbit : h.getBit =
        ((if h.bits[h.ptr] then 1 else 0), { h with ptr := h.ptr + 1 }) := by
      unfold Huff.getBit
      rw [List.get?_eq_getElem?, List.getElem?_eq_getElem hlt]
    show Huff.readBits (h.getBit).2 (acc * 2 + (h.getBit).1) n = _
    rw [hbit]
    rw [ih _ _ (by show h.ptr + 1 + n ≤ h.bits.length; omega)]
    have hdc : h.bits.drop h.ptr = h.bits[h.ptr] :: h.bits.drop (h.ptr + 1) :=
      List.drop_eq_getElem_cons hlt
    have hlen : ((h.bits.drop (h.ptr + 1)).take n).length = n := by
      rw [List.length_take, List.length_drop]
      omega
    simp only [Prod.mk.injEq]
    constructor
    · rw [hdc, List.take_succ_cons, valOfBits_cons, hlen]
      ring
    · simp only [Huff.mk.injEq, and_true, true_and]
      omega

theorem dLen_bounds : ∀ b : Nat, b < 256 → 3 ≤ dLen b ∧ dLen b ≤ 8 := by decide

/-! ## Adaptive-Huffman invariants (sibling property and tree structure) -/

namespace Huff

/-- Well-formedness of the Huffman table, as maintained by `start_huff`,
`update` and `rebuild_huff`: ascending frequencies with the `0xffff`
backstop, exact parent sums, and mutually inverse `son`/`parent`/`symb_map`
links.  `T = node_count`, `R = root`. -/
structure HInv (h : Huff) : Prop where
  hn : 2 ≤ h.numSymb
  hnMax : h.numSymb ≤ 0x4000
  backstop : h.freq h.nodeCount = 0xffff
  sorted : ∀ i, i < h.nodeCount → h.freq i ≤ h.freq (i + 1)
  rootLe : h.freq h.rootIdx ≤ Huff.maxFreq
  freqPos : ∀ i, i < h.nodeCount → 1 ≤ h.freq i
  sumEq : ∀ i, i < h.nodeCount → h.son i < h.nodeCount →
      h.freq i = h.freq (h.son i) + h.freq (h.son i + 1)
  sonEven : ∀ i, i < h.nodeCount → h.son i < h.nodeCount → h.son i % 2 = 0
  sonLt : ∀ i, i < h.nodeCount → h.son i < h.nodeCount → h.son i + 1 < i
  sonRange : ∀ i, i < h.nodeCount → h.son i < h.nodeCount + h.numSymb
  parentSon : ∀ i, i < h.nodeCount → h.son i < h.nodeCount →
      h.parent (h.son i) = i ∧ h.parent (h.son i + 1) = i
  leafMap : ∀ i, i < h.nodeCount → h.nodeCount ≤ h.son i →
      h.son i - h.nodeCount < h.numSymb ∧ h.symbMap (h.son i - h.nodeCount) = i
  symbMapLt : ∀ s, s < h.numSymb → h.symbMap s < h.nodeCount
  symbMapSon : ∀ s, s < h.numSymb → h.son (h.symbMap s) = s + h.nodeCount
  parentLt : ∀ j, j < h.rootIdx → j < h.parent j
  parentBack : ∀ j, j < h.rootIdx →
      h.parent j < h.nodeCount ∧ (h.son (h.parent j) = j ∨ h.son (h.parent j) + 1 = j)
  parentRoot : h.parent h.rootIdx = 0
  rootInternal : h.son h.rootIdx < h.nodeCount

/-- Invariant at the head of each iteration of `update`'s sorting loop:
the table is well-formed except that the node `c` about to be incremented
is one short of the sum of its sons (its subtree already includes the new
occurrence).  The root has not been incremented yet. -/
structure UInv (g : Huff) (c : Nat) : Prop where
  hn : 2 ≤ g.numSymb
  hnMax : g.numSymb ≤ 0x4000
  backstop : g.freq g.nodeCount = 0xffff
  sorted : ∀ i, i < g.nodeCount → g.freq i ≤ g.freq (i + 1)
  rootLt : g.freq g.rootIdx < Huff.maxFreq
  freqPos : ∀ i, i < g.nodeCount → 1 ≤ g.freq i
  hc : c ≤ g.rootIdx
  sumEqOff : ∀ i, i < g.nodeCount → g.son i < g.nodeCount → i ≠ c →
      g.freq i = g.freq (g.son i) + g.freq (g.son i + 1)
  sumEqC : g.son c < g.nodeCount →
      g.freq c + 1 = g.freq (g.son c) + g.freq (g.son c + 1)
  sonEven : ∀ i, i < g.nodeCount → g.son i < g.nodeCount → g.son i % 2 = 0
  sonLt : ∀ i, i < g.nodeCount → g.son i < g.nodeCount → g.son i + 1 < i
  sonRange : ∀ i, i < g.nodeCount → g.son i < g.nodeCount + g.numSymb
  parentSon : ∀ i, i < g.nodeCount → g.son i < g.nodeCount →
      g.parent (g.son i) = i ∧ g.parent (g.son i + 1) = i
  leafMap : ∀ i, i < g.nodeCount → g.nodeCount ≤ g.son i →
      g.son i - g.nodeCount < g.numSymb ∧ g.symbMap (g.son i - g.nodeCount) = i
  symbMapLt : ∀ s, s < g.numSymb → g.symbMap s < g.nodeCount
  symbMapSon : ∀ s, s < g.numSymb → g.son (g.symbMap s) = s + g.nodeCount
  parentLt : ∀ j, j < g.rootIdx → j < g.parent j
  parentBack : ∀ j, j < g.rootIdx →
      g.parent j < g.nodeCount ∧ (g.son (g.parent j) = j ∨ g.son (g.parent j) + 1 = j)
  parentRoot : g.parent g.rootIdx = 0
  rootInternal : g.son g.rootIdx < g.nodeCount

theorem rootIdx_lt_nodeCount (h : Huff) (hn : 2 ≤ h.numSymb) :
    h.rootIdx < h.nodeCount := by
  unfold Huff.rootIdx Huff.nodeCount
  omega

/-- The scan of `update` computes the least stopping index when it lies
within the fuel. -/
theorem updateScan_eq (freq : Nat → Nat) (k : Nat) :
    ∀ (fuel l m : Nat), l ≤ m → m - l < fuel →
      (∀ x, l ≤ x → x < m → k > freq x) → ¬ k > freq m →
      updateScan freq k l fuel = m := by
  intro fuel
  induction fuel with
  | zero => intro l m h1 h2 _ _; omega
  | succ n ih =>
    intro l m h1 h2 hall hm
    unfold updateScan
    by_cases hlm : l = m
    · subst hlm
      rw [if_neg hm]
    · rw [if_pos (hall l (le_refl l) (by omega))]
      exact ih (l + 1) m (by omega) (by omega) (fun x hx1 hx2 => hall x (by omega) hx2) hm

theorem sorted_mono {h : Huff} (hs : ∀ i, i < h.nodeCount → h.freq i ≤ h.freq (i + 1)) :
    ∀ a b, a ≤ b → b ≤ h.nodeCount → h.freq a ≤ h.freq b := by
  intro a b hab hb
  induction b with
  | zero => have : a = 0 := by omega
            rw [this]
  | succ m ih =>
    by_cases ham : a = m + 1
    · rw [ham]
    · exact le_trans (ih (by omega) (by omega)) (hs m (by omega))

theorem incFreq_freq_self (g : Huff) (c : Nat) : (incFreq g c).freq c = g.freq c + 1 := by
  simp [incFreq]

theorem incFreq_freq_ne (g : Huff) (c x : Nat) (hx : x ≠ c) :
    (incFreq g c).freq x = g.freq x := by
  simp [incFreq, hx]

/-- In a `UInv` state the two sons of the root are the slots `R-2` and
`R-1`. -/
theorem root_sons {g : Huff} {c : Nat} (hI : UInv g c) :
    g.son g.rootIdx = g.rootIdx - 2 ∧ g.son g.rootIdx + 1 = g.rootIdx - 1 := by
  have hR1 : g.rootIdx - 1 < g.rootIdx := by
    have := hI.hn
    unfold Huff.rootIdx
    omega
  have hpl := hI.parentLt _ hR1
  obtain ⟨hpT, hback⟩ := hI.parentBack _ hR1
  -- the parent of R-1 is above R-1 and below T, hence it is R
  have hpR : g.parent (g.rootIdx - 1) = g.rootIdx := by
    have hTR : g.nodeCount = g.rootIdx + 1 := by
      unfold Huff.nodeCount Huff.rootIdx
      have := hI.hn
      omega
    omega
  rw [hpR] at hback
  have hlt := hI.sonLt _ (rootIdx_lt_nodeCount g hI.hn) hI.rootInternal
  rcases hback with hx | hx
  · -- son R = R - 1 would force son R + 1 = R, contradicting sonLt
    omega
  · omega

/-- Below the root the frequency of `R-1` is strictly below the root
frequency (the root is the exact sum of its two sons). -/
theorem freq_lt_root {g : Huff} {c : Nat} (hI : UInv g c) (hcR : c < g.rootIdx) :
    g.freq (g.rootIdx - 1) < g.freq g.rootIdx := by
  obtain ⟨h1, h2⟩ := root_sons hI
  have hsum := hI.sumEqOff g.rootIdx (rootIdx_lt_nodeCount g hI.hn) hI.rootInternal (by omega)
  have hpos : 1 ≤ g.freq (g.son g.rootIdx) := by
    apply hI.freqPos
    have := hI.sonLt _ (rootIdx_lt_nodeCount g hI.hn) hI.rootInternal
    have := rootIdx_lt_nodeCount g hI.hn
    omega
  rw [h2, h1] at hsum
  rw [h1] at hpos
  omega

/-- `k = freq c + 1` never exceeds `MAX_FREQ`, hence never reaches the
backstop. -/
theorem k_le_maxFreq {g : Huff} {c : Nat} (hI : UInv g c) :
    g.freq c + 1 ≤ Huff.maxFreq := by
  have hmono := sorted_mono hI.sorted c g.rootIdx hI.hc
    (le_of_lt (rootIdx_lt_nodeCount g hI.hn))
  have := hI.rootLt
  omega

/-- The no-swap step of the sorting loop: incrementing `freq c` keeps the
invariant, the deficit moving to the parent of `c`; at the root the full
invariant is restored. -/
theorem uinv_noswap {g : Huff} {c : Nat} (hI : UInv g c)
    (hns : g.freq c + 1 ≤ g.freq (c + 1)) :
    (c = g.rootIdx → HInv (incFreq g c)) ∧
    (c < g.rootIdx → UInv (incFreq g c) (g.parent c) ∧ c < g.parent c) := by
  have hT : g.rootIdx < g.nodeCount := rootIdx_lt_nodeCount g hI.hn
  have hTR : g.nodeCount = g.rootIdx + 1 := by
    unfold Huff.nodeCount Huff.rootIdx
    have := hI.hn
    omega
  constructor
  · -- c = root: the loop is about to exit; full invariant
    intro hcR
    exact {
      hn := hI.hn
      hnMax := hI.hnMax
      backstop := by
        show (incFreq g c).freq g.nodeCount = 0xffff
        rw [incFreq_freq_ne _ _ _ (by omega)]
        exact hI.backstop
      sorted := by
        intro i hi
        replace hi : i < g.nodeCount := hi
        show (incFreq g c).freq i ≤ (incFreq g c).freq (i + 1)
        by_cases hic : i = c
        · rw [hic, incFreq_freq_self, incFreq_freq_ne _ _ _ (by omega)]
          have hb := hI.backstop
          have hk := k_le_maxFreq hI
          have hTeq : c + 1 = g.nodeCount := by omega
          rw [hTeq, hb]
          unfold Huff.maxFreq at hk
          omega
        · by_cases hic1 : i + 1 = c
          · rw [incFreq_freq_ne _ _ _ hic, hic1, incFreq_freq_self]
            have hx := hI.sorted i hi
            rw [hic1] at hx
            omega
          · rw [incFreq_freq_ne _ _ _ hic, incFreq_freq_ne _ _ _ hic1]
            exact hI.sorted i hi
      rootLe := by
        show (incFreq g c).freq g.rootIdx ≤ Huff.maxFreq
        rw [← hcR, incFreq_freq_self]
        rw [hcR]
        exact hI.rootLt
      freqPos := by
        intro i hi
        replace hi : i < g.nodeCount := hi
        show 1 ≤ (incFreq g c).freq i
        by_cases hic : i = c
        · rw [hic, incFreq_freq_self]
          omega
        · rw [incFreq_freq_ne _ _ _ hic]
          exact hI.freqPos i hi
      sumEq := by
        intro i hi hson
        replace hi : i < g.nodeCount := hi
        replace hson : g.son i < g.nodeCount := hson
        have hsons_lt : g.son i + 1 < i := hI.sonLt i hi hson
        show (incFreq g c).freq i =
          (incFreq g c).freq (g.son i) + (incFreq g c).freq (g.son i + 1)
        by_cases hic : i = c
        · rw [hic] at hsons_lt hson ⊢
          have hx := hI.sumEqC hson
          rw [incFreq_freq_self,
            incFreq_freq_ne _ _ _ (by omega), incFreq_freq_ne _ _ _ (by omega)]
          omega
        · rw [incFreq_freq_ne _ _ _ hic,
            incFreq_freq_ne _ _ _ (by omega), incFreq_freq_ne _ _ _ (by omega)]
          exact hI.sumEqOff i hi hson hic
      sonEven := hI.sonEven
      sonLt := hI.sonLt
      sonRange := hI.sonRange
      parentSon := hI.parentSon
      leafMap := hI.leafMap
      symbMapLt := hI.symbMapLt
      symbMapSon := hI.symbMapSon
      parentLt := hI.parentLt
      parentBack := hI.parentBack
      parentRoot := hI.parentRoot
      rootInternal := hI.rootInternal }
  · -- c below the root: move to the parent
    intro hcR
    have hpar := hI.parentLt c hcR
    obtain ⟨hpT, hback⟩ := hI.parentBack c hcR
    refine ⟨?_, hpar⟩
    have hsonpT : g.son (g.parent c) < g.nodeCount := by
      rcases hback with hx | hx <;> omega
    exact {
      hn := hI.hn
      hnMax := hI.hnMax
      hc := by
        show g.parent c ≤ g.rootIdx
        omega
      backstop := by
        show (incFreq g c).freq g.nodeCount = 0xffff
        rw [incFreq_freq_ne _ _ _ (by omega)]
        exact hI.backstop
      sorted := by
        intro i hi
        replace hi : i < g.nodeCount := hi
        show (incFreq g c).freq i ≤ (incFreq g c).freq (i + 1)
        by_cases hic : i = c
        · rw [hic, incFreq_freq_self, incFreq_freq_ne _ _ _ (by omega)]
          exact hns
        · by_cases hic1 : i + 1 = c
          · rw [incFreq_freq_ne _ _ _ hic, hic1, incFreq_freq_self]
            have hx := hI.sorted i hi
            rw [hic1] at hx
            omega
          · rw [incFreq_freq_ne _ _ _ hic, incFreq_freq_ne _ _ _ hic1]
            exact hI.sorted i hi
      rootLt := by
        show (incFreq g c).freq g.rootIdx < Huff.maxFreq
        rw [incFreq_freq_ne _ _ _ (by omega)]
        exact hI.rootLt
      freqPos := by
        intro i hi
        replace hi : i < g.nodeCount := hi
        show 1 ≤ (incFreq g c).freq i
        by_cases hic : i = c
        · rw [hic, incFreq_freq_self]
          omega
        · rw [incFreq_freq_ne _ _ _ hic]
          exact hI.freqPos i hi
      sumEqOff := by
        intro i hi hson hine
        replace hi : i < g.nodeCount := hi
        replace hson : g.son i < g.nodeCount := hson
        have hsons_lt : g.son i + 1 < i := hI.sonLt i hi hson
        show (incFreq g c).freq i =
          (incFreq g c).freq (g.son i) + (incFreq g c).freq (g.son i + 1)
        by_cases hic : i = c
        · rw [hic] at hsons_lt hson ⊢
          have hx := hI.sumEqC hson
          rw [incFreq_freq_self,
            incFreq_freq_ne _ _ _ (by omega), incFreq_freq_ne _ _ _ (by omega)]
          omega
        · have hs1 : g.son i ≠ c := by
            intro hx
            have hy := (hI.parentSon i hi hson).1
            rw [hx] at hy
            omega
          have hs2 : g.son i + 1 ≠ c := by
            intro hx
            have hy := (hI.parentSon i hi hson).2
            rw [hx] at hy
            omega
          rw [incFreq_freq_ne _ _ _ hic, incFreq_freq_ne _ _ _ hs1,
            incFreq_freq_ne _ _ _ hs2]
          exact hI.sumEqOff i hi hson hic
      sumEqC := by
        intro hson
        replace hson : g.son (g.parent c) < g.nodeCount := hson
        show (incFreq g c).freq (g.parent c) + 1 =
          (incFreq g c).freq (g.son (g.parent c)) +
          (incFreq g c).freq (g.son (g.parent c) + 1)
        have hold := hI.sumEqOff (g.parent c) hpT hsonpT (by omega)
        rw [incFreq_freq_ne _ _ _ (by omega)]
        rcases hback with hx | hx
        · rw [hx] at hold ⊢
          rw [incFreq_freq_self, incFreq_freq_ne _ _ _ (by omega)]
          omega
        · have hclash : g.son (g.parent c) ≠ c := by omega
          rw [hx] at hold ⊢
          rw [incFreq_freq_ne _ _ _ hclash, incFreq_freq_self]
          omega
      sonEven := hI.sonEven
      sonLt := hI.sonLt
      sonRange := hI.sonRange
      parentSon := hI.parentSon
      leafMap := hI.leafMap
      symbMapLt := hI.symbMapLt
      symbMapSon := hI.symbMapSon
      parentLt := hI.parentLt
      parentBack := hI.parentBack
      parentRoot := hI.parentRoot
      rootInternal := hI.rootInternal }

theorem swapNodes_freq (h : Huff) (c l x : Nat) :
    (swapNodes h c l).freq x =
      if x = c then h.freq l else if x = l then h.freq c else h.freq x := rfl

theorem swapNodes_son (h : Huff) (c l x : Nat) :
    (swapNodes h c l).son x =
      if x = c then h.son l else if x = l then h.son c else h.son x := rfl

theorem swapNodes_parent (h : Huff) (c l x : Nat) :
    (swapNodes h c l).parent x =
      if h.son l < h.nodeCount ∧ (x = h.son l ∨ x = h.son l + 1) then c
      else if h.son c < h.nodeCount ∧ (x = h.son c ∨ x = h.son c + 1) then l
      else h.parent x := by
  by_cases hj : h.son l < h.nodeCount <;> by_cases hi : h.son c < h.nodeCount <;>
    simp [swapNodes, hj, hi]

theorem swapNodes_symbMap (h : Huff) (c l x : Nat) :
    (swapNodes h c l).symbMap x =
      if ¬ h.son l < h.nodeCount ∧ x = h.son l - h.nodeCount then c
      else if ¬ h.son c < h.nodeCount ∧ x = h.son c - h.nodeCount then l
      else h.symbMap x := by
  by_cases hj : h.son l < h.nodeCount <;> by_cases hi : h.son c < h.nodeCount <;>
    simp [swapNodes, hj, hi]

/-- The swap step of the sorting loop: when the increment of `freq c`
overtakes a run of equal frequencies ending at `l`, swapping `c` with `l`
restores order and the deficit moves to the (old) parent of `l`. -/
theorem uinv_swap {g : Huff} {c l : Nat} (hI : UInv g c)
    (hcl : c + 1 ≤ l) (hlR : l < g.rootIdx)
    (hmid : ∀ x, c + 1 ≤ x → x ≤ l → g.freq x = g.freq c)
    (hnext : g.freq c + 1 ≤ g.freq (l + 1)) :
    UInv (swapNodes (incFreq g c) c l) (g.parent l) ∧ c < g.parent l := by
  have hT : g.rootIdx < g.nodeCount := rootIdx_lt_nodeCount g hI.hn
  have hTR : g.nodeCount = g.rootIdx + 1 := by
    unfold Huff.nodeCount Huff.rootIdx
    have := hI.hn
    omega
  have hcR : c < g.rootIdx := by omega
  have hlT : l < g.nodeCount := by omega
  have hcT : c < g.nodeCount := by omega
  have hfl : g.freq l = g.freq c := hmid l hcl (le_refl l)
  have hparl : l < g.parent l := hI.parentLt l hlR
  obtain ⟨hplT, hback⟩ := hI.parentBack l hlR
  have hcpl : c < g.parent l := by omega
  -- children of `l` lie strictly below `c` (their frequencies are smaller)
  have hjlt : g.son l < g.nodeCount → g.son l + 1 < c := by
    intro hj
    have hsl : g.son l + 1 < l := hI.sonLt l hlT hj
    have hsum := hI.sumEqOff l hlT hj (by omega)
    have hp1 : 1 ≤ g.freq (g.son l) := hI.freqPos _ (by omega)
    by_contra hge
    push_neg at hge
    have hmo := sorted_mono hI.sorted c (g.son l + 1) (by omega) (by omega)
    omega
  have hilt : g.son c < g.nodeCount → g.son c + 1 < c := hI.sonLt c hcT
  -- the two swapped nodes have distinct sons
  have hij : g.son c ≠ g.son l := by
    intro he
    by_cases hiT : g.son c < g.nodeCount
    · have h1 := (hI.parentSon c hcT hiT).1
      have h2 := (hI.parentSon l hlT (he ▸ hiT)).1
      rw [he] at h1
      omega
    · have hjT : ¬ g.son l < g.nodeCount := by
        rw [← he]
        exact hiT
      push_neg at hiT hjT
      have h1 := (hI.leafMap c hcT hiT).2
      have h2 := (hI.leafMap l hlT hjT).2
      rw [he] at h1
      omega
  -- internal son pairs are even-based, hence disjoint
  have hdisj : g.son c < g.nodeCount → g.son l < g.nodeCount →
      (g.son c + 1 ≠ g.son l ∧ g.son l + 1 ≠ g.son c) := by
    intro hiT hjT
    have he1 := hI.sonEven c hcT hiT
    have he2 := hI.sonEven l hlT hjT
    omega
  -- pointwise closed forms of the swapped state
  have hF : ∀ x, (swapNodes (incFreq g c) c l).freq x =
      if x = l then g.freq c + 1 else g.freq x := by
    intro x
    rw [swapNodes_freq]
    by_cases hxc : x = c
    · rw [if_pos hxc, incFreq_freq_ne _ _ _ (by omega), hfl, if_neg (by omega), hxc]
    · rw [if_neg hxc]
      by_cases hxl : x = l
      · rw [if_pos hxl, incFreq_freq_self, if_pos hxl]
      · rw [if_neg hxl, incFreq_freq_ne _ _ _ hxc, if_neg hxl]
  have hS : ∀ x, (swapNodes (incFreq g c) c l).son x =
      if x = c then g.son l else if x = l then g.son c else g.son x :=
    fun x => swapNodes_son _ _ _ _
  have hP : ∀ x, (swapNodes (incFreq g c) c l).parent x =
      if g.son l < g.nodeCount ∧ (x = g.son l ∨ x = g.son l + 1) then c
      else if g.son c < g.nodeCount ∧ (x = g.son c ∨ x = g.son c + 1) then l
      else g.parent x :=
    fun x => swapNodes_parent _ _ _ _
  have hM : ∀ x, (swapNodes (incFreq g c) c l).symbMap x =
      if ¬ g.son l < g.nodeCount ∧ x = g.son l - g.nodeCount then c
      else if ¬ g.son c < g.nodeCount ∧ x = g.son c - g.nodeCount then l
      else g.symbMap x :=
    fun x => swapNodes_symbMap _ _ _ _
  refine ⟨?_, hcpl⟩
  exact {
    hn := hI.hn
    hnMax := hI.hnMax
    hc := by
      show g.parent l ≤ g.rootIdx
      omega
    backstop := by
      show (swapNodes (incFreq g c) c l).freq g.nodeCount = 0xffff
      rw [hF, if_neg (by omega)]
      exact hI.backstop
    sorted := by
      intro x hx
      replace hx : x < g.nodeCount := hx
      show (swapNodes (incFreq g c) c l).freq x ≤ (swapNodes (incFreq g c) c l).freq (x + 1)
      rw [hF, hF]
      by_cases hx1 : x = l
      · rw [if_pos hx1, if_neg (by omega), hx1]
        exact hnext
      · rw [if_neg hx1]
        by_cases hx2 : x + 1 = l
        · rw [if_pos hx2]
          have hle : g.freq x ≤ g.freq c := by
            by_cases hxc : c ≤ x
            · by_cases hxcc : x = c
              · rw [hxcc]
              · have := hmid x (by omega) (by omega)
                omega
            · have := sorted_mono hI.sorted x c (by omega) (by omega)
              omega
          omega
        · rw [if_neg hx2]
          exact hI.sorted x hx
    rootLt := by
      show (swapNodes (incFreq g c) c l).freq g.rootIdx < Huff.maxFreq
      rw [hF, if_neg (by omega)]
      exact hI.rootLt
    freqPos := by
      intro x hx
      replace hx : x < g.nodeCount := hx
      show 1 ≤ (swapNodes (incFreq g c) c l).freq x
      rw [hF]
      by_cases hxl : x = l
      · rw [if_pos hxl]
        omega
      · rw [if_neg hxl]
        exact hI.freqPos x hx
    sumEqOff := by
      intro x hx hsx hxne
      replace hx : x < g.nodeCount := hx
      by_cases hxc : x = c
      · have hsonx : (swapNodes (incFreq g c) c l).son x = g.son l := by
          rw [hS, if_pos hxc]
        rw [hsonx] at hsx ⊢
        replace hsx : g.son l < g.nodeCount := hsx
        have hj1 : g.son l + 1 < c := hjlt hsx
        simp only [hF]
        rw [if_neg (by omega), if_neg (by omega), if_neg (by omega)]
        rw [hxc, ← hfl]
        exact hI.sumEqOff l hlT hsx (by omega)
      · by_cases hxl : x = l
        · have hsonx : (swapNodes (incFreq g c) c l).son x = g.son c := by
            rw [hS, if_neg hxc, if_pos hxl]
          rw [hsonx] at hsx ⊢
          replace hsx : g.son c < g.nodeCount := hsx
          have hi1 : g.son c + 1 < c := hilt hsx
          simp only [hF]
          rw [if_pos hxl, if_neg (by omega), if_neg (by omega)]
          exact hI.sumEqC hsx
        · have hsonx : (swapNodes (incFreq g c) c l).son x = g.son x := by
            rw [hS, if_neg hxc, if_neg hxl]
          rw [hsonx] at hsx ⊢
          replace hsx : g.son x < g.nodeCount := hsx
          have hc1 : g.son x ≠ l := by
            intro he
            have hps := (hI.parentSon x hx hsx).1
            rw [he] at hps
            omega
          have hc2 : g.son x + 1 ≠ l := by
            intro he
            have hps := (hI.parentSon x hx hsx).2
            rw [he] at hps
            omega
          simp only [hF]
          rw [if_neg hxl, if_neg hc1, if_neg hc2]
          exact hI.sumEqOff x hx hsx hxc
    sumEqC := by
      intro hson
      show (swapNodes (incFreq g c) c l).freq (g.parent l) + 1 =
        (swapNodes (incFreq g c) c l).freq ((swapNodes (incFreq g c) c l).son (g.parent l)) +
        (swapNodes (incFreq g c) c l).freq ((swapNodes (incFreq g c) c l).son (g.parent l) + 1)
      have hsonP : (swapNodes (incFreq g c) c l).son (g.parent l) = g.son (g.parent l) := by
        rw [hS, if_neg (by omega), if_neg (by omega)]
      rw [hsonP] at hson
      replace hson : g.son (g.parent l) < g.nodeCount := hson
      have hold := hI.sumEqOff (g.parent l) hplT hson (by omega)
      rw [hsonP]
      simp only [hF]
      rcases hback with hx | hx
      · rw [hx] at hold ⊢
        rw [if_neg (by omega), if_pos rfl, if_neg (by omega)]
        omega
      · rw [if_neg (by omega), if_neg (by omega), if_pos hx]
        rw [hx] at hold
        omega
    sonEven := by
      intro x hx hsx
      replace hx : x < g.nodeCount := hx
      by_cases hxc : x = c
      · have hsonx : (swapNodes (incFreq g c) c l).son x = g.son l := by
          rw [hS, if_pos hxc]
        rw [hsonx] at hsx ⊢
        replace hsx : g.son l < g.nodeCount := hsx
        exact hI.sonEven l hlT hsx
      · by_cases hxl : x = l
        · have hsonx : (swapNodes (incFreq g c) c l).son x = g.son c := by
            rw [hS, if_neg hxc, if_pos hxl]
          rw [hsonx] at hsx ⊢
          replace hsx : g.son c < g.nodeCount := hsx
          exact hI.sonEven c hcT hsx
        · have hsonx : (swapNodes (incFreq g c) c l).son x = g.son x := by
            rw [hS, if_neg hxc, if_neg hxl]
          rw [hsonx] at hsx ⊢
          replace hsx : g.son x < g.nodeCount := hsx
          exact hI.sonEven x hx hsx
    sonLt := by
      intro x hx hsx
      replace hx : x < g.nodeCount := hx
      by_cases hxc : x = c
      · have hsonx : (swapNodes (incFreq g c) c l).son x = g.son l := by
          rw [hS, if_pos hxc]
        rw [hsonx] at hsx ⊢
        replace hsx : g.son l < g.nodeCount := hsx
        have := hjlt hsx
        omega
      · by_cases hxl : x = l
        · have hsonx : (swapNodes (incFreq g c) c l).son x = g.son c := by
            rw [hS, if_neg hxc, if_pos hxl]
          rw [hsonx] at hsx ⊢
          replace hsx : g.son c < g.nodeCount := hsx
          have := hilt hsx
          omega
        · have hsonx : (swapNodes (incFreq g c) c l).son x = g.son x := by
            rw [hS, if_neg hxc, if_neg hxl]
          rw [hsonx] at hsx ⊢
          replace hsx : g.son x < g.nodeCount := hsx
          exact hI.sonLt x hx hsx
    sonRange := by
      intro x hx
      replace hx : x < g.nodeCount := hx
      show (swapNodes (incFreq g c) c l).son x < g.nodeCount + g.numSymb
      rw [hS]
      split_ifs with h1 h2
      · exact hI.sonRange l hlT
      · exact hI.sonRange c hcT
      · exact hI.sonRange x hx
    parentSon := by
      intro x hx hsx
      replace hx : x < g.nodeCount := hx
      by_cases hxc : x = c
      · have hsonx : (swapNodes (incFreq g c) c l).son x = g.son l := by
          rw [hS, if_pos hxc]
        rw [hsonx] at hsx ⊢
        replace hsx : g.son l < g.nodeCount := hsx
        constructor
        · rw [hP, if_pos ⟨hsx, Or.inl rfl⟩]
          omega
        · rw [hP, if_pos ⟨hsx, Or.inr rfl⟩]
          omega
      · by_cases hxl : x = l
        · have hsonx : (swapNodes (incFreq g c) c l).son x = g.son c := by
            rw [hS, if_neg hxc, if_pos hxl]
          rw [hsonx] at hsx ⊢
          replace hsx : g.son c < g.nodeCount := hsx
          constructor
          · rw [hP, if_neg (by
                rintro ⟨hjT, hd | hd⟩
                · exact hij hd
                · exact (hdisj hsx hjT).2 hd.symm),
              if_pos ⟨hsx, Or.inl rfl⟩]
            omega
          · rw [hP, if_neg (by
                rintro ⟨hjT, hd | hd⟩
                · exact (hdisj hsx hjT).1 hd
                · exact hij (by omega)),
              if_pos ⟨hsx, Or.inr rfl⟩]
            omega
        · have hsonx : (swapNodes (incFreq g c) c l).son x = g.son x := by
            rw [hS, if_neg hxc, if_neg hxl]
          rw [hsonx] at hsx ⊢
          replace hsx : g.son x < g.nodeCount := hsx
          have hps1 := (hI.parentSon x hx hsx).1
          have hps2 := (hI.parentSon x hx hsx).2
          constructor
          · rw [hP, if_neg (by
                rintro ⟨hjT, hd | hd⟩
                · have h2 := (hI.parentSon l hlT hjT).1
                  rw [← hd] at h2
                  omega
                · have h2 := (hI.parentSon l hlT hjT).2
                  rw [← hd] at h2
                  omega),
              if_neg (by
                rintro ⟨hiT, hd | hd⟩
                · have h2 := (hI.parentSon c hcT hiT).1
                  rw [← hd] at h2
                  omega
                · have h2 := (hI.parentSon c hcT hiT).2
                  rw [← hd] at h2
                  omega)]
            exact hps1
          · rw [hP, if_neg (by
                rintro ⟨hjT, hd | hd⟩
                · have h2 := (hI.parentSon l hlT hjT).1
                  rw [← hd] at h2
                  omega
                · have hd2 : g.son x = g.son l := by omega
                  have h2 := (hI.parentSon l hlT hjT).1
                  rw [← hd2] at h2
                  omega),
              if_neg (by
                rintro ⟨hiT, hd | hd⟩
                · have h2 := (hI.parentSon c hcT hiT).1
                  rw [← hd] at h2
                  omega
                · have hd2 : g.son x = g.son c := by omega
                  have h2 := (hI.parentSon c hcT hiT).1
                  rw [← hd2] at h2
                  omega)]
            exact hps2
    leafMap := by
      intro x hx hsx
      replace hx : x < g.nodeCount := hx
      by_cases hxc : x = c
      · have hsonx : (swapNodes (incFreq g c) c l).son x = g.son l := by
          rw [hS, if_pos hxc]
        rw [hsonx] at hsx ⊢
        replace hsx : g.nodeCount ≤ g.son l := hsx
        show g.son l - g.nodeCount < g.numSymb ∧
          (swapNodes (incFreq g c) c l).symbMap (g.son l - g.nodeCount) = x
        obtain ⟨hb1, hb2⟩ := hI.leafMap l hlT hsx
        refine ⟨hb1, ?_⟩
        rw [hM, if_pos ⟨by omega, rfl⟩]
        omega
      · by_cases hxl : x = l
        · have hsonx : (swapNodes (incFreq g c) c l).son x = g.son c := by
            rw [hS, if_neg hxc, if_pos hxl]
          rw [hsonx] at hsx ⊢
          replace hsx : g.nodeCount ≤ g.son c := hsx
          show g.son c - g.nodeCount < g.numSymb ∧
            (swapNodes (incFreq g c) c l).symbMap (g.son c - g.nodeCount) = x
          obtain ⟨hb1, hb2⟩ := hI.leafMap c hcT hsx
          refine ⟨hb1, ?_⟩
          rw [hM, if_neg (by
              rintro ⟨hjT, hd⟩
              exact hij (by omega)),
            if_pos ⟨by omega, rfl⟩]
          omega
        · have hsonx : (swapNodes (incFreq g c) c l).son x = g.son x := by
            rw [hS, if_neg hxc, if_neg hxl]
          rw [hsonx] at hsx ⊢
          replace hsx : g.nodeCount ≤ g.son x := hsx
          show g.son x - g.nodeCount < g.numSymb ∧
            (swapNodes (incFreq g c) c l).symbMap (g.son x - g.nodeCount) = x
          obtain ⟨hb1, hb2⟩ := hI.leafMap x hx hsx
          refine ⟨hb1, ?_⟩
          rw [hM, if_neg (by
              rintro ⟨hjT, hd⟩
              have h2 := (hI.leafMap l hlT (by omega)).2
              rw [← hd] at h2
              omega),
            if_neg (by
              rintro ⟨hiT, hd⟩
              have h2 := (hI.leafMap c hcT (by omega)).2
              rw [← hd] at h2
              omega)]
          exact hb2
    symbMapLt := by
      intro s hs
      replace hs : s < g.numSymb := hs
      show (swapNodes (incFreq g c) c l).symbMap s < g.nodeCount
      rw [hM]
      split_ifs with h1 h2
      · omega
      · omega
      · exact hI.symbMapLt s hs
    symbMapSon := by
      intro s hs
      replace hs : s < g.numSymb := hs
      show (swapNodes (incFreq g c) c l).son ((swapNodes (incFreq g c) c l).symbMap s) =
        s + g.nodeCount
      rw [hM]
      split_ifs with h1 h2
      · rw [hS, if_pos rfl]
        omega
      · rw [hS, if_neg (by omega), if_pos rfl]
        omega
      · have hms := hI.symbMapSon s hs
        rw [hS, if_neg (by
            intro he
            rw [he] at hms
            exact h2 ⟨by omega, by omega⟩),
          if_neg (by
            intro he
            rw [he] at hms
            exact h1 ⟨by omega, by omega⟩)]
        exact hms
    parentLt := by
      intro y hy
      replace hy : y < g.rootIdx := hy
      show y < (swapNodes (incFreq g c) c l).parent y
      rw [hP]
      split_ifs with h1 h2
      · have := hjlt h1.1
        rcases h1.2 with hd | hd <;> omega
      · have := hilt h2.1
        rcases h2.2 with hd | hd <;> omega
      · exact hI.parentLt y hy
    parentBack := by
      intro y hy
      replace hy : y < g.rootIdx := hy
      show (swapNodes (incFreq g c) c l).parent y < g.nodeCount ∧
        ((swapNodes (incFreq g c) c l).son ((swapNodes (incFreq g c) c l).parent y) = y ∨
         (swapNodes (incFreq g c) c l).son ((swapNodes (incFreq g c) c l).parent y) + 1 = y)
      rw [hP]
      split_ifs with h1 h2
      · refine ⟨by omega, ?_⟩
        rw [hS, if_pos rfl]
        rcases h1.2 with hd | hd
        · exact Or.inl hd.symm
        · exact Or.inr (by omega)
      · refine ⟨by omega, ?_⟩
        rw [hS, if_neg (by omega), if_pos rfl]
        rcases h2.2 with hd | hd
        · exact Or.inl hd.symm
        · exact Or.inr (by omega)
      · obtain ⟨hpT', hb'⟩ := hI.parentBack y hy
        have hpc : g.parent y ≠ c := by
          intro he
          rw [he] at hb'
          by_cases hsc : g.son c < g.nodeCount
          · refine h2 ⟨hsc, ?_⟩
            rcases hb' with hd | hd
            · exact Or.inl hd.symm
            · exact Or.inr (by omega)
          · rcases hb' with hd | hd <;> omega
        have hpl : g.parent y ≠ l := by
          intro he
          rw [he] at hb'
          by_cases hsl : g.son l < g.nodeCount
          · refine h1 ⟨hsl, ?_⟩
            rcases hb' with hd | hd
            · exact Or.inl hd.symm
            · exact Or.inr (by omega)
          · rcases hb' with hd | hd <;> omega
        refine ⟨hpT', ?_⟩
        rw [hS, if_neg hpc, if_neg hpl]
        exact hb'
    parentRoot := by
      show (swapNodes (incFreq g c) c l).parent g.rootIdx = 0
      rw [hP, if_neg (by
          rintro ⟨hjT, hd | hd⟩ <;> have := hjlt hjT <;> omega),
        if_neg (by
          rintro ⟨hiT, hd | hd⟩ <;> have := hilt hiT <;> omega)]
      exact hI.parentRoot
    rootInternal := by
      show (swapNodes (incFreq g c) c l).son g.rootIdx < g.nodeCount
      rw [hS, if_neg (by omega), if_neg (by omega)]
      exact hI.rootInternal }

/-- One unfolding of the sorting loop (`let`s expanded). -/
theorem updateLoop_succ (h : Huff) (c fuel : Nat) :
    updateLoop h c (fuel + 1) =
      if (incFreq h c).freq c > (incFreq h c).freq (c + 1) then
        (if (swapNodes (incFreq h c) c
              (updateScan (incFreq h c).freq ((incFreq h c).freq c) (c + 1)
                ((incFreq h c).nodeCount + 2) - 1)).parent
            (updateScan (incFreq h c).freq ((incFreq h c).freq c) (c + 1)
              ((incFreq h c).nodeCount + 2) - 1) = 0 then
          swapNodes (incFreq h c) c
            (updateScan (incFreq h c).freq ((incFreq h c).freq c) (c + 1)
              ((incFreq h c).nodeCount + 2) - 1)
        else
          updateLoop
            (swapNodes (incFreq h c) c
              (updateScan (incFreq h c).freq ((incFreq h c).freq c) (c + 1)
                ((incFreq h c).nodeCount + 2) - 1))
            ((swapNodes (incFreq h c) c
              (updateScan (incFreq h c).freq ((incFreq h c).freq c) (c + 1)
                ((incFreq h c).nodeCount + 2) - 1)).parent
             (updateScan (incFreq h c).freq ((incFreq h c).freq c) (c + 1)
               ((incFreq h c).nodeCount + 2) - 1))
            fuel)
      else
        (if (incFreq h c).parent c = 0 then incFreq h c
         else updateLoop (incFreq h c) ((incFreq h c).parent c) fuel) := rfl

/-- The sorting loop restores the full invariant, provided the fuel covers
the remaining climb to the root. -/
theorem updateLoop_HInv : ∀ (fuel : Nat) (g : Huff) (c : Nat), UInv g c →
    g.rootIdx < c + fuel → HInv (updateLoop g c fuel) := by
  intro fuel
  induction fuel with
  | zero =>
    intro g c hI hbound
    exfalso
    have := hI.hc
    omega
  | succ fuel ih =>
    intro g c hI hbound
    have hT : g.rootIdx < g.nodeCount := rootIdx_lt_nodeCount g hI.hn
    have hTR : g.nodeCount = g.rootIdx + 1 := by
      unfold Huff.nodeCount Huff.rootIdx
      have := hI.hn
      omega
    have hcR : c ≤ g.rootIdx := hI.hc
    rw [updateLoop_succ]
    by_cases hc : c = g.rootIdx
    · -- at the root the overtaking test fails against the backstop
      have hcond : ¬ (incFreq g c).freq c > (incFreq g c).freq (c + 1) := by
        rw [incFreq_freq_self, incFreq_freq_ne _ _ _ (by omega)]
        have hb := hI.backstop
        have hk := k_le_maxFreq hI
        have h1 : c + 1 = g.nodeCount := by omega
        rw [h1, hb]
        unfold Huff.maxFreq at hk
        omega
      have hns : g.freq c + 1 ≤ g.freq (c + 1) := by
        have hcopy := hcond
        rw [incFreq_freq_self, incFreq_freq_ne _ _ _ (by omega)] at hcopy
        omega
      rw [if_neg hcond]
      have hpar0 : (incFreq g c).parent c = 0 := by
        show g.parent c = 0
        rw [hc]
        exact hI.parentRoot
      rw [if_pos hpar0]
      exact (uinv_noswap hI hns).1 hc
    · have hcRlt : c < g.rootIdx := by omega
      by_cases hcond : (incFreq g c).freq c > (incFreq g c).freq (c + 1)
      · -- swap branch
        rw [if_pos hcond]
        have hkc : (incFreq g c).freq c = g.freq c + 1 := incFreq_freq_self g c
        have hc1 : (incFreq g c).freq (c + 1) = g.freq (c + 1) :=
          incFreq_freq_ne _ _ _ (by omega)
        have hkgt : g.freq c + 1 > g.freq (c + 1) := by
          rw [hkc, hc1] at hcond
          exact hcond
        have hnceq : (incFreq g c).nodeCount = g.nodeCount := rfl
        -- the scan stops at the first slot whose frequency is not overtaken
        have hroot_ge :
            g.freq c + 1 ≤ (incFreq g c).freq (c + 1 + (g.rootIdx - (c + 1))) := by
          have he : c + 1 + (g.rootIdx - (c + 1)) = g.rootIdx := by omega
          rw [he, incFreq_freq_ne _ _ _ (by omega)]
          have h1 := freq_lt_root hI hcRlt
          have h2 := sorted_mono hI.sorted c (g.rootIdx - 1) (by omega) (by omega)
          omega
        have hex : ∃ d, g.freq c + 1 ≤ (incFreq g c).freq (c + 1 + d) := ⟨_, hroot_ge⟩
        have hdle : Nat.find hex ≤ g.rootIdx - (c + 1) := Nat.find_le hroot_ge
        have hQ := Nat.find_spec hex
        have hdpos : 0 < Nat.find hex := by
          rcases Nat.eq_zero_or_pos (Nat.find hex) with h0 | h0
          · exfalso
            rw [h0] at hQ
            rw [show c + 1 + 0 = c + 1 from rfl, hc1] at hQ
            omega
          · exact h0
        set m := c + 1 + Nat.find hex with hm
        have hscan : updateScan (incFreq g c).freq ((incFreq g c).freq c) (c + 1)
            ((incFreq g c).nodeCount + 2) = m := by
          rw [hkc]
          apply updateScan_eq
          · omega
          · omega
          · intro x hx1 hx2
            have hmin := Nat.find_min hex (show x - (c + 1) < Nat.find hex by omega)
            rw [show c + 1 + (x - (c + 1)) = x from by omega] at hmin
            omega
          · omega
        have hm2 : c + 2 ≤ m := by omega
        have hmR : m ≤ g.rootIdx := by omega
        have hmid : ∀ x, c + 1 ≤ x → x ≤ m - 1 → g.freq x = g.freq c := by
          intro x hx1 hx2
          have hmin := Nat.find_min hex (show x - (c + 1) < Nat.find hex by omega)
          rw [show c + 1 + (x - (c + 1)) = x from by omega] at hmin
          rw [incFreq_freq_ne _ _ _ (by omega)] at hmin
          have hmo := sorted_mono hI.sorted c x (by omega) (by omega)
          omega
        have hnext : g.freq c + 1 ≤ g.freq (m - 1 + 1) := by
          have he : m - 1 + 1 = m := by omega
          rw [he]
          rw [incFreq_freq_ne _ _ _ (by omega)] at hQ
          exact hQ
        obtain ⟨hU, hclt⟩ :=
          @uinv_swap g c (m - 1) hI (by omega) (by omega) hmid hnext
        rw [hscan]
        have hg2p : (swapNodes (incFreq g c) c (m - 1)).parent (m - 1) =
            g.parent (m - 1) := by
          rw [swapNodes_parent]
          rw [if_neg (by
              rintro ⟨hjT, hd | hd⟩ <;>
                (have hs2 : (incFreq g c).son (m - 1) + 1 < m - 1 :=
                  hI.sonLt (m - 1) (by omega) hjT;
                 omega)),
            if_neg (by
              rintro ⟨hiT, hd | hd⟩ <;>
                (have hs2 : (incFreq g c).son c + 1 < c :=
                  hI.sonLt c (by omega) hiT;
                 omega))]
          rfl
        rw [hg2p]
        have hc2ne : ¬ g.parent (m - 1) = 0 := by
          have := hI.parentLt (m - 1) (by omega)
          omega
        rw [if_neg hc2ne]
        apply ih
        · exact hU
        · show (swapNodes (incFreq g c) c (m - 1)).rootIdx < g.parent (m - 1) + fuel
          have hri : (swapNodes (incFreq g c) c (m - 1)).rootIdx = g.rootIdx := rfl
          omega
      · -- no-swap branch
        rw [if_neg hcond]
        have hns : g.freq c + 1 ≤ g.freq (c + 1) := by
          rw [incFreq_freq_self, incFreq_freq_ne _ _ _ (by omega)] at hcond
          omega
        obtain ⟨hU, hclt⟩ := (uinv_noswap hI hns).2 hcRlt
        have hpne : ¬ (incFreq g c).parent c = 0 := by
          show ¬ g.parent c = 0
          omega
        rw [if_neg hpne]
        apply ih
        · exact hU
        · show (incFreq g c).rootIdx < (incFreq g c).parent c + fuel
          have h1 : (incFreq g c).rootIdx = g.rootIdx := rfl
          have h2 : (incFreq g c).parent c = g.parent c := rfl
          omega

/-- Entering `update`'s sorting loop at the leaf of a symbol: a well-formed
unsaturated table satisfies the loop invariant (the leaf has no sons below
`node_count`, so the deficit condition is vacuous). -/
theorem hinv_to_uinv {g : Huff} (hI : HInv g) (hlt : g.freq g.rootIdx < Huff.maxFreq)
    (c0 : Nat) (hc0 : c0 < g.numSymb) : UInv g (g.symbMap c0) := by
  have hTR : g.nodeCount = g.rootIdx + 1 := by
    unfold Huff.nodeCount Huff.rootIdx
    have := hI.hn
    omega
  exact {
    hn := hI.hn
    hnMax := hI.hnMax
    backstop := hI.backstop
    sorted := hI.sorted
    rootLt := hlt
    freqPos := hI.freqPos
    hc := by
      have := hI.symbMapLt c0 hc0
      omega
    sumEqOff := fun i hi hs _ => hI.sumEq i hi hs
    sumEqC := by
      intro hson
      exfalso
      have hms := hI.symbMapSon c0 hc0
      rw [hms] at hson
      omega
    sonEven := hI.sonEven
    sonLt := hI.sonLt
    sonRange := hI.sonRange
    parentSon := hI.parentSon
    leafMap := hI.leafMap
    symbMapLt := hI.symbMapLt
    symbMapSon := hI.symbMapSon
    parentLt := hI.parentLt
    parentBack := hI.parentBack
    parentRoot := hI.parentRoot
    rootInternal := hI.rootInternal }

/-! ### `rebuild_huff`: loop characterizations and invariant -/

theorem scanDown_le (freq : Nat → Nat) (f : Nat) : ∀ m, scanDown freq f m ≤ m := by
  intro m
  induction m with
  | zero => exact Nat.le_refl 0
  | succ k ih =>
    show (if f < freq (k + 1) then scanDown freq f k else k + 1) ≤ k + 1
    by_cases h : f < freq (k + 1)
    · rw [if_pos h]
      omega
    · rw [if_neg h]

theorem scanDown_gt (freq : Nat → Nat) (f : Nat) : ∀ m y,
    scanDown freq f m < y → y ≤ m → f < freq y := by
  intro m
  induction m with
  | zero =>
    intro y h1 h2
    replace h1 : 0 < y := h1
    omega
  | succ k ih =>
    intro y h1 h2
    by_cases h : f < freq (k + 1)
    · replace h1 : (if f < freq (k + 1) then scanDown freq f k else k + 1) < y := h1
      rw [if_pos h] at h1
      by_cases hy : y = k + 1
      · rw [hy]
        exact h
      · exact ih y h1 (by omega)
    · replace h1 : (if f < freq (k + 1) then scanDown freq f k else k + 1) < y := h1
      rw [if_neg h] at h1
      omega

theorem scanDown_stop (freq : Nat → Nat) (f : Nat) : ∀ m,
    scanDown freq f m = 0 ∨ ¬ f < freq (scanDown freq f m) := by
  intro m
  induction m with
  | zero => exact Or.inl rfl
  | succ k ih =>
    by_cases h : f < freq (k + 1)
    · rw [show scanDown freq f (k + 1) = scanDown freq f k from by
        show (if f < freq (k + 1) then scanDown freq f k else k + 1) = _
        rw [if_pos h]]
      exact ih
    · rw [show scanDown freq f (k + 1) = k + 1 from by
        show (if f < freq (k + 1) then scanDown freq f k else k + 1) = _
        rw [if_neg h]]
      exact Or.inr h

/-- Closed form of the descending copy loop: a right shift by one of the
window `[k, k+l)`. -/
theorem shiftLoop_eq (k : Nat) : ∀ (l : Nat) (g : Nat → Nat) (x : Nat),
    shiftLoop g k l x = if k + 1 ≤ x ∧ x ≤ k + l then g (x - 1) else g x := by
  intro l
  induction l with
  | zero =>
    intro g x
    show g x = _
    rw [if_neg (by omega)]
  | succ m ih =>
    intro g x
    show shiftLoop (fun y => if y = k + m + 1 then g (k + m) else g y) k m x = _
    rw [ih]
    by_cases h1 : k + 1 ≤ x ∧ x ≤ k + m
    · rw [if_pos h1, if_neg (show ¬ x - 1 = k + m + 1 by omega), if_pos (by omega)]
    · rw [if_neg h1]
      by_cases h2 : x = k + m + 1
      · rw [if_pos h2, if_pos (by omega)]
        rw [show x - 1 = k + m from by omega]
      · rw [if_neg h2, if_neg (by omega)]

/-- Point update of a table (`arr[j] = v`). -/
def updAt (g : Nat → Nat) (j v : Nat) : Nat → Nat := fun x => if x = j then v else g x

/-- Result of one insertion step of `rebuild_huff`'s parent loop on an array:
shift the window `[k, k+l)` right by one and write `v` at `k`. -/
def inserted (g : Nat → Nat) (k v l : Nat) : Nat → Nat :=
  fun x => if x = k then v else if k + 1 ≤ x ∧ x ≤ k + l then g (x - 1) else g x

theorem updAt_eq (g : Nat → Nat) (j v x : Nat) :
    updAt g j v x = if x = j then v else g x := rfl

theorem inserted_eq (g : Nat → Nat) (k v l x : Nat) :
    inserted g k v l x = if x = k then v
      else if k + 1 ≤ x ∧ x ≤ k + l then g (x - 1) else g x := rfl

/-- In the live region `x ≤ j` the inserted frequency array has a simple
three-way form (the pre-write of `f` at `j` is invisible there). -/
theorem inserted_updAt_live (freq : Nat → Nat) (j k f : Nat) (hk : k ≤ j) :
    ∀ x, x ≤ j → inserted (updAt freq j f) k f ((j - k) * 2) x =
      if x = k then f else if k + 1 ≤ x then freq (x - 1) else freq x := by
  intro x hx
  rw [inserted_eq]
  by_cases h1 : x = k
  · rw [if_pos h1, if_pos h1]
  · rw [if_neg h1, if_neg h1]
    by_cases h2 : k + 1 ≤ x
    · rw [if_pos (show k + 1 ≤ x ∧ x ≤ k + (j - k) * 2 by omega), if_pos h2, updAt_eq,
        if_neg (by omega)]
    · rw [if_neg (show ¬ (k + 1 ≤ x ∧ x ≤ k + (j - k) * 2) by omega), if_neg h2, updAt_eq,
        if_neg (by omega)]

/-- Same for the son array (no pre-write there). -/
theorem inserted_son_live (son : Nat → Nat) (j k i : Nat) (hk : k ≤ j) :
    ∀ x, x ≤ j → inserted son k i ((j - k) * 2) x =
      if x = k then i else if k + 1 ≤ x then son (x - 1) else son x := by
  intro x hx
  rw [inserted_eq]
  by_cases h1 : x = k
  · rw [if_pos h1, if_pos h1]
  · rw [if_neg h1, if_neg h1]
    by_cases h2 : k + 1 ≤ x
    · rw [if_pos (show k + 1 ≤ x ∧ x ≤ k + (j - k) * 2 by omega), if_pos h2]
    · rw [if_neg (show ¬ (k + 1 ≤ x ∧ x ≤ k + (j - k) * 2) by omega), if_neg h2]

theorem sum_Ico_shift (F : Nat → Nat) (k : Nat) : ∀ d,
    (Finset.Ico (k + 1) (k + 1 + d)).sum (fun x => F (x - 1)) =
      (Finset.Ico k (k + d)).sum F := by
  intro d
  induction d with
  | zero => simp
  | succ m ih =>
    rw [show k + 1 + (m + 1) = (k + 1 + m) + 1 from by omega,
        show k + (m + 1) = (k + m) + 1 from by omega]
    rw [Finset.sum_Ico_succ_top (by omega), Finset.sum_Ico_succ_top (by omega), ih]
    rw [show k + 1 + m - 1 = k + m from by omega]

/-- Invariant of `rebuild_huff`'s parent-construction loop, for a table with
`n` symbols, `T = 2n-1` slots and total (halved) frequency `S`.  Slots
`[0, j)` hold the array built so far, `[0, i)` of them already consumed as
sons; the active slots `[i, j)` carry the pending frequency mass `S`. -/
structure RInv (n S : Nat) (freq son : Nat → Nat) (i j : Nat) : Prop where
  hn : 2 ≤ n
  hnMax : n ≤ 0x4000
  hi : i = 2 * (j - n)
  hjn : n ≤ j
  hjT : j ≤ 2 * n - 1
  sorted : ∀ x, x + 1 < j → freq x ≤ freq (x + 1)
  pos : ∀ x, x < j → 1 ≤ freq x
  back : freq (2 * n - 1) = 0xffff
  sumA : (Finset.Ico i j).sum freq = S
  internal : ∀ x, x < j → son x < 2 * n - 1 →
      son x % 2 = 0 ∧ son x + 1 < i ∧ son x + 1 < x ∧
      freq x = freq (son x) + freq (son x + 1)
  leafTag : ∀ x, x < j → 2 * n - 1 ≤ son x → son x - (2 * n - 1) < n
  inj : ∀ x y, x < j → y < j → x ≠ y → son x ≠ son y
  surj : ∀ s, s < n → ∃ x, x < j ∧ son x = s + (2 * n - 1)
  cover : ∀ y, y < i → ∃ x, x < j ∧ son x < 2 * n - 1 ∧ (son x = y ∨ son x + 1 = y)
  lastNode : j = 2 * n - 1 → son (2 * n - 2) < 2 * n - 1

/-- One iteration of the parent loop preserves `RInv`: merging the active
pair `(i, i+1)` into a node of weight `f = freq i + freq (i+1)` inserted at
slot `k` (as located by the scan). -/
theorem rebuildStep_RInv {n S : Nat} {freq son : Nat → Nat} {i j k : Nat}
    (hR : RInv n S freq son i j) (hjT : j < 2 * n - 1)
    (hk1 : i + 2 ≤ k) (hk2 : k ≤ j)
    (hkle : freq (k - 1) ≤ freq i + freq (i + 1))
    (hkgt : k ≤ j - 1 → freq i + freq (i + 1) < freq k) :
    RInv n S
      (inserted (updAt freq j (freq i + freq (i + 1))) k (freq i + freq (i + 1))
        ((j - k) * 2))
      (inserted son k i ((j - k) * 2)) (i + 2) (j + 1) := by
  have hi := hR.hi
  have hjn := hR.hjn
  have hn := hR.hn
  set FC := inserted (updAt freq j (freq i + freq (i + 1))) k (freq i + freq (i + 1))
    ((j - k) * 2) with hFCdef
  set SC := inserted son k i ((j - k) * 2) with hSCdef
  have hF : ∀ x, x ≤ j → FC x = if x = k then freq i + freq (i + 1)
      else if k + 1 ≤ x then freq (x - 1) else freq x :=
    fun x hx => inserted_updAt_live freq j k (freq i + freq (i + 1)) hk2 x hx
  have hSf : ∀ x, x ≤ j → SC x = if x = k then i
      else if k + 1 ≤ x then son (x - 1) else son x :=
    fun x hx => inserted_son_live son j k i hk2 x hx
  exact {
    hn := hn
    hnMax := hR.hnMax
    hi := by omega
    hjn := by omega
    hjT := by omega
    sorted := by
      intro x hx
      rw [hF x (by omega), hF (x + 1) (by omega)]
      by_cases h1 : x + 1 = k
      · rw [if_neg (by omega), if_neg (by omega), if_pos h1]
        rw [show x = k - 1 from by omega]
        exact hkle
      · by_cases h2 : x = k
        · rw [if_pos h2, if_neg h1, if_pos (by omega)]
          have := hkgt (by omega)
          rw [show x + 1 - 1 = k from by omega]
          omega
        · by_cases h3 : k + 1 ≤ x
          · rw [if_neg h2, if_pos h3, if_neg h1, if_pos (by omega)]
            have hs := hR.sorted (x - 1) (by omega)
            rw [show x - 1 + 1 = x from by omega] at hs
            rw [show x + 1 - 1 = x from by omega]
            exact hs
          · rw [if_neg h2, if_neg h3, if_neg h1, if_neg (by omega)]
            exact hR.sorted x (by omega)
    pos := by
      intro x hx
      rw [hF x (by omega)]
      by_cases h1 : x = k
      · rw [if_pos h1]
        have := hR.pos i (by omega)
        omega
      · rw [if_neg h1]
        by_cases h2 : k + 1 ≤ x
        · rw [if_pos h2]
          exact hR.pos (x - 1) (by omega)
        · rw [if_neg h2]
          exact hR.pos x (by omega)
    back := by
      rw [hFCdef, inserted_eq, if_neg (by omega), if_neg (by omega), updAt_eq,
        if_neg (by omega)]
      exact hR.back
    sumA := by
      have e1 : (Finset.Ico (i + 2) (j + 1)).sum FC =
          (Finset.Ico (i + 2) k).sum FC + (Finset.Ico k (j + 1)).sum FC :=
        (Finset.sum_Ico_consecutive _ (by omega) (by omega)).symm
      have e2 : (Finset.Ico k (j + 1)).sum FC =
          FC k + (Finset.Ico (k + 1) (j + 1)).sum FC :=
        Finset.sum_eq_sum_Ico_succ_bot (by omega) _
      have e3 : (Finset.Ico (i + 2) k).sum FC = (Finset.Ico (i + 2) k).sum freq := by
        apply Finset.sum_congr rfl
        intro x hx
        rw [Finset.mem_Ico] at hx
        rw [hF x (by omega), if_neg (by omega), if_neg (by omega)]
      have e4 : (Finset.Ico (k + 1) (j + 1)).sum FC =
          (Finset.Ico (k + 1) (j + 1)).sum (fun x => freq (x - 1)) := by
        apply Finset.sum_congr rfl
        intro x hx
        rw [Finset.mem_Ico] at hx
        rw [hF x (by omega), if_neg (by omega), if_pos (by omega)]
      have e5 : (Finset.Ico (k + 1) (j + 1)).sum (fun x => freq (x - 1)) =
          (Finset.Ico k j).sum freq := by
        rw [show j + 1 = k + 1 + (j - k) from by omega, sum_Ico_shift,
          show k + (j - k) = j from by omega]
      have e6 : FC k = freq i + freq (i + 1) := by
        rw [hF k (by omega), if_pos rfl]
      have e7 : (Finset.Ico (i + 2) k).sum freq + (Finset.Ico k j).sum freq =
          (Finset.Ico (i + 2) j).sum freq :=
        Finset.sum_Ico_consecutive _ (by omega) (by omega)
      have e8 : (Finset.Ico i j).sum freq =
          freq i + (Finset.Ico (i + 1) j).sum freq :=
        Finset.sum_eq_sum_Ico_succ_bot (by omega) _
      have e9 : (Finset.Ico (i + 1) j).sum freq =
          freq (i + 1) + (Finset.Ico (i + 2) j).sum freq :=
        Finset.sum_eq_sum_Ico_succ_bot (by omega) _
      have hsum := hR.sumA
      omega
    internal := by
      intro x hx hsx
      rw [hSf x (by omega)] at hsx ⊢
      by_cases h1 : x = k
      · rw [if_pos h1] at hsx ⊢
        refine ⟨by omega, by omega, by omega, ?_⟩
        rw [hF x (by omega), if_pos h1,
          hF i (by omega), if_neg (by omega), if_neg (by omega),
          hF (i + 1) (by omega), if_neg (by omega), if_neg (by omega)]
      · rw [if_neg h1] at hsx ⊢
        by_cases h2 : k + 1 ≤ x
        · rw [if_pos h2] at hsx ⊢
          obtain ⟨ha, hb, hc, hd⟩ := hR.internal (x - 1) (by omega) hsx
          refine ⟨ha, by omega, by omega, ?_⟩
          rw [hF x (by omega), if_neg h1, if_pos h2,
            hF (son (x - 1)) (by omega), if_neg (by omega), if_neg (by omega),
            hF (son (x - 1) + 1) (by omega), if_neg (by omega), if_neg (by omega)]
          exact hd
        · rw [if_neg h2] at hsx ⊢
          obtain ⟨ha, hb, hc, hd⟩ := hR.internal x (by omega) hsx
          refine ⟨ha, by omega, hc, ?_⟩
          rw [hF x (by omega), if_neg h1, if_neg h2,
            hF (son x) (by omega), if_neg (by omega), if_neg (by omega),
            hF (son x + 1) (by omega), if_neg (by omega), if_neg (by omega)]
          exact hd
    leafTag := by
      intro x hx hsx
      rw [hSf x (by omega)] at hsx ⊢
      by_cases h1 : x = k
      · rw [if_pos h1] at hsx
        exfalso
        omega
      · rw [if_neg h1] at hsx ⊢
        by_cases h2 : k + 1 ≤ x
        · rw [if_pos h2] at hsx ⊢
          exact hR.leafTag (x - 1) (by omega) hsx
        · rw [if_neg h2] at hsx ⊢
          exact hR.leafTag x (by omega) hsx
    inj := by
      intro x y hx hy hne
      rw [hSf x (by omega), hSf y (by omega)]
      by_cases h1 : x = k
      · rw [if_pos h1, if_neg (by omega)]
        by_cases h3 : k + 1 ≤ y
        · rw [if_pos h3]
          by_cases h4 : son (y - 1) < 2 * n - 1
          · have := (hR.internal (y - 1) (by omega) h4).2.1
            omega
          · omega
        · rw [if_neg h3]
          by_cases h4 : son y < 2 * n - 1
          · have := (hR.internal y (by omega) h4).2.1
            omega
          · omega
      · by_cases h2 : y = k
        · rw [if_neg h1, if_pos h2]
          by_cases h3 : k + 1 ≤ x
          · rw [if_pos h3]
            by_cases h4 : son (x - 1) < 2 * n - 1
            · have := (hR.internal (x - 1) (by omega) h4).2.1
              omega
            · omega
          · rw [if_neg h3]
            by_cases h4 : son x < 2 * n - 1
            · have := (hR.internal x (by omega) h4).2.1
              omega
            · omega
        · rw [if_neg h1, if_neg h2]
          by_cases h3 : k + 1 ≤ x
          · by_cases h4 : k + 1 ≤ y
            · rw [if_pos h3, if_pos h4]
              exact hR.inj (x - 1) (y - 1) (by omega) (by omega) (by omega)
            · rw [if_pos h3, if_neg h4]
              exact hR.inj (x - 1) y (by omega) (by omega) (by omega)
          · by_cases h4 : k + 1 ≤ y
            · rw [if_neg h3, if_pos h4]
              exact hR.inj x (y - 1) (by omega) (by omega) (by omega)
            · rw [if_neg h3, if_neg h4]
              exact hR.inj x y (by omega) (by omega) hne
    surj := by
      intro s hs
      obtain ⟨x, hxj, hsx⟩ := hR.surj s hs
      by_cases h3 : x < k
      · refine ⟨x, by omega, ?_⟩
        rw [hSf x (by omega), if_neg (by omega), if_neg (by omega)]
        exact hsx
      · refine ⟨x + 1, by omega, ?_⟩
        rw [hSf (x + 1) (by omega), if_neg (by omega), if_pos (by omega),
          show x + 1 - 1 = x from by omega]
        exact hsx
    cover := by
      intro y hy
      by_cases hyi : y < i
      · obtain ⟨x, hxj, hxint, hxy⟩ := hR.cover y hyi
        by_cases h3 : x < k
        · refine ⟨x, by omega, ?_, ?_⟩
          · rw [hSf x (by omega), if_neg (by omega), if_neg (by omega)]
            exact hxint
          · rw [hSf x (by omega), if_neg (by omega), if_neg (by omega)]
            exact hxy
        · refine ⟨x + 1, by omega, ?_, ?_⟩
          · rw [hSf (x + 1) (by omega), if_neg (by omega), if_pos (by omega),
              show x + 1 - 1 = x from by omega]
            exact hxint
          · rw [hSf (x + 1) (by omega), if_neg (by omega), if_pos (by omega),
              show x + 1 - 1 = x from by omega]
            exact hxy
      · refine ⟨k, by omega, ?_, ?_⟩
        · rw [hSf k (by omega), if_pos rfl]
          omega
        · rw [hSf k (by omega), if_pos rfl]
          omega
    lastNode := by
      intro hj1
      rw [hSf (2 * n - 2) (by omega), if_pos (by omega)]
      omega }

theorem rebuildLoop_eq_of_ge (T : Nat) (freq son : Nat → Nat) (i j : Nat)
    (h : ¬ j < T) : rebuildLoop T freq son i j = (freq, son) := by
  conv_lhs => rw [rebuildLoop]
  rw [dif_neg h]

theorem rebuildLoop_eq_of_lt (T : Nat) (freq son : Nat → Nat) (i j : Nat)
    (h : j < T) :
    rebuildLoop T freq son i j =
      rebuildLoop T
        (inserted (updAt freq j (freq i + freq (i + 1)))
          (scanDown (updAt freq j (freq i + freq (i + 1)))
            (freq i + freq (i + 1)) (j - 1) + 1)
          (freq i + freq (i + 1))
          ((j - (scanDown (updAt freq j (freq i + freq (i + 1)))
            (freq i + freq (i + 1)) (j - 1) + 1)) * 2))
        (inserted son
          (scanDown (updAt freq j (freq i + freq (i + 1)))
            (freq i + freq (i + 1)) (j - 1) + 1)
          i
          ((j - (scanDown (updAt freq j (freq i + freq (i + 1)))
            (freq i + freq (i + 1)) (j - 1) + 1)) * 2))
        (i + 2) (j + 1) := by
  have hfr : ∀ (g : Nat → Nat) (k v l : Nat),
      (fun x => if x = k then v else shiftLoop g k l x) = inserted g k v l := by
    intro g k v l
    funext x
    rw [shiftLoop_eq]
    rfl
  conv_lhs => rw [rebuildLoop]
  rw [dif_pos h]
  simp only [hfr]
  rfl

/-- The parent loop carries `RInv` from any state to the final state
`(i, j) = (2n-2, 2n-1)`. -/
theorem rebuildLoop_post {n S : Nat} : ∀ (d : Nat) (freq son : Nat → Nat) (i j : Nat),
    2 * n - 1 - j = d → RInv n S freq son i j →
    RInv n S (rebuildLoop (2 * n - 1) freq son i j).1
      (rebuildLoop (2 * n - 1) freq son i j).2 (2 * n - 2) (2 * n - 1) := by
  intro d
  induction d with
  | zero =>
    intro freq son i j hd hR
    have h1 : ¬ j < 2 * n - 1 := by omega
    have hjeq : j = 2 * n - 1 := by
      have := hR.hjT
      omega
    have hieq : i = 2 * n - 2 := by
      have := hR.hi
      have := hR.hjn
      have := hR.hn
      omega
    rw [rebuildLoop_eq_of_ge _ _ _ _ _ h1]
    rw [← hjeq, ← hieq]
    exact hR
  | succ d ih =>
    intro freq son i j hd hR
    have hjT : j < 2 * n - 1 := by omega
    have hn := hR.hn
    have hi := hR.hi
    have hjn := hR.hjn
    have hi1j : i + 1 < j := by omega
    set f := freq i + freq (i + 1) with hfdef
    set k0 := scanDown (updAt freq j f) f (j - 1) with hk0def
    have hk0le : k0 ≤ j - 1 := scanDown_le _ _ _
    have hk0ge : i + 1 ≤ k0 := by
      by_contra hlt
      push_neg at hlt
      have hgt := scanDown_gt (updAt freq j f) f (j - 1) (i + 1) (by omega) (by omega)
      rw [updAt_eq, if_neg (by omega)] at hgt
      omega
    have hkle : freq (k0 + 1 - 1) ≤ freq i + freq (i + 1) := by
      rcases scanDown_stop (updAt freq j f) f (j - 1) with h0 | h0
      · rw [← hk0def] at h0
        omega
      · rw [← hk0def] at h0
        rw [updAt_eq, if_neg (by omega)] at h0
        rw [show k0 + 1 - 1 = k0 from by omega]
        omega
    have hkgt : k0 + 1 ≤ j - 1 → freq i + freq (i + 1) < freq (k0 + 1) := by
      intro hk
      have hgt := scanDown_gt (updAt freq j f) f (j - 1) (k0 + 1)
        (by rw [← hk0def]; omega) (by omega)
      rw [updAt_eq, if_neg (by omega)] at hgt
      exact hgt
    have hstep := @rebuildStep_RInv n S freq son i j (k0 + 1) hR hjT
      (by omega) (by omega) hkle hkgt
    rw [rebuildLoop_eq_of_lt _ _ _ _ _ hjT]
    exact ih _ _ _ _ (by omega) hstep

/-! ### `rebuild_huff`: the leaf-collection pass -/

/-- Number of leaf slots (`son ≥ T`) among the first `p` slots. -/
def leafCnt (son : Nat → Nat) (T p : Nat) : Nat :=
  ((Finset.range p).filter (fun x => T ≤ son x)).card

theorem leafCnt_succ (son : Nat → Nat) (T p : Nat) :
    leafCnt son T (p + 1) =
      if T ≤ son p then leafCnt son T p + 1 else leafCnt son T p := by
  unfold leafCnt
  rw [Finset.range_succ, Finset.filter_insert]
  by_cases h : T ≤ son p
  · rw [if_pos h, if_pos h, Finset.card_insert_of_not_mem (by simp)]
  · rw [if_neg h, if_neg h]

theorem leafCnt_mono (son : Nat → Nat) (T : Nat) :
    ∀ p q, p ≤ q → leafCnt son T p ≤ leafCnt son T q := by
  intro p q h
  unfold leafCnt
  exact Finset.card_le_card
    (Finset.filter_subset_filter _ (Finset.range_subset.mpr h))

theorem leafCnt_lt (son : Nat → Nat) (T : Nat) :
    ∀ p x, x < p → T ≤ son x → leafCnt son T x < leafCnt son T p := by
  intro p x hx hleaf
  have h1 : leafCnt son T x + 1 = leafCnt son T (x + 1) := by
    rw [leafCnt_succ, if_pos hleaf]
  have h2 := leafCnt_mono son T (x + 1) p (by omega)
  omega

theorem leafCnt_src (son : Nat → Nat) (T : Nat) :
    ∀ p q, q < leafCnt son T p → ∃ x, x < p ∧ T ≤ son x ∧ leafCnt son T x = q := by
  intro p
  induction p with
  | zero =>
    intro q hq
    rw [show leafCnt son T 0 = 0 from by simp [leafCnt]] at hq
    omega
  | succ p ih =>
    intro q hq
    rw [leafCnt_succ] at hq
    by_cases h : T ≤ son p
    · rw [if_pos h] at hq
      by_cases hq2 : q = leafCnt son T p
      · exact ⟨p, by omega, h, hq2.symm⟩
      · obtain ⟨x, h1, h2, h3⟩ := ih q (by omega)
        exact ⟨x, by omega, h2, h3⟩
    · rw [if_neg h] at hq
      obtain ⟨x, h1, h2, h3⟩ := ih q hq
      exact ⟨x, by omega, h2, h3⟩

/-- One step of the leaf-collection fold. -/
def collectStep (T : Nat) (freq son : Nat → Nat) :
    (Nat × (Nat → Nat) × (Nat → Nat)) → Nat → Nat × (Nat → Nat) × (Nat → Nat) :=
  fun acc i =>
    if son i ≥ T then
      (acc.1 + 1,
       fun x => if x = acc.1 then (freq i + 1) / 2 else acc.2.1 x,
       fun x => if x = acc.1 then son i else acc.2.2 x)
    else acc

theorem collectLeaves_eq (T : Nat) (freq son : Nat → Nat) :
    collectLeaves T freq son =
      (List.range T).foldl (collectStep T freq son) (0, freq, son) := rfl

/-- The collection fold stopped after the first `p` slots. -/
def collectPrefix (T : Nat) (freq son : Nat → Nat) (p : Nat) :
    Nat × (Nat → Nat) × (Nat → Nat) :=
  (List.range p).foldl (collectStep T freq son) (0, freq, son)

theorem collectPrefix_succ (T : Nat) (freq son : Nat → Nat) (p : Nat) :
    collectPrefix T freq son (p + 1) =
      collectStep T freq son (collectPrefix T freq son p) p := by
  unfold collectPrefix
  rw [List.range_succ, List.foldl_append]
  rfl

/-- Behaviour of the leaf-collection fold: the counter counts leaves, slots at
or above the counter are untouched, the `x`-th leaf lands at index
`leafCnt x` with halved frequency, and the written prefix sums to the halved
leaf frequencies. -/
theorem collectPrefix_spec (T : Nat) (freq son : Nat → Nat) : ∀ p,
    (collectPrefix T freq son p).1 = leafCnt son T p ∧
    (∀ q, leafCnt son T p ≤ q →
      (collectPrefix T freq son p).2.1 q = freq q ∧
      (collectPrefix T freq son p).2.2 q = son q) ∧
    (∀ x, x < p → T ≤ son x →
      (collectPrefix T freq son p).2.2 (leafCnt son T x) = son x ∧
      (collectPrefix T freq son p).2.1 (leafCnt son T x) = (freq x + 1) / 2) ∧
    (Finset.range (leafCnt son T p)).sum (collectPrefix T freq son p).2.1 =
      ((Finset.range p).filter (fun x => T ≤ son x)).sum
        (fun x => (freq x + 1) / 2) := by
  intro p
  induction p with
  | zero =>
    refine ⟨by simp [collectPrefix, leafCnt], ?_, ?_, by simp [collectPrefix, leafCnt]⟩
    · intro q hq
      exact ⟨rfl, rfl⟩
    · intro x hx
      omega
  | succ p ih =>
    obtain ⟨ih1, ih2, ih3, ih4⟩ := ih
    rw [collectPrefix_succ]
    unfold collectStep
    by_cases h : son p ≥ T
    · rw [if_pos h]
      refine ⟨?_, ?_, ?_, ?_⟩
      · show (collectPrefix T freq son p).1 + 1 = leafCnt son T (p + 1)
        rw [ih1, leafCnt_succ, if_pos h]
      · intro q hq
        rw [leafCnt_succ, if_pos h] at hq
        constructor
        · show (if q = (collectPrefix T freq son p).1 then (freq p + 1) / 2
            else (collectPrefix T freq son p).2.1 q) = freq q
          rw [if_neg (by rw [ih1]; omega)]
          exact (ih2 q (by omega)).1
        · show (if q = (collectPrefix T freq son p).1 then son p
            else (collectPrefix T freq son p).2.2 q) = son q
          rw [if_neg (by rw [ih1]; omega)]
          exact (ih2 q (by omega)).2
      · intro x hx hleaf
        by_cases hxp : x = p
        · subst hxp
          constructor
          · show (if leafCnt son T x = (collectPrefix T freq son x).1 then son x
              else (collectPrefix T freq son x).2.2 (leafCnt son T x)) = son x
            rw [if_pos (by rw [ih1])]
          · show (if leafCnt son T x = (collectPrefix T freq son x).1 then (freq x + 1) / 2
              else (collectPrefix T freq son x).2.1 (leafCnt son T x)) = (freq x + 1) / 2
            rw [if_pos (by rw [ih1])]
        · have hx' : x < p := by omega
          obtain ⟨o1, o2⟩ := ih3 x hx' hleaf
          have hlt : leafCnt son T x < leafCnt son T p := leafCnt_lt son T p x hx' hleaf
          constructor
          · show (if leafCnt son T x = (collectPrefix T freq son p).1 then son p
              else (collectPrefix T freq son p).2.2 (leafCnt son T x)) = son x
            rw [if_neg (by rw [ih1]; omega)]
            exact o1
          · show (if leafCnt son T x = (collectPrefix T freq son p).1 then (freq p + 1) / 2
              else (collectPrefix T freq son p).2.1 (leafCnt son T x)) = (freq x + 1) / 2
            rw [if_neg (by rw [ih1]; omega)]
            exact o2
      · show (Finset.range (leafCnt son T (p + 1))).sum
            (fun x => if x = (collectPrefix T freq son p).1 then (freq p + 1) / 2
              else (collectPrefix T freq son p).2.1 x) =
            ((Finset.range (p + 1)).filter (fun x => T ≤ son x)).sum
              (fun x => (freq x + 1) / 2)
        rw [leafCnt_succ, if_pos h, Finset.sum_range_succ]
        have hlast : (if leafCnt son T p = (collectPrefix T freq son p).1
            then (freq p + 1) / 2
            else (collectPrefix T freq son p).2.1 (leafCnt son T p)) = (freq p + 1) / 2 := by
          rw [if_pos (by rw [ih1])]
        have hcongr : (Finset.range (leafCnt son T p)).sum
            (fun q => if q = (collectPrefix T freq son p).1 then (freq p + 1) / 2
              else (collectPrefix T freq son p).2.1 q) =
            (Finset.range (leafCnt son T p)).sum (collectPrefix T freq son p).2.1 := by
          apply Finset.sum_congr rfl
          intro q hq
          rw [Finset.mem_range] at hq
          rw [if_neg (by rw [ih1]; omega)]
        rw [hlast, hcongr, Finset.range_succ, Finset.filter_insert, if_pos h,
          Finset.sum_insert (by simp), ih4]
        omega
    · rw [if_neg h]
      refine ⟨?_, ?_, ?_, ?_⟩
      · rw [leafCnt_succ, if_neg h]
        exact ih1
      · intro q hq
        rw [leafCnt_succ, if_neg h] at hq
        exact ih2 q hq
      · intro x hx hleaf
        by_cases hxp : x = p
        · subst hxp
          exact absurd hleaf h
        · exact ih3 x (by omega) hleaf
      · rw [leafCnt_succ, if_neg h, Finset.range_succ, Finset.filter_insert, if_neg h]
        exact ih4

/-- A well-formed table has exactly `num_symb` leaf slots (the tag map is a
bijection onto the symbols). -/
theorem leaf_count {g : Huff} (hI : HInv g) :
    leafCnt g.son g.nodeCount g.nodeCount = g.numSymb := by
  unfold leafCnt
  rw [show g.numSymb = (Finset.range g.numSymb).card from (Finset.card_range _).symm]
  apply Finset.card_bij' (fun x _ => g.son x - g.nodeCount) (fun s _ => g.symbMap s)
  · intro x hx
    rw [Finset.mem_filter, Finset.mem_range] at hx
    rw [Finset.mem_range]
    exact (hI.leafMap x hx.1 hx.2).1
  · intro s hs
    rw [Finset.mem_range] at hs
    rw [Finset.mem_filter, Finset.mem_range]
    refine ⟨hI.symbMapLt s hs, ?_⟩
    rw [hI.symbMapSon s hs]
    omega
  · intro x hx
    rw [Finset.mem_filter, Finset.mem_range] at hx
    exact (hI.leafMap x hx.1 hx.2).2
  · intro s hs
    rw [Finset.mem_range] at hs
    rw [hI.symbMapSon s hs]
    omega

/-- In a well-formed table the root frequency is the sum of all leaf
frequencies: the son pairs of the internal nodes partition the slots below
the root into even and odd positions. -/
theorem root_eq_leafSum {g : Huff} (hI : HInv g) :
    g.freq g.rootIdx =
      ((Finset.range g.nodeCount).filter (fun x => g.nodeCount ≤ g.son x)).sum
        g.freq := by
  have hTR : g.nodeCount = g.rootIdx + 1 := by
    unfold Huff.nodeCount Huff.rootIdx
    have := hI.hn
    omega
  have h1 := Finset.sum_filter_add_sum_filter_not (Finset.range g.nodeCount)
    (fun x => g.nodeCount ≤ g.son x) g.freq
  replace h1 : ((Finset.range g.nodeCount).filter (fun x => g.nodeCount ≤ g.son x)).sum
      g.freq +
      ((Finset.range g.nodeCount).filter (fun x => ¬ g.nodeCount ≤ g.son x)).sum g.freq =
      (Finset.range g.nodeCount).sum g.freq := h1
  have h2 : ((Finset.range g.nodeCount).filter (fun x => ¬ g.nodeCount ≤ g.son x)).sum
      g.freq =
      ((Finset.range g.nodeCount).filter (fun x => ¬ g.nodeCount ≤ g.son x)).sum
        (fun x => g.freq (g.son x) + g.freq (g.son x + 1)) := by
    apply Finset.sum_congr rfl
    intro x hx
    rw [Finset.mem_filter, Finset.mem_range] at hx
    exact hI.sumEq x hx.1 (by omega)
  have h2' : ((Finset.range g.nodeCount).filter (fun x => ¬ g.nodeCount ≤ g.son x)).sum
      (fun x => g.freq (g.son x) + g.freq (g.son x + 1)) =
      ((Finset.range g.nodeCount).filter (fun x => ¬ g.nodeCount ≤ g.son x)).sum
        (fun x => g.freq (g.son x)) +
      ((Finset.range g.nodeCount).filter (fun x => ¬ g.nodeCount ≤ g.son x)).sum
        (fun x => g.freq (g.son x + 1)) := Finset.sum_add_distrib
  have h3 : ((Finset.range g.nodeCount).filter (fun x => ¬ g.nodeCount ≤ g.son x)).sum
      (fun x => g.freq (g.son x)) =
      ((Finset.range g.rootIdx).filter (fun y => y % 2 = 0)).sum g.freq := by
    apply Finset.sum_bij (fun x _ => g.son x)
    · intro x hx
      rw [Finset.mem_filter, Finset.mem_range] at hx
      rw [Finset.mem_filter, Finset.mem_range]
      have hlt := hI.sonLt x hx.1 (by omega)
      exact ⟨by omega, hI.sonEven x hx.1 (by omega)⟩
    · intro x1 hx1 x2 hx2 he
      rw [Finset.mem_filter, Finset.mem_range] at hx1 hx2
      have p1 := (hI.parentSon x1 hx1.1 (by omega)).1
      have p2 := (hI.parentSon x2 hx2.1 (by omega)).1
      rw [he] at p1
      omega
    · intro y hy
      rw [Finset.mem_filter, Finset.mem_range] at hy
      obtain ⟨hpT, hd⟩ := hI.parentBack y (by omega)
      rcases hd with hd | hd
      · refine ⟨g.parent y, ?_, hd⟩
        rw [Finset.mem_filter, Finset.mem_range]
        exact ⟨hpT, by omega⟩
      · exfalso
        have heven := hI.sonEven (g.parent y) hpT (by omega)
        omega
    · intro x hx
      rfl
  have h4 : ((Finset.range g.nodeCount).filter (fun x => ¬ g.nodeCount ≤ g.son x)).sum
      (fun x => g.freq (g.son x + 1)) =
      ((Finset.range g.rootIdx).filter (fun y => ¬ y % 2 = 0)).sum g.freq := by
    apply Finset.sum_bij (fun x _ => g.son x + 1)
    · intro x hx
      rw [Finset.mem_filter, Finset.mem_range] at hx
      rw [Finset.mem_filter, Finset.mem_range]
      have hlt := hI.sonLt x hx.1 (by omega)
      have heven := hI.sonEven x hx.1 (by omega)
      exact ⟨by omega, by omega⟩
    · intro x1 hx1 x2 hx2 he
      rw [Finset.mem_filter, Finset.mem_range] at hx1 hx2
      have p1 := (hI.parentSon x1 hx1.1 (by omega)).2
      have p2 := (hI.parentSon x2 hx2.1 (by omega)).2
      rw [he] at p1
      omega
    · intro y hy
      rw [Finset.mem_filter, Finset.mem_range] at hy
      obtain ⟨hpT, hd⟩ := hI.parentBack y (by omega)
      rcases hd with hd | hd
      · exfalso
        have heven := hI.sonEven (g.parent y) hpT (by omega)
        omega
      · refine ⟨g.parent y, ?_, hd⟩
        rw [Finset.mem_filter, Finset.mem_range]
        exact ⟨hpT, by omega⟩
    · intro x hx
      rfl
  have h5 := Finset.sum_filter_add_sum_filter_not (Finset.range g.rootIdx)
    (fun y => y % 2 = 0) g.freq
  replace h5 : ((Finset.range g.rootIdx).filter (fun y => y % 2 = 0)).sum g.freq +
      ((Finset.range g.rootIdx).filter (fun y => ¬ y % 2 = 0)).sum g.freq =
      (Finset.range g.rootIdx).sum g.freq := h5
  have h6 : (Finset.range g.nodeCount).sum g.freq =
      (Finset.range g.rootIdx).sum g.freq + g.freq g.rootIdx := by
    rw [hTR, Finset.sum_range_succ]
  omega

/-- After the collection pass of `rebuild_huff`, the packed leaves form a
valid entry state of the parent loop (`i = 0`, `j = num_symb`), whose
pending mass is the sum of the halved leaf frequencies. -/
theorem collect_RInv {g : Huff} (hI : HInv g) :
    RInv g.numSymb
      ((Finset.Ico 0 g.numSymb).sum (collectLeaves g.nodeCount g.freq g.son).2.1)
      (collectLeaves g.nodeCount g.freq g.son).2.1
      (collectLeaves g.nodeCount g.freq g.son).2.2
      0 g.numSymb := by
  have hTR : g.nodeCount = 2 * g.numSymb - 1 := rfl
  have hn := hI.hn
  obtain ⟨s1, s2, s3, s4⟩ := collectPrefix_spec g.nodeCount g.freq g.son g.nodeCount
  have hcnt : leafCnt g.son g.nodeCount g.nodeCount = g.numSymb := leaf_count hI
  have hEq : collectLeaves g.nodeCount g.freq g.son =
      collectPrefix g.nodeCount g.freq g.son g.nodeCount := rfl
  rw [hEq]
  have hsrc : ∀ q, q < g.numSymb → ∃ x, x < g.nodeCount ∧ g.nodeCount ≤ g.son x ∧
      leafCnt g.son g.nodeCount x = q ∧
      (collectPrefix g.nodeCount g.freq g.son g.nodeCount).2.2 q = g.son x ∧
      (collectPrefix g.nodeCount g.freq g.son g.nodeCount).2.1 q = (g.freq x + 1) / 2 := by
    intro q hq
    obtain ⟨x, hx1, hx2, hx3⟩ := leafCnt_src g.son g.nodeCount g.nodeCount q
      (by rw [hcnt]; omega)
    obtain ⟨o1, o2⟩ := s3 x hx1 hx2
    rw [hx3] at o1 o2
    exact ⟨x, hx1, hx2, hx3, o1, o2⟩
  exact {
    hn := hI.hn
    hnMax := hI.hnMax
    hi := by omega
    hjn := le_refl _
    hjT := by omega
    sorted := by
      intro q hq
      obtain ⟨x, hx1, hx2, hx3, _, hf⟩ := hsrc q (by omega)
      obtain ⟨x2, hx1b, hx2b, hx3b, _, hfb⟩ := hsrc (q + 1) (by omega)
      rw [hf, hfb]
      have hxx : x < x2 := by
        by_contra hge
        push_neg at hge
        have := leafCnt_mono g.son g.nodeCount x2 x hge
        omega
      have hmono := sorted_mono hI.sorted x x2 (by omega) (by omega)
      exact Nat.div_le_div_right (by omega)
    pos := by
      intro q hq
      obtain ⟨x, hx1, hx2, _, _, hf⟩ := hsrc q hq
      rw [hf]
      have := hI.freqPos x hx1
      omega
    back := by
      rw [(s2 (2 * g.numSymb - 1) (by rw [hcnt]; omega)).1]
      exact hI.backstop
    sumA := rfl
    internal := by
      intro x hx hsx
      obtain ⟨y, hy1, hy2, _, hs, _⟩ := hsrc x hx
      rw [hs] at hsx
      exfalso
      omega
    leafTag := by
      intro x hx hsx
      obtain ⟨y, hy1, hy2, _, hs, _⟩ := hsrc x hx
      rw [hs] at hsx ⊢
      have := (hI.leafMap y hy1 hy2).1
      omega
    inj := by
      intro x y hx hy hne
      obtain ⟨a, ha1, ha2, ha3, hsa, _⟩ := hsrc x hx
      obtain ⟨b, hb1, hb2, hb3, hsb, _⟩ := hsrc y hy
      rw [hsa, hsb]
      intro he
      have m1 := (hI.leafMap a ha1 ha2).2
      have m2 := (hI.leafMap b hb1 hb2).2
      rw [he] at m1
      have hab : a = b := by omega
      rw [hab] at ha3
      omega
    surj := by
      intro s hs
      have hx1 : g.symbMap s < g.nodeCount := hI.symbMapLt s hs
      have hx2 : g.son (g.symbMap s) = s + g.nodeCount := hI.symbMapSon s hs
      have hleaf : g.nodeCount ≤ g.son (g.symbMap s) := by omega
      obtain ⟨o1, o2⟩ := s3 (g.symbMap s) hx1 hleaf
      refine ⟨leafCnt g.son g.nodeCount (g.symbMap s), ?_, ?_⟩
      · have := leafCnt_lt g.son g.nodeCount g.nodeCount (g.symbMap s) hx1 hleaf
        omega
      · rw [o1]
        omega
    cover := by
      intro y hy
      exact absurd hy (by omega)
    lastNode := by
      intro h
      exfalso
      omega }

/-- Twice the pending mass of the rebuilt leaves is at most the old root
frequency plus the symbol count. -/
theorem collect_sum_le {g : Huff} (hI : HInv g) :
    2 * (Finset.Ico 0 g.numSymb).sum (collectLeaves g.nodeCount g.freq g.son).2.1 ≤
      g.freq g.rootIdx + g.numSymb := by
  obtain ⟨s1, s2, s3, s4⟩ := collectPrefix_spec g.nodeCount g.freq g.son g.nodeCount
  have hcnt : leafCnt g.son g.nodeCount g.nodeCount = g.numSymb := leaf_count hI
  have hEq : collectLeaves g.nodeCount g.freq g.son =
      collectPrefix g.nodeCount g.freq g.son g.nodeCount := rfl
  rw [hEq, show Finset.Ico 0 g.numSymb = Finset.range g.numSymb from
    (congrFun Finset.range_eq_Ico g.numSymb).symm, ← hcnt, s4]
  have e1 : 2 * ((Finset.range g.nodeCount).filter
        (fun x => g.nodeCount ≤ g.son x)).sum (fun x => (g.freq x + 1) / 2) =
      ((Finset.range g.nodeCount).filter (fun x => g.nodeCount ≤ g.son x)).sum
        (fun x => 2 * ((g.freq x + 1) / 2)) := by
    rw [Finset.mul_sum]
  have e2 : ((Finset.range g.nodeCount).filter (fun x => g.nodeCount ≤ g.son x)).sum
        (fun x => 2 * ((g.freq x + 1) / 2)) ≤
      ((Finset.range g.nodeCount).filter (fun x => g.nodeCount ≤ g.son x)).sum
        (fun x => g.freq x + 1) := by
    apply Finset.sum_le_sum
    intro x _
    omega
  have e3 : ((Finset.range g.nodeCount).filter (fun x => g.nodeCount ≤ g.son x)).sum
        (fun x => g.freq x + 1) =
      ((Finset.range g.nodeCount).filter (fun x => g.nodeCount ≤ g.son x)).sum g.freq +
      ((Finset.range g.nodeCount).filter (fun x => g.nodeCount ≤ g.son x)).card := by
    rw [Finset.sum_add_distrib, Finset.sum_const, smul_eq_mul, mul_one]
  have e4 : ((Finset.range g.nodeCount).filter
      (fun x => g.nodeCount ≤ g.son x)).card = g.numSymb := hcnt
  have e5 := root_eq_leafSum hI
  omega

/-! ### `rebuild_huff`: the reconnection pass -/

/-- One step of the parent/symbol-map reconnection fold. -/
def connectStep (T : Nat) (son : Nat → Nat) :
    ((Nat → Nat) × (Nat → Nat)) → Nat → (Nat → Nat) × (Nat → Nat) :=
  fun ps i =>
    if son i ≥ T then (ps.1, fun x => if x = son i - T then i else ps.2 x)
    else ((fun x => if x = son i ∨ x = son i + 1 then i else ps.1 x), ps.2)

theorem connectParents_eq (T : Nat) (son parent symbMap : Nat → Nat) :
    connectParents T son parent symbMap =
      (List.range T).foldl (connectStep T son) (parent, symbMap) := rfl

/-- The reconnection fold stopped after the first `p` slots. -/
def connectPrefix (T : Nat) (son parent symbMap : Nat → Nat) (p : Nat) :
    (Nat → Nat) × (Nat → Nat) :=
  (List.range p).foldl (connectStep T son) (parent, symbMap)

theorem connectPrefix_succ (T : Nat) (son parent symbMap : Nat → Nat) (p : Nat) :
    connectPrefix T son parent symbMap (p + 1) =
      connectStep T son (connectPrefix T son parent symbMap p) p := by
  unfold connectPrefix
  rw [List.range_succ, List.foldl_append]
  rfl

/-- Behaviour of the reconnection fold on a son array with even internal
sons and pairwise distinct son values: internal slots become the parent of
their two sons, leaf slots claim their symbol-map entry, and untouched
entries keep their previous values. -/
theorem connectPrefix_spec (T : Nat) (son parent symbMap : Nat → Nat)
    (hint : ∀ x, x < T → son x < T → son x % 2 = 0)
    (hinj : ∀ x y, x < T → y < T → x ≠ y → son x ≠ son y) :
    ∀ p, p ≤ T →
    (∀ x, x < p → son x < T →
      (connectPrefix T son parent symbMap p).1 (son x) = x ∧
      (connectPrefix T son parent symbMap p).1 (son x + 1) = x) ∧
    (∀ y, (∀ x, x < p → son x < T → ¬(son x = y ∨ son x + 1 = y)) →
      (connectPrefix T son parent symbMap p).1 y = parent y) ∧
    (∀ x, x < p → T ≤ son x →
      (connectPrefix T son parent symbMap p).2 (son x - T) = x) ∧
    (∀ s, (∀ x, x < p → ¬(T ≤ son x ∧ son x - T = s)) →
      (connectPrefix T son parent symbMap p).2 s = symbMap s) := by
  intro p
  induction p with
  | zero =>
    intro _
    refine ⟨?_, ?_, ?_, ?_⟩
    · intro x hx _
      exact absurd hx (by omega)
    · intro y _
      rfl
    · intro x hx _
      exact absurd hx (by omega)
    · intro s _
      rfl
  | succ p ih =>
    intro hp
    obtain ⟨ih1, ih2, ih3, ih4⟩ := ih (by omega)
    rw [connectPrefix_succ]
    unfold connectStep
    by_cases h : son p ≥ T
    · rw [if_pos h]
      refine ⟨?_, ?_, ?_, ?_⟩
      · intro x hx hsx
        show (connectPrefix T son parent symbMap p).1 (son x) = x ∧
          (connectPrefix T son parent symbMap p).1 (son x + 1) = x
        have hxp : x < p := by
          by_cases he : x = p
          · rw [he] at hsx
            omega
          · omega
        exact ih1 x hxp hsx
      · intro y hy
        show (connectPrefix T son parent symbMap p).1 y = parent y
        exact ih2 y (fun x hx hsx => hy x (by omega) hsx)
      · intro x hx hsx
        show (if son x - T = son p - T then p
          else (connectPrefix T son parent symbMap p).2 (son x - T)) = x
        by_cases hxp : x = p
        · rw [if_pos (by rw [hxp])]
          omega
        · have hxp' : x < p := by omega
          rw [if_neg (by
              intro he
              have hee : son x = son p := by omega
              exact hinj x p (by omega) (by omega) hxp hee)]
          exact ih3 x hxp' hsx
      · intro s hs
        show (if s = son p - T then p
          else (connectPrefix T son parent symbMap p).2 s) = symbMap s
        rw [if_neg (by
            intro he
            exact hs p (by omega) ⟨h, by omega⟩)]
        exact ih4 s (fun x hx hl => hs x (by omega) hl)
    · rw [if_neg h]
      push_neg at h
      refine ⟨?_, ?_, ?_, ?_⟩
      · intro x hx hsx
        show (if son x = son p ∨ son x = son p + 1 then p
            else (connectPrefix T son parent symbMap p).1 (son x)) = x ∧
          (if son x + 1 = son p ∨ son x + 1 = son p + 1 then p
            else (connectPrefix T son parent symbMap p).1 (son x + 1)) = x
        by_cases hxp : x = p
        · subst hxp
          constructor
          · rw [if_pos (Or.inl rfl)]
          · rw [if_pos (Or.inr rfl)]
        · have hxp' : x < p := by omega
          have hne := hinj x p (by omega) (by omega) hxp
          have hex := hint x (by omega) hsx
          have hep := hint p (by omega) h
          constructor
          · rw [if_neg (by
                rintro (hd | hd)
                · exact hne hd
                · omega)]
            exact (ih1 x hxp' hsx).1
          · rw [if_neg (by
                rintro (hd | hd)
                · omega
                · exact hne (by omega))]
            exact (ih1 x hxp' hsx).2
      · intro y hy
        show (if y = son p ∨ y = son p + 1 then p
          else (connectPrefix T son parent symbMap p).1 y) = parent y
        rw [if_neg (by
            rintro (hd | hd)
            · exact hy p (by omega) h (Or.inl hd.symm)
            · exact hy p (by omega) h (Or.inr (by omega)))]
        exact ih2 y (fun x hx hsx => hy x (by omega) hsx)
      · intro x hx hsx
        show (connectPrefix T son parent symbMap p).2 (son x - T) = x
        have hxp : x < p := by
          by_cases he : x = p
          · rw [he] at hsx
            omega
          · omega
        exact ih3 x hxp hsx
      · intro s hs
        show (connectPrefix T son parent symbMap p).2 s = symbMap s
        exact ih4 s (fun x hx hl => hs x (by omega) hl)

/-- `rebuild_huff` restores the full invariant and brings the root frequency
down to at most `MAX_FREQ/2 + num_symb/2`. -/
theorem rebuild_HInv {g : Huff} (hI : HInv g) :
    HInv g.rebuildHuff ∧
      g.rebuildHuff.freq g.rebuildHuff.rootIdx ≤ Huff.maxFreq / 2 + g.numSymb / 2 := by
  have hn := hI.hn
  have hnM := hI.hnMax
  have hmf : Huff.maxFreq = 0x8000 := rfl
  have hcol := collect_RInv hI
  have hcolS := collect_sum_le hI
  set S0 := (Finset.Ico 0 g.numSymb).sum (collectLeaves g.nodeCount g.freq g.son).2.1
    with hS0def
  have hfin := rebuildLoop_post (2 * g.numSymb - 1 - g.numSymb)
    (collectLeaves g.nodeCount g.freq g.son).2.1
    (collectLeaves g.nodeCount g.freq g.son).2.2 0 g.numSymb rfl hcol
  set F2 := (rebuildLoop (2 * g.numSymb - 1)
    (collectLeaves g.nodeCount g.freq g.son).2.1
    (collectLeaves g.nodeCount g.freq g.son).2.2 0 g.numSymb).1 with hF2def
  set S2 := (rebuildLoop (2 * g.numSymb - 1)
    (collectLeaves g.nodeCount g.freq g.son).2.1
    (collectLeaves g.nodeCount g.freq g.son).2.2 0 g.numSymb).2 with hS2def
  have hint : ∀ x, x < 2 * g.numSymb - 1 → S2 x < 2 * g.numSymb - 1 → S2 x % 2 = 0 :=
    fun x hx hs => (hfin.internal x hx hs).1
  have hinj : ∀ x y, x < 2 * g.numSymb - 1 → y < 2 * g.numSymb - 1 → x ≠ y →
      S2 x ≠ S2 y := hfin.inj
  obtain ⟨c1, c2, c3, c4⟩ := connectPrefix_spec (2 * g.numSymb - 1) S2
    g.parent g.symbMap hint hinj (2 * g.numSymb - 1) (le_refl _)
  -- the root slot holds the pending mass
  have hsum := hfin.sumA
  rw [show 2 * g.numSymb - 1 = (2 * g.numSymb - 2) + 1 from by omega,
    Finset.sum_Ico_succ_top (le_refl _), Finset.Ico_self, Finset.sum_empty] at hsum
  have hfold : (rebuildLoop (2 * g.numSymb - 1)
      (collectLeaves g.nodeCount g.freq g.son).2.1
      (collectLeaves g.nodeCount g.freq g.son).2.2 0 g.numSymb).1
      (2 * g.numSymb - 2) = F2 (2 * g.numSymb - 2) := rfl
  have hfoldS : (Finset.Ico 0 g.numSymb).sum
      (collectLeaves g.nodeCount g.freq g.son).2.1 = S0 := rfl
  have hrootLe : g.freq g.rootIdx ≤ 0x8000 := hI.rootLe
  replace hcolS : 2 * S0 ≤ g.freq g.rootIdx + g.numSymb := hcolS
  have hfreqR : F2 (2 * g.numSymb - 2) = S0 := by omega
  have hSmax : S0 ≤ 0x8000 := by omega
  have hSbound : S0 ≤ 0x8000 / 2 + g.numSymb / 2 := by omega
  refine ⟨?_, ?_⟩
  · exact {
      hn := hI.hn
      hnMax := hI.hnMax
      backstop := by
        show F2 (2 * g.numSymb - 1) = 0xffff
        exact hfin.back
      sorted := by
        intro x hx
        replace hx : x < 2 * g.numSymb - 1 := hx
        show F2 x ≤ F2 (x + 1)
        by_cases hlast : x + 1 < 2 * g.numSymb - 1
        · exact hfin.sorted x hlast
        · have hxeq : x = 2 * g.numSymb - 2 := by omega
          rw [hxeq, show 2 * g.numSymb - 2 + 1 = 2 * g.numSymb - 1 from by omega,
            hfin.back, hfreqR]
          omega
      rootLe := by
        show F2 (2 * g.numSymb - 2) ≤ Huff.maxFreq
        rw [hfreqR]
        exact hSmax
      freqPos := by
        intro x hx
        replace hx : x < 2 * g.numSymb - 1 := hx
        show 1 ≤ F2 x
        exact hfin.pos x hx
      sumEq := fun x hx hs => (hfin.internal x hx hs).2.2.2
      sonEven := fun x hx hs => (hfin.internal x hx hs).1
      sonLt := fun x hx hs => (hfin.internal x hx hs).2.2.1
      sonRange := by
        intro x hx
        replace hx : x < 2 * g.numSymb - 1 := hx
        show S2 x < 2 * g.numSymb - 1 + g.numSymb
        by_cases hs : S2 x < 2 * g.numSymb - 1
        · omega
        · have := hfin.leafTag x hx (by omega)
          omega
      parentSon := fun x hx hs => c1 x hx hs
      leafMap := by
        intro x hx hs
        replace hx : x < 2 * g.numSymb - 1 := hx
        replace hs : 2 * g.numSymb - 1 ≤ S2 x := hs
        refine ⟨?_, ?_⟩
        · show S2 x - (2 * g.numSymb - 1) < g.numSymb
          exact hfin.leafTag x hx hs
        · show (connectPrefix (2 * g.numSymb - 1) S2 g.parent g.symbMap
              (2 * g.numSymb - 1)).2 (S2 x - (2 * g.numSymb - 1)) = x
          exact c3 x hx hs
      symbMapLt := by
        intro s hs
        replace hs : s < g.numSymb := hs
        obtain ⟨x, hx1, hx2⟩ := hfin.surj s hs
        have hleaf : 2 * g.numSymb - 1 ≤ S2 x := by omega
        have htag : S2 x - (2 * g.numSymb - 1) = s := by omega
        have hm := c3 x hx1 hleaf
        rw [htag] at hm
        show (connectPrefix (2 * g.numSymb - 1) S2 g.parent g.symbMap
            (2 * g.numSymb - 1)).2 s < 2 * g.numSymb - 1
        rw [hm]
        exact hx1
      symbMapSon := by
        intro s hs
        replace hs : s < g.numSymb := hs
        obtain ⟨x, hx1, hx2⟩ := hfin.surj s hs
        have hleaf : 2 * g.numSymb - 1 ≤ S2 x := by omega
        have htag : S2 x - (2 * g.numSymb - 1) = s := by omega
        have hm := c3 x hx1 hleaf
        rw [htag] at hm
        show S2 ((connectPrefix (2 * g.numSymb - 1) S2 g.parent g.symbMap
            (2 * g.numSymb - 1)).2 s) = s + (2 * g.numSymb - 1)
        rw [hm]
        exact hx2
      parentLt := by
        intro y hy
        replace hy : y < 2 * g.numSymb - 2 := hy
        obtain ⟨x, hx1, hx2, hx3⟩ := hfin.cover y hy
        have hps := c1 x hx1 hx2
        have hlt := (hfin.internal x hx1 hx2).2.2.1
        show y < (connectPrefix (2 * g.numSymb - 1) S2 g.parent g.symbMap
            (2 * g.numSymb - 1)).1 y
        rcases hx3 with hd | hd
        · have h1 := hps.1
          rw [hd] at h1
          rw [h1]
          omega
        · have h1 := hps.2
          rw [hd] at h1
          rw [h1]
          omega
      parentBack := by
        intro y hy
        replace hy : y < 2 * g.numSymb - 2 := hy
        obtain ⟨x, hx1, hx2, hx3⟩ := hfin.cover y hy
        have hps := c1 x hx1 hx2
        constructor
        · show (connectPrefix (2 * g.numSymb - 1) S2 g.parent g.symbMap
              (2 * g.numSymb - 1)).1 y < 2 * g.numSymb - 1
          rcases hx3 with hd | hd
          · have h1 := hps.1
            rw [hd] at h1
            rw [h1]
            exact hx1
          · have h1 := hps.2
            rw [hd] at h1
            rw [h1]
            exact hx1
        · show S2 ((connectPrefix (2 * g.numSymb - 1) S2 g.parent g.symbMap
              (2 * g.numSymb - 1)).1 y) = y ∨
            S2 ((connectPrefix (2 * g.numSymb - 1) S2 g.parent g.symbMap
              (2 * g.numSymb - 1)).1 y) + 1 = y
          rcases hx3 with hd | hd
          · have h1 := hps.1
            rw [hd] at h1
            rw [h1]
            exact Or.inl hd
          · have h1 := hps.2
            rw [hd] at h1
            rw [h1]
            exact Or.inr hd
      parentRoot := by
        show (connectPrefix (2 * g.numSymb - 1) S2 g.parent g.symbMap
            (2 * g.numSymb - 1)).1 (2 * g.numSymb - 2) = 0
        rw [c2 (2 * g.numSymb - 2) (by
          intro x hx hs
          have := (hfin.internal x hx hs).2.1
          omega)]
        exact hI.parentRoot
      rootInternal := by
        show S2 (2 * g.numSymb - 2) < 2 * g.numSymb - 1
        exact hfin.lastNode rfl }
  · show F2 (2 * g.numSymb - 2) ≤ Huff.maxFreq / 2 + g.numSymb / 2
    rw [hfreqR]
    exact hSbound

/-- `update` preserves the full invariant (rebuilding first when the root
frequency has saturated). -/
theorem update_HInv {h : Huff} (hI : HInv h) (c0 : Nat) (hc0 : c0 < h.numSymb) :
    HInv (Huff.update h c0) := by
  unfold Huff.update
  by_cases hsat : h.freq h.rootIdx = Huff.maxFreq
  · rw [if_pos hsat]
    obtain ⟨hreb, hbound⟩ := rebuild_HInv hI
    have hmf : Huff.maxFreq = 0x8000 := rfl
    have hnM := hI.hnMax
    have hlt : h.rebuildHuff.freq h.rebuildHuff.rootIdx < Huff.maxFreq := by
      rw [hmf] at hbound ⊢
      omega
    apply updateLoop_HInv
    · exact hinv_to_uinv hreb hlt c0 hc0
    · have := rootIdx_lt_nodeCount h.rebuildHuff hreb.hn
      omega
  · rw [if_neg hsat]
    have hlt : h.freq h.rootIdx < Huff.maxFreq := by
      have := hI.rootLe
      omega
    apply updateLoop_HInv
    · exact hinv_to_uinv hI hlt c0 hc0
    · have := rootIdx_lt_nodeCount h hI.hn
      omega

theorem updateLoop_numSymb : ∀ (fuel : Nat) (h : Huff) (c : Nat),
    (updateLoop h c fuel).numSymb = h.numSymb := by
  intro fuel
  induction fuel with
  | zero =>
    intro h c
    rfl
  | succ fuel ih =>
    intro h c
    rw [updateLoop_succ]
    by_cases h1 : (incFreq h c).freq c > (incFreq h c).freq (c + 1)
    · rw [if_pos h1]
      by_cases h2 : (swapNodes (incFreq h c) c
          (updateScan (incFreq h c).freq ((incFreq h c).freq c) (c + 1)
            ((incFreq h c).nodeCount + 2) - 1)).parent
          (updateScan (incFreq h c).freq ((incFreq h c).freq c) (c + 1)
            ((incFreq h c).nodeCount + 2) - 1) = 0
      · rw [if_pos h2]
        rfl
      · rw [if_neg h2]
        exact ih _ _
    · rw [if_neg h1]
      by_cases h2 : (incFreq h c).parent c = 0
      · rw [if_pos h2]
        rfl
      · rw [if_neg h2]
        exact ih _ _

theorem update_numSymb (h : Huff) (c0 : Nat) :
    (Huff.update h c0).numSymb = h.numSymb := by
  unfold Huff.update
  by_cases hs : h.freq h.rootIdx = Huff.maxFreq
  · rw [if_pos hs]
    exact updateLoop_numSymb _ _ _
  · rw [if_neg hs]
    exact updateLoop_numSymb _ _ _

/-- Folding any in-range symbol sequence through `update` preserves the
invariant and the symbol count. -/
theorem foldl_update_HInv : ∀ (l : List Nat) (g : Huff), HInv g →
    (∀ c ∈ l, c < g.numSymb) →
    HInv (l.foldl Huff.update g) ∧ (l.foldl Huff.update g).numSymb = g.numSymb := by
  intro l
  induction l with
  | nil =>
    intro g hg _
    exact ⟨hg, rfl⟩
  | cons a t ih =>
    intro g hg hall
    rw [List.foldl_cons]
    have h1 := update_HInv hg a (hall a (List.mem_cons_self a t))
    have h2 := update_numSymb g a
    obtain ⟨hh, hn⟩ := ih (Huff.update g a) h1 (by
      intro c hc
      rw [h2]
      exact hall c (List.mem_cons_of_mem a hc))
    exact ⟨hh, hn.trans h2⟩

/-- The `start_huff` state of the LZHUF coder (`314` symbols) is
well-formed, for any input bit stream. -/
theorem startHuff_HInv (bits : List Bool) : HInv (Huff.create bits 314).startHuff := {
  hn := by
    show (2 : Nat) ≤ 314
    decide
  hnMax := by
    show (314 : Nat) ≤ 0x4000
    decide
  backstop := by
    show (if (627 : Nat) = 627 then (0xffff : Nat) else startFreq 314 627) = 0xffff
    decide
  sorted := by
    show ∀ i, i < 627 →
      (if i = 627 then (0xffff : Nat) else startFreq 314 i) ≤
      (if i + 1 = 627 then (0xffff : Nat) else startFreq 314 (i + 1))
    decide
  rootLe := by
    show (if (626 : Nat) = 627 then (0xffff : Nat) else startFreq 314 626) ≤ Huff.maxFreq
    decide
  freqPos := by
    show ∀ i, i < 627 →
      1 ≤ (if i = 627 then (0xffff : Nat) else startFreq 314 i)
    decide
  sumEq := by
    show ∀ i, i < 627 →
      (if i < 314 then i + 627 else if i < 627 then 2 * (i - 314) else 0) < 627 →
      (if i = 627 then (0xffff : Nat) else startFreq 314 i) =
      (if (if i < 314 then i + 627 else if i < 627 then 2 * (i - 314) else 0) = 627
        then (0xffff : Nat)
        else startFreq 314 (if i < 314 then i + 627 else if i < 627 then 2 * (i - 314) else 0)) +
      (if (if i < 314 then i + 627 else if i < 627 then 2 * (i - 314) else 0) + 1 = 627
        then (0xffff : Nat)
        else startFreq 314
          ((if i < 314 then i + 627 else if i < 627 then 2 * (i - 314) else 0) + 1))
    decide
  sonEven := by
    show ∀ i, i < 627 →
      (if i < 314 then i + 627 else if i < 627 then 2 * (i - 314) else 0) < 627 →
      (if i < 314 then i + 627 else if i < 627 then 2 * (i - 314) else 0) % 2 = 0
    decide
  sonLt := by
    show ∀ i, i < 627 →
      (if i < 314 then i + 627 else if i < 627 then 2 * (i - 314) else 0) < 627 →
      (if i < 314 then i + 627 else if i < 627 then 2 * (i - 314) else 0) + 1 < i
    decide
  sonRange := by
    show ∀ i, i < 627 →
      (if i < 314 then i + 627 else if i < 627 then 2 * (i - 314) else 0) < 627 + 314
    decide
  parentSon := by
    show ∀ i, i < 627 →
      (if i < 314 then i + 627 else if i < 627 then 2 * (i - 314) else 0) < 627 →
      (if (if i < 314 then i + 627 else if i < 627 then 2 * (i - 314) else 0) = 626 then 0
        else if (if i < 314 then i + 627 else if i < 627 then 2 * (i - 314) else 0) < 626
        then 314 + (if i < 314 then i + 627 else if i < 627 then 2 * (i - 314) else 0) / 2
        else 0) = i ∧
      (if (if i < 314 then i + 627 else if i < 627 then 2 * (i - 314) else 0) + 1 = 626 then 0
        else if (if i < 314 then i + 627 else if i < 627 then 2 * (i - 314) else 0) + 1 < 626
        then 314 + ((if i < 314 then i + 627 else if i < 627 then 2 * (i - 314) else 0) + 1) / 2
        else 0) = i
    decide
  leafMap := by
    show ∀ i, i < 627 →
      627 ≤ (if i < 314 then i + 627 else if i < 627 then 2 * (i - 314) else 0) →
      (if i < 314 then i + 627 else if i < 627 then 2 * (i - 314) else 0) - 627 < 314 ∧
      (if (if i < 314 then i + 627 else if i < 627 then 2 * (i - 314) else 0) - 627 < 314
        then (if i < 314 then i + 627 else if i < 627 then 2 * (i - 314) else 0) - 627
        else 0) = i
    decide
  symbMapLt := by
    show ∀ s : Nat, s < 314 → (if s < 314 then s else (0 : Nat)) < 627
    decide
  symbMapSon := by
    show ∀ s, s < 314 →
      (if (if s < 314 then s else 0) < 314 then (if s < 314 then s else 0) + 627
        else if (if s < 314 then s else 0) < 627 then 2 * ((if s < 314 then s else 0) - 314)
        else 0) = s + 627
    decide
  parentLt := by
    show ∀ j : Nat, j < 626 →
      j < (if j = 626 then (0 : Nat) else if j < 626 then 314 + j / 2 else 0)
    decide
  parentBack := by
    show ∀ j, j < 626 →
      (if j = 626 then 0 else if j < 626 then 314 + j / 2 else 0) < 627 ∧
      ((if (if j = 626 then 0 else if j < 626 then 314 + j / 2 else 0) < 314
          then (if j = 626 then 0 else if j < 626 then 314 + j / 2 else 0) + 627
          else if (if j = 626 then 0 else if j < 626 then 314 + j / 2 else 0) < 627
          then 2 * ((if j = 626 then 0 else if j < 626 then 314 + j / 2 else 0) - 314)
          else 0) = j ∨
        (if (if j = 626 then 0 else if j < 626 then 314 + j / 2 else 0) < 314
          then (if j = 626 then 0 else if j < 626 then 314 + j / 2 else 0) + 627
          else if (if j = 626 then 0 else if j < 626 then 314 + j / 2 else 0) < 627
          then 2 * ((if j = 626 then 0 else if j < 626 then 314 + j / 2 else 0) - 314)
          else 0) + 1 = j)
    decide
  parentRoot := by
    show (if (626 : Nat) = 626 then 0 else if 626 < 626 then 314 + 626 / 2 else 0) = 0
    decide
  rootInternal := by
    show (if (626 : Nat) < 314 then 626 + 627
      else if (626 : Nat) < 627 then 2 * (626 - 314) else 0) < 627
    decide }

/-- Leaf frequencies of a concrete saturated 314-symbol table: symbols
`0..201` have weight `104` and symbols `202..313` weight `105`
(`202*104 + 112*105 = 0x8000`); internal slots follow the `start_huff`
tree shape.  The fuel makes the recursion structural. -/
def qFreqA : Nat → Nat → Nat
  | 0, _ => 0
  | fuel + 1, i =>
    if i < 202 then 104
    else if i < 314 then 105
    else if i < 627 then qFreqA fuel (2 * (i - 314)) + qFreqA fuel (2 * (i - 314) + 1)
    else 0

/-- A saturated table: the `start_huff` layout with the `qFreqA`
frequencies; its root frequency is exactly `MAX_FREQ = 0x8000`. -/
def q314 : Huff :=
  { numSymb := 314
    bits := []
    ptr := 0
    freq := fun i => if i = 627 then 0xffff else qFreqA (i + 1) i
    son := fun i => if i < 314 then i + 627 else if i < 627 then 2 * (i - 314) else 0
    parent := fun i => if i = 626 then 0 else if i < 626 then 314 + i / 2 else 0
    symbMap := fun i => if i < 314 then i else 0 }

theorem q314_HInv : HInv q314 := {
  hn := by decide
  hnMax := by decide
  backstop := by decide
  sorted := by decide
  rootLe := by decide
  freqPos := by decide
  sumEq := by decide
  sonEven := by decide
  sonLt := by decide
  sonRange := by decide
  parentSon := by decide
  leafMap := by decide
  symbMapLt := by decide
  symbMapSon := by decide
  parentLt := by decide
  parentBack := by decide
  parentRoot := by decide
  rootInternal := by decide }

end Huff

/-! ## Match-candidate bookkeeping (for the `insert_node` tie-break claim) -/

/-- One fold step of the candidate bookkeeping. -/
def candFold (b : Int × Nat) (c : Int × Nat) : Int × Nat :=
  LZSS.candStep b c.1 c.2

/-- Candidates that can affect the match: length above `THRESHOLD`
(this is the spec's notion of a candidate match). -/
def goodOf (cands : List (Int × Nat)) : List (Int × Nat) :=
  cands.filter (fun c => decide (THRESHOLD < c.2))

/-- Maximum candidate length (`0` when there is none). -/
def maxLen (l : List (Int × Nat)) : Nat := l.foldl (fun m c => max m c.2) 0

theorem maxLen_foldl_ge (l : List (Int × Nat)) :
    ∀ a : Nat, a ≤ l.foldl (fun m c => max m c.2) a ∧
      ∀ d ∈ l, d.2 ≤ l.foldl (fun m c => max m c.2) a := by
  induction l with
  | nil => intro a; exact ⟨le_refl a, by simp⟩
  | cons x t ih =>
    intro a
    obtain ⟨h1, h2⟩ := ih (max a x.2)
    refine ⟨le_trans (le_max_left a x.2) h1, ?_⟩
    intro d hd
    rcases List.mem_cons.mp hd with hdx | hdt
    · subst hdx
      exact le_trans (le_max_right a d.2) h1
    · exact h2 d hdt

theorem maxLen_append (l : List (Int × Nat)) (c : Int × Nat) :
    maxLen (l ++ [c]) = max (maxLen l) c.2 := by
  unfold maxLen
  rw [List.foldl_append]
  rfl

theorem maxLen_mem_le (l : List (Int × Nat)) (d : Int × Nat) (hd : d ∈ l) :
    d.2 ≤ maxLen l := (maxLen_foldl_ge l 0).2 d hd

/-- `candStep` ignores short candidates. -/
theorem candStep_short (b : Int × Nat) (off : Int) (i : Nat) (h : ¬ THRESHOLD < i) :
    LZSS.candStep b off i = b := by
  simp only [LZSS.candStep]
  rw [if_neg h]

/-- `candStep` takes a strictly longer candidate. -/
theorem candStep_longer (bo : Int) (bl : Nat) (off : Int) (i : Nat)
    (h : THRESHOLD < i) (h2 : bl < i) :
    LZSS.candStep (bo, bl) off i = (off, i) := by
  simp only [LZSS.candStep]
  rw [if_pos h, if_pos (show i > (bo, bl).2 from h2)]
  rw [if_neg (by simp)]

/-- `candStep` on an equal-length candidate with smaller offset takes the
new offset. -/
theorem candStep_tie_smaller (bo : Int) (bl : Nat) (off : Int) (i : Nat)
    (h : THRESHOLD < i) (h2 : i = bl) (h3 : off < bo) :
    LZSS.candStep (bo, bl) off i = (off, bl) := by
  simp only [LZSS.candStep]
  rw [if_pos h, if_neg (show ¬ i > (bo, bl).2 by simp; omega)]
  rw [if_pos (show i = (bo, bl).2 ∧ off < (bo, bl).1 from ⟨h2, h3⟩)]

/-- `candStep` on an equal-length candidate with no smaller offset keeps the
accumulator. -/
theorem candStep_tie_keep (bo : Int) (bl : Nat) (off : Int) (i : Nat)
    (h : THRESHOLD < i) (h2 : i = bl) (h3 : ¬ off < bo) :
    LZSS.candStep (bo, bl) off i = (bo, bl) := by
  simp only [LZSS.candStep]
  rw [if_pos h, if_neg (show ¬ i > (bo, bl).2 by simp; omega)]
  rw [if_neg (by intro hx; exact h3 hx.2)]

/-- `candStep` ignores a strictly shorter (but valid) candidate. -/
theorem candStep_shorter (bo : Int) (bl : Nat) (off : Int) (i : Nat)
    (h : THRESHOLD < i) (h2 : i < bl) :
    LZSS.candStep (bo, bl) off i = (bo, bl) := by
  simp only [LZSS.candStep]
  rw [if_pos h, if_neg (show ¬ i > (bo, bl).2 by simp; omega)]
  rw [if_neg (by intro hx; have := hx.1; simp at this; omega)]

/-- Invariant carried by the candidate fold: starting from `(p0, 0)`, the
accumulator is the pair of the longest candidate seen, ties broken toward
the smaller offset. -/
def CandInv (p0 : Int) (processed : List (Int × Nat)) (b : Int × Nat) : Prop :=
  (goodOf processed = [] → b = (p0, 0)) ∧
  (goodOf processed ≠ [] →
    b.2 = maxLen (goodOf processed) ∧
    b ∈ goodOf processed ∧
    ∀ c ∈ goodOf processed, c.2 = b.2 → b.1 ≤ c.1)

theorem candInv_nil (p0 : Int) : CandInv p0 [] (p0, 0) := by
  constructor
  · intro _; rfl
  · intro hne; exact absurd rfl hne

theorem goodOf_append (pr : List (Int × Nat)) (c : Int × Nat) :
    goodOf (pr ++ [c]) = goodOf pr ++ if THRESHOLD < c.2 then [c] else [] := by
  unfold goodOf
  rw [List.filter_append]
  by_cases hc : THRESHOLD < c.2
  · rw [if_pos hc]
    congr 1
    simp [hc]
  · rw [if_neg hc]
    congr 1
    simp [hc]

theorem candInv_step (p0 : Int) (pr : List (Int × Nat)) (b c : Int × Nat)
    (hb : CandInv p0 pr b) : CandInv p0 (pr ++ [c]) (candFold b c) := by
  obtain ⟨hemp, hne⟩ := hb
  obtain ⟨bo, bl⟩ := b
  obtain ⟨co, cl⟩ := c
  have hfold : candFold (bo, bl) (co, cl) = LZSS.candStep (bo, bl) co cl := rfl
  by_cases hc : THRESHOLD < cl
  · have hg : goodOf (pr ++ [(co, cl)]) = goodOf pr ++ [(co, cl)] := by
      rw [goodOf_append, if_pos hc]
    unfold CandInv
    rw [hg]
    refine ⟨by simp, fun _ => ?_⟩
    by_cases hprev : goodOf pr = []
    · -- first candidate: it is taken outright
      have hb0 : (bo, bl) = ((p0, 0) : Int × Nat) := hemp hprev
      have hbl : bl = 0 := congrArg Prod.snd hb0
      have hbo : bo = p0 := congrArg Prod.fst hb0
      rw [hfold, hbl, hbo, candStep_longer p0 0 co cl hc (by simp [THRESHOLD] at hc; omega)]
      rw [hprev, maxLen_append]
      refine ⟨?_, by simp, ?_⟩
      · show cl = max (maxLen []) cl
        have hm0 : maxLen ([] : List (Int × Nat)) = 0 := rfl
        rw [hm0]; omega
      · intro d hd _
        simp at hd
        rw [hd]
    · obtain ⟨hlen, hmem, hmin⟩ := hne hprev
      simp only at hlen hmin
      have hble : ∀ d ∈ goodOf pr, d.2 ≤ bl := by
        intro d hd; rw [hlen]; exact maxLen_mem_le _ d hd
      rw [maxLen_append, ← hlen]
      rcases lt_trichotomy bl cl with hlt | heq | hgt
      · rw [hfold, candStep_longer bo bl co cl hc hlt]
        refine ⟨by simp; omega, List.mem_append.mpr (Or.inr (by simp)), ?_⟩
        intro d hd hd2
        simp only at hd2
        rcases List.mem_append.mp hd with h1 | h2
        · exact absurd hd2 (by have := hble d h1; omega)
        · simp at h2
          rw [h2]
      · by_cases hoff : co < bo
        · rw [hfold, candStep_tie_smaller bo bl co cl hc heq.symm hoff]
          refine ⟨by simp; omega, ?_, ?_⟩
          · refine List.mem_append.mpr (Or.inr ?_)
            simp [heq]
          · intro d hd hd2
            simp only at hd2
            rcases List.mem_append.mp hd with h1 | h2
            · exact le_trans (le_of_lt hoff) (hmin d h1 hd2)
            · simp at h2
              rw [h2]
        · rw [hfold, candStep_tie_keep bo bl co cl hc heq.symm hoff]
          refine ⟨by simp; omega, List.mem_append.mpr (Or.inl hmem), ?_⟩
          intro d hd hd2
          simp only at hd2
          rcases List.mem_append.mp hd with h1 | h2
          · exact hmin d h1 hd2
          · simp at h2
            subst h2
            show bo ≤ co
            omega
      · rw [hfold, candStep_shorter bo bl co cl hc hgt]
        refine ⟨by simp; omega, List.mem_append.mpr (Or.inl hmem), ?_⟩
        intro d hd hd2
        simp only at hd2
        rcases List.mem_append.mp hd with h1 | h2
        · exact hmin d h1 hd2
        · simp at h2
          subst h2
          simp at hd2
          omega
  · have hg : goodOf (pr ++ [(co, cl)]) = goodOf pr := by
      rw [goodOf_append, if_neg hc, List.append_nil]
    have hstep : candFold (bo, bl) (co, cl) = (bo, bl) :=
      candStep_short (bo, bl) co cl hc
    unfold CandInv
    rw [hg, hstep]
    exact ⟨hemp, hne⟩

theorem candInv_fold (p0 : Int) :
    ∀ (Δ pr : List (Int × Nat)) (b : Int × Nat), CandInv p0 pr b →
      CandInv p0 (pr ++ Δ) (Δ.foldl candFold b) := by
  intro Δ
  induction Δ with
  | nil => intro pr b hb; simpa using hb
  | cons c t ih =>
    intro pr b hb
    have h1 := candInv_step p0 pr b c hb
    have h2 := ih (pr ++ [c]) (candFold b c) h1
    rw [List.append_assoc] at h2
    simpa using h2

/-- The match reported by the descent loop is the fold of `candStep` over
the (ghost) candidate list it returns. -/
theorem insertLoop_fold :
    ∀ (fuel : Nat) (st : LZSS) (r p : Nat) (cmp : Int) (cands : List (Int × Nat)),
      ∃ Δ, (LZSS.insertLoop st r p cmp cands fuel).2 = cands ++ Δ ∧
        ((LZSS.insertLoop st r p cmp cands fuel).1.matchPosition,
         (LZSS.insertLoop st r p cmp cands fuel).1.matchLength) =
          Δ.foldl candFold (st.matchPosition, st.matchLength) := by
  intro fuel
  induction fuel with
  | zero =>
    intro st r p cmp cands
    exact ⟨[], by simp [LZSS.insertLoop], by simp [LZSS.insertLoop]⟩
  | succ n ih =>
    intro st r p cmp cands
    simp only [LZSS.insertLoop]
    by_cases hnext : (if cmp ≥ 0 then st.rson p else st.lson p) ≠ NIL
    · rw [if_pos hnext]
      set p2 := if cmp ≥ 0 then st.rson p else st.lson p
      by_cases hL :
          (LZSS.candStep (st.matchPosition, st.matchLength) (LZSS.offsetOf r p2)
            (LZSS.matchLen st.dict r p2 1).1).2 ≥ LOOKAHEAD
      · rw [if_pos hL]
        refine ⟨[(LZSS.offsetOf r p2, (LZSS.matchLen st.dict r p2 1).1)], rfl, ?_⟩
        show ((LZSS.candStep _ _ _).1, (LZSS.candStep _ _ _).2) = _
        rw [List.foldl_cons, List.foldl_nil]
        rfl
      · rw [if_neg hL]
        obtain ⟨Δ2, h1, h2⟩ := ih _ r p2 (LZSS.matchLen st.dict r p2 1).2
          (cands ++ [(LZSS.offsetOf r p2, (LZSS.matchLen st.dict r p2 1).1)])
        refine ⟨(LZSS.offsetOf r p2, (LZSS.matchLen st.dict r p2 1).1) :: Δ2, ?_, ?_⟩
        · rw [h1, List.append_assoc]
          rfl
        · rw [h2, List.foldl_cons]
          rfl
    · rw [if_neg hnext]
      by_cases hcmp : cmp ≥ 0
      · rw [if_pos hcmp]
        exact ⟨[], by simp, rfl⟩
      · rw [if_neg hcmp]
        exact ⟨[], by simp, rfl⟩

/-! ## Claim theorems -/

/-- C9: when the Huffman bit reader reaches end of input, `get_bit` returns
`0` (and does not raise an error or advance the pointer), so decoding of a
stream whose final code is padded completes. -/
theorem getBit_eof_returns_zero (h : Huff) (heof : h.bits.length ≤ h.ptr) :
    h.getBit = (0, h) := by
  unfold Huff.getBit
  rw [List.get?_eq_none.mpr heof]

/-- Witness for C9 at a concrete exhausted reader. -/
theorem getBit_eof_returns_zero_witness :
    (Huff.create [] 314).bits.length ≤ (Huff.create [] 314).ptr ∧
      (Huff.create [] 314).getBit = (0, Huff.create [] 314) :=
  ⟨by decide, getBit_eof_returns_zero (Huff.create [] 314) (by decide)⟩

/-- C10: `expand` of the empty buffer is the empty vector (the header is
never read and no error is signalled), and for an input carrying the 4-byte
little-endian header the decoder emits at least `textsize` bytes, the loop
being driven by the header value read from bytes 0..4. -/
theorem expand_empty_and_header :
    expand ([] : List Nat) = [] ∧
    ∀ b0 b1 b2 b3 : Nat, ∀ rest : List Nat,
      b0 + 256 * b1 + 65536 * b2 + 16777216 * b3 ≤
        (expand (b0 :: b1 :: b2 :: b3 :: rest)).length := by
  constructor
  · rfl
  · intro b0 b1 b2 b3 rest
    show b0 + 256 * b1 + 65536 * b2 + 16777216 * b3 ≤ (expandLoop _ _ _ [] _ _).length
    have := expandLoop_length (b0 + 256 * b1 + 65536 * b2 + 16777216 * b3)
      (b0 + 256 * b1 + 65536 * b2 + 16777216 * b3)
      (((Huff.create (bitsOfBytes (b0 :: b1 :: b2 :: b3 :: rest)) N_CHAR).startHuff).advance 32)
      (fun i => if i < WIN_SIZE - LOOKAHEAD then 32 else 0)
      (WIN_SIZE - LOOKAHEAD) []
    simpa using this

/-- C7: `decode_position` reads exactly 8 bits into a byte `b`, takes the
upper 6 offset bits as `D_CODE[b] <<< 6`, consumes exactly `D_LEN[b] - 2`
further bits shifted into the scratch register (`b` shifted left with the new
bits appended), and returns `(D_CODE[b] <<< 6) ||| (register &&& 0x3f)`. -/
theorem decodePosition_spec (h : Huff) (hin : h.ptr + 14 ≤ h.bits.length) :
    h.decodePosition =
      ((dCode (valOfBits ((h.bits.drop h.ptr).take 8)) <<< 6) |||
        ((valOfBits ((h.bits.drop h.ptr).take 8) *
            2 ^ (dLen (valOfBits ((h.bits.drop h.ptr).take 8)) - 2) +
          valOfBits ((h.bits.drop (h.ptr + 8)).take
            (dLen (valOfBits ((h.bits.drop h.ptr).take 8)) - 2))) % 64),
       { h with ptr := h.ptr + 8 + (dLen (valOfBits ((h.bits.drop h.ptr).take 8)) - 2) }) := by
  have hbyte : h.getByte =
      (valOfBits ((h.bits.drop h.ptr).take 8), { h with ptr := h.ptr + 8 }) := by
    unfold Huff.getByte
    rw [readBits_spec 8 h 0 (by omega)]
    norm_num
  have hb : valOfBits ((h.bits.drop h.ptr).take 8) < 256 := by
    have h8 : ((h.bits.drop h.ptr).take 8).length = 8 := by
      rw [List.length_take, List.length_drop]
      omega
    have := valOfBits_lt ((h.bits.drop h.ptr).take 8)
    rw [h8] at this
    norm_num at this
    exact this
  obtain ⟨hd3, hd8⟩ := dLen_bounds _ hb
  show (let r8 := h.getByte
        let upper6 := (dCode r8.1) <<< 6
        let codedBits := dLen r8.1
        let reg := r8.2.readBits r8.1 (codedBits - 2)
        (upper6 ||| (reg.1 &&& 0x3f), reg.2)) = _
  rw [hbyte]
  show ((dCode (valOfBits ((h.bits.drop h.ptr).take 8)) <<< 6) |||
      ((({ h with ptr := h.ptr + 8 } : Huff).readBits (valOfBits ((h.bits.drop h.ptr).take 8))
        (dLen (valOfBits ((h.bits.drop h.ptr).take 8)) - 2)).1 &&& 0x3f),
      (({ h with ptr := h.ptr + 8 } : Huff).readBits (valOfBits ((h.bits.drop h.ptr).take 8))
        (dLen (valOfBits ((h.bits.drop h.ptr).take 8)) - 2)).2) = _
  rw [readBits_spec _ _ _ (by
    show h.ptr + 8 + (dLen (valOfBits ((h.bits.drop h.ptr).take 8)) - 2) ≤ h.bits.length
    omega)]
  rw [Nat.and_pow_two_sub_one_eq_mod _ 6]

/-- Witness for C7 on a concrete 16-bit stream. -/
theorem decodePosition_spec_witness :
    (Huff.create (bitsOfBytes [0xAB, 0xCD]) 314).ptr + 14 ≤
      (Huff.create (bitsOfBytes [0xAB, 0xCD]) 314).bits.length ∧
    (Huff.create (bitsOfBytes [0xAB, 0xCD]) 314).decodePosition =
      ((dCode (valOfBits (((Huff.create (bitsOfBytes [0xAB, 0xCD]) 314).bits.drop
          (Huff.create (bitsOfBytes [0xAB, 0xCD]) 314).ptr).take 8)) <<< 6) |||
        ((valOfBits (((Huff.create (bitsOfBytes [0xAB, 0xCD]) 314).bits.drop
            (Huff.create (bitsOfBytes [0xAB, 0xCD]) 314).ptr).take 8) *
            2 ^ (dLen (valOfBits (((Huff.create (bitsOfBytes [0xAB, 0xCD]) 314).bits.drop
              (Huff.create (bitsOfBytes [0xAB, 0xCD]) 314).ptr).take 8)) - 2) +
          valOfBits (((Huff.create (bitsOfBytes [0xAB, 0xCD]) 314).bits.drop
            ((Huff.create (bitsOfBytes [0xAB, 0xCD]) 314).ptr + 8)).take
            (dLen (valOfBits (((Huff.create (bitsOfBytes [0xAB, 0xCD]) 314).bits.drop
              (Huff.create (bitsOfBytes [0xAB, 0xCD]) 314).ptr).take 8)) - 2))) % 64),
       { Huff.create (bitsOfBytes [0xAB, 0xCD]) 314 with
          ptr := (Huff.create (bitsOfBytes [0xAB, 0xCD]) 314).ptr + 8 +
            (dLen (valOfBits (((Huff.create (bitsOfBytes [0xAB, 0xCD]) 314).bits.drop
              (Huff.create (bitsOfBytes [0xAB, 0xCD]) 314).ptr).take 8)) - 2) }) :=
  ⟨by decide, decodePosition_spec (Huff.create (bitsOfBytes [0xAB, 0xCD]) 314) (by decide)⟩

set_option maxRecDepth 40000 in
/-- C6: at the end of `insert_node`'s descent, the reported
`(match_offset, match_length)` pair is the longest of the candidate matches
visited (those of length above `THRESHOLD`), with ties broken toward the
smaller offset: the pair is itself one of the visited candidates, no visited
candidate is longer, and every visited candidate of the same length has an
offset at least as large.  When no candidate exceeds `THRESHOLD`,
`match_length` is left at `0`. -/
theorem insertNode_tiebreak (st : LZSS) (r : Nat) :
    (goodOf (st.insertNode r).2 = [] → (st.insertNode r).1.matchLength = 0) ∧
    (goodOf (st.insertNode r).2 ≠ [] →
      (∀ c ∈ goodOf (st.insertNode r).2, c.2 ≤ (st.insertNode r).1.matchLength) ∧
      ((st.insertNode r).1.matchPosition, (st.insertNode r).1.matchLength) ∈
        goodOf (st.insertNode r).2 ∧
      (∀ c ∈ goodOf (st.insertNode r).2,
        c.2 = (st.insertNode r).1.matchLength → (st.insertNode r).1.matchPosition ≤ c.1)) := by
  obtain ⟨Δ, h1, h2⟩ := insertLoop_fold (WIN_SIZE + 1)
    { st with rson := fun x => if x = r then NIL else st.rson x,
              lson := fun x => if x = r then NIL else st.lson x,
              matchLength := 0 }
    r (WIN_SIZE + 1 + st.dict r) 1 []
  have hout : (st.insertNode r) = LZSS.insertLoop
      { st with rson := fun x => if x = r then NIL else st.rson x,
                lson := fun x => if x = r then NIL else st.lson x,
                matchLength := 0 }
      r (WIN_SIZE + 1 + st.dict r) 1 [] (WIN_SIZE + 1) := rfl
  rw [hout]
  rw [List.nil_append] at h1
  have hinv := candInv_fold st.matchPosition Δ [] (st.matchPosition, 0) (candInv_nil _)
  rw [List.nil_append] at hinv
  have h2x : ((LZSS.insertLoop _ r _ 1 [] (WIN_SIZE + 1)).1.matchPosition,
      (LZSS.insertLoop _ r _ 1 [] (WIN_SIZE + 1)).1.matchLength) =
      Δ.foldl candFold (st.matchPosition, 0) := h2
  obtain ⟨hemp, hne⟩ := hinv
  rw [h1]
  constructor
  · intro hg
    have := hemp hg
    rw [this] at h2x
    exact congrArg Prod.snd h2x
  · intro hg
    obtain ⟨hlen, hmem, hmin⟩ := hne hg
    refine ⟨?_, ?_, ?_⟩
    · intro c hc
      have hb := maxLen_mem_le _ c hc
      rw [← hlen] at hb
      have hsnd := congrArg Prod.snd h2x
      simp only at hsnd
      rw [hsnd]
      exact hb
    · rw [h2x]
      rw [← Prod.mk.eta (p := Δ.foldl candFold (st.matchPosition, 0))] at hmem
      exact hmem
    · intro c hc hcl
      have hfst := congrArg Prod.fst h2x
      have hsnd := congrArg Prod.snd h2x
      simp only at hfst hsnd
      rw [hfst]
      refine hmin c hc ?_
      rw [← hsnd]
      exact hcl

/-- Witness for C6: inserting into the empty index leaves no candidate and a
zero-length match. -/
theorem insertNode_tiebreak_witness :
    goodOf ((LZSS.init).insertNode 0).2 = [] ∧
      ((LZSS.init).insertNode 0).1.matchLength = 0 :=
  ⟨by decide, (insertNode_tiebreak LZSS.init 0).1 (by decide)⟩

set_option maxRecDepth 40000 in
/-- C8 (counterexample): a 12-byte header starting `"TD"` with a valid CRC
(over bytes 0..10, polynomial 0xA097, seed 0) is rejected by the TD0 expand
path with `FileFormatMismatch`, although the claim allows either `"td"` or
`"TD"` as accepted signatures. -/
theorem td0_expand_rejects_uppercase :
    ([0x54, 0x44, 0x30, 0x31, 0x32, 0x33, 0x34, 0x35, 0x36, 0x37, 237, 218] :
        List Nat).take 2 = [0x54, 0x44] ∧
    crc16 0 ([0x54, 0x44, 0x30, 0x31, 0x32, 0x33, 0x34, 0x35, 0x36, 0x37, 237, 218].take 10) =
      237 + 256 * 218 ∧
    td0ExpandHeader [0x54, 0x44, 0x30, 0x31, 0x32, 0x33, 0x34, 0x35, 0x36, 0x37, 237, 218] =
      .error .fileFormatMismatch := by
  refine ⟨by decide, by decide, ?_⟩
  rfl

/-- C8 (amended): TD0 expand accepts only the lowercase `"td"` signature
(rejecting anything else, `"TD"` included, with `FileFormatMismatch`); with a
good signature it fails with `BadChecksum` when the CRC-16 over header bytes
0..10 differs from the little-endian value at bytes 10..12; otherwise it
flips the signature to `"TD"`, recomputes and rewrites the CRC (so the output
header ends with a valid CRC of its first 10 bytes), and dispatches to LZW
when `header[4] < 20`, else to LZHUF. -/
theorem td0_expand_header_spec (ibuf : List Nat) (h12 : 12 ≤ ibuf.length) :
    (ibuf.take 2 ≠ [0x74, 0x64] →
      td0ExpandHeader ibuf = .error .fileFormatMismatch) ∧
    (ibuf.take 2 = [0x74, 0x64] →
      [crc16 0 (ibuf.take 10) % 256, crc16 0 (ibuf.take 10) / 256] ≠ (ibuf.take 12).drop 10 →
      td0ExpandHeader ibuf = .error .badChecksum) ∧
    (ibuf.take 2 = [0x74, 0x64] →
      [crc16 0 (ibuf.take 10) % 256, crc16 0 (ibuf.take 10) / 256] = (ibuf.take 12).drop 10 →
      ∃ hdr2 : List Nat,
        td0ExpandHeader ibuf =
          .ok (hdr2, if ibuf.getD 4 0 < 20 then Codec.lzw else Codec.lzhuf) ∧
        hdr2.length = 12 ∧
        hdr2.take 2 = [0x54, 0x44] ∧
        (hdr2.drop 2).take 8 = (ibuf.drop 2).take 8 ∧
        hdr2.drop 10 = [crc16 0 (hdr2.take 10) % 256, crc16 0 (hdr2.take 10) / 256]) := by
  have hnl : ¬ ibuf.length < 12 := by omega
  have htt : (ibuf.take 12).take 2 = ibuf.take 2 := by
    rw [List.take_take]; norm_num
  have ht10 : (ibuf.take 12).take 10 = ibuf.take 10 := by
    rw [List.take_take]; norm_num
  have hlen12 : (ibuf.take 12).length = 12 := by
    rw [List.length_take]; omega
  refine ⟨?_, ?_, ?_⟩
  · intro hsig
    unfold td0ExpandHeader
    rw [if_neg hnl, if_pos (by rw [htt]; exact hsig)]
  · intro hsig hcrc
    unfold td0ExpandHeader
    rw [if_neg hnl, if_neg (by rw [htt]; simp [hsig]), if_pos (by rw [ht10]; exact hcrc)]
  · intro hsig hcrc
    have hged : (ibuf.take 12).getD 4 0 = ibuf.getD 4 0 := by
      unfold List.getD
      rw [List.get?_eq_getElem?, List.get?_eq_getElem?, List.getElem?_take]
      norm_num
    have hdl : ((ibuf.take 12).drop 2).take 8 = (ibuf.drop 2).take 8 := by
      rw [List.drop_take, List.take_take]; norm_num
    set X : List Nat := ((ibuf.take 12).drop 2).take 8 with hXdef
    have hX : X.length = 8 := by
      rw [hXdef]
      simp only [List.length_take, List.length_drop, hlen12]
      norm_num
    set A : List Nat := [0x54, 0x44] ++ X with hAdef
    have hA10 : A.length = 10 := by
      rw [hAdef]
      simp only [List.length_append, hX]
      norm_num
    refine ⟨A ++ [crc16 0 A % 256, crc16 0 A / 256], ?_, ?_, ?_, ?_, ?_⟩
    · unfold td0ExpandHeader
      rw [if_neg hnl, if_neg (by rw [htt]; simp [hsig]),
        if_neg (by rw [ht10]; simp [hcrc]), hged]
      by_cases hv : ibuf.getD 4 0 < 20
      · rw [if_pos hv, if_pos hv]
      · rw [if_neg hv, if_neg hv]
    · simp only [List.length_append, hA10]
      norm_num
    · rw [List.take_append_of_le_length (by rw [hA10]; decide), hAdef,
        List.take_append_of_le_length (by decide)]
      decide
    · rw [List.drop_append_of_le_length (by rw [hA10]; decide), hAdef,
        List.drop_append_of_le_length (by decide)]
      have hde : ([0x54, 0x44] : List Nat).drop 2 = [] := rfl
      rw [hde, List.nil_append,
        List.take_append_of_le_length (by rw [hX]),
        List.take_of_length_le hX.le]
      exact hdl
    · rw [List.drop_append_of_le_length hA10.ge,
        List.take_append_of_le_length hA10.ge,
        List.drop_eq_nil_of_le hA10.le,
        List.take_of_length_le hA10.le, List.nil_append]

set_option maxRecDepth 40000 in
/-- Witness for C8 (amended): a valid lowercase-signature header is accepted
and dispatched. -/
theorem td0_expand_header_spec_witness :
    ([0x74, 0x64, 0x30, 0x31, 0x32, 0x33, 0x34, 0x35, 0x36, 0x37, 213, 189] :
        List Nat).take 2 = [0x74, 0x64] ∧
    ∃ hdr2 : List Nat,
      td0ExpandHeader [0x74, 0x64, 0x30, 0x31, 0x32, 0x33, 0x34, 0x35, 0x36, 0x37, 213, 189] =
        .ok (hdr2,
          if ([0x74, 0x64, 0x30, 0x31, 0x32, 0x33, 0x34, 0x35, 0x36, 0x37, 213, 189] :
              List Nat).getD 4 0 < 20 then Codec.lzw else Codec.lzhuf) ∧
      hdr2.length = 12 ∧
      hdr2.take 2 = [0x54, 0x44] ∧
      (hdr2.drop 2).take 8 =
        (([0x74, 0x64, 0x30, 0x31, 0x32, 0x33, 0x34, 0x35, 0x36, 0x37, 213, 189] :
          List Nat).drop 2).take 8 ∧
      hdr2.drop 10 = [crc16 0 (hdr2.take 10) % 256, crc16 0 (hdr2.take 10) / 256] :=
  ⟨by decide,
    (td0_expand_header_spec
      [0x74, 0x64, 0x30, 0x31, 0x32, 0x33, 0x34, 0x35, 0x36, 0x37, 213, 189]
      (by decide)).2.2 (by decide) (by decide)⟩

/-- **C4.** The adaptive-Huffman frequency array stays sorted: after
`start_huff`, and after any sequence of `update c` calls with
`c ∈ [0, N_CHAR)`, `freq[i] ≤ freq[i+1]` holds for all `0 ≤ i < TAB = 627`,
with the backstop `freq[TAB] = 0xFFFF` covering the comparison at
`i = TAB - 1`. -/
theorem huff_freq_sorted (bits : List Bool) (cs : List Nat)
    (hcs : ∀ c ∈ cs, c < N_CHAR) :
    (∀ i, i < 627 →
      (cs.foldl Huff.update (Huff.create bits N_CHAR).startHuff).freq i ≤
        (cs.foldl Huff.update (Huff.create bits N_CHAR).startHuff).freq (i + 1)) ∧
    (cs.foldl Huff.update (Huff.create bits N_CHAR).startHuff).freq 627 = 0xffff := by
  have hstart : Huff.HInv (Huff.create bits N_CHAR).startHuff := Huff.startHuff_HInv bits
  obtain ⟨hH, hns⟩ := Huff.foldl_update_HInv cs ((Huff.create bits N_CHAR).startHuff)
    hstart (by
      intro c hc
      exact hcs c hc)
  have h1 : (cs.foldl Huff.update (Huff.create bits N_CHAR).startHuff).nodeCount = 627 := by
    unfold Huff.nodeCount
    rw [hns]
    rfl
  constructor
  · intro i hi
    exact hH.sorted i (by rw [h1]; exact hi)
  · rw [← h1]
    exact hH.backstop

/-- Witness for C4: a concrete update sequence over the `start_huff`
state. -/
theorem huff_freq_sorted_witness :
    (∀ c ∈ ([65, 66, 65, 200, 313] : List Nat), c < N_CHAR) ∧
    (∀ i, i < 627 →
      (([65, 66, 65, 200, 313] : List Nat).foldl Huff.update
          (Huff.create [] N_CHAR).startHuff).freq i ≤
        (([65, 66, 65, 200, 313] : List Nat).foldl Huff.update
          (Huff.create [] N_CHAR).startHuff).freq (i + 1)) :=
  ⟨by decide, (huff_freq_sorted [] [65, 66, 65, 200, 313] (by decide)).1⟩

/-- **C5.** After `rebuild_huff` runs on a saturated table
(`freq[ROOT] = MAX_FREQ = 0x8000`), the new root frequency is at most
`MAX_FREQ/2 + num_symb/2` (`num_symb = N_CHAR` for the LZHUF coder), and the
sibling property, the exact parent sums and the `son`/`parent` link
consistency all still hold (`HInv` bundles the remaining invariants). -/
theorem rebuild_huff_spec {g : Huff} (hI : Huff.HInv g)
    (_htrig : g.freq g.rootIdx = Huff.maxFreq) :
    g.rebuildHuff.freq g.rebuildHuff.rootIdx ≤ Huff.maxFreq / 2 + g.numSymb / 2 ∧
    (∀ i, i < g.rebuildHuff.nodeCount →
      g.rebuildHuff.freq i ≤ g.rebuildHuff.freq (i + 1)) ∧
    (∀ i, i < g.rebuildHuff.nodeCount →
      g.rebuildHuff.son i < g.rebuildHuff.nodeCount →
      g.rebuildHuff.freq i =
        g.rebuildHuff.freq (g.rebuildHuff.son i) +
        g.rebuildHuff.freq (g.rebuildHuff.son i + 1) ∧
      g.rebuildHuff.parent (g.rebuildHuff.son i) = i ∧
      g.rebuildHuff.parent (g.rebuildHuff.son i + 1) = i) ∧
    Huff.HInv g.rebuildHuff := by
  obtain ⟨hH, hb⟩ := Huff.rebuild_HInv hI
  refine ⟨hb, hH.sorted, ?_, hH⟩
  intro i hi hs
  exact ⟨hH.sumEq i hi hs, (hH.parentSon i hi hs).1, (hH.parentSon i hi hs).2⟩

/-- Witness for C5: a concrete saturated table (root frequency exactly
`MAX_FREQ`). -/
theorem rebuild_huff_spec_witness :
    Huff.q314.freq Huff.q314.rootIdx = Huff.maxFreq ∧
    Huff.q314.rebuildHuff.freq Huff.q314.rebuildHuff.rootIdx ≤
      Huff.maxFreq / 2 + Huff.q314.numSymb / 2 :=
  ⟨by decide, (rebuild_huff_spec Huff.q314_HInv (by decide)).1⟩


/-! ## The empty-input underflow (claims C1 and C2) -/

/-- When the input list is exhausted the first inner loop completes no
iteration at all: `byte_ptr < ibuf.len()` fails immediately and the loop
breaks with `i` unchanged. -/
theorem encInner1_nil (st : EncState) (i last fuel : Nat) (hin : st.input = []) :
    encInner1 st i last fuel = (st, i) := by
  cases fuel with
  | zero => rfl
  | succ fuel =>
    simp only [encInner1, hin]
    exact ite_self (st, i)

/-- The checked second inner loop reports the `len -= 1` underflow as soon
as it is entered with `len = 0`. -/
theorem encInner2Checked_len_zero (st : EncState) (i last fuel : Nat)
    (hlen : st.len = 0) (hlt : i < last) :
    encInner2Checked st i last (fuel + 1) = none := by
  simp only [encInner2Checked]
  rw [if_pos hlt, if_pos hlen]

/-- Main-loop step at `len = 0` with the input exhausted: `match_length`
is clamped to `0 ≤ THRESHOLD`, so a literal character is sent and
`last_match_length = 1`; the first inner loop cannot consume a byte, so the
second inner loop runs its first iteration with `len = 0` and underflows. -/
theorem encMainChecked_len_zero (st : EncState) (fuel : Nat) (hlen : st.len = 0)
    (hin : st.input = []) :
    encMainChecked st (fuel + 1) = none := by
  have hml : (if st.lzss.matchLength > st.len then st.len
      else st.lzss.matchLength) = 0 := by
    by_cases h : st.lzss.matchLength > st.len
    · rw [if_pos h]; exact hlen
    · rw [if_neg h]; omega
  simp only [encMainChecked, hml]
  rw [if_pos (show (0 : Nat) ≤ THRESHOLD from by decide)]
  simp only [encInner1_nil, hin]
  rw [encInner2Checked_len_zero] <;> first | rfl | exact hlen | decide

/-- The encoder body underflows on the empty input: `len` starts at
`min LOOKAHEAD 0 = 0` and no input byte exists for the first inner loop. -/
theorem encodeBodyChecked_nil : encodeBodyChecked [] = none := by
  simp only [encodeBodyChecked]
  rw [encMainChecked_len_zero] <;> rfl

/-- **C1.** The round-trip claim fails at the empty input (whose length
`0 < 2^32` is inside the claim's bound): `compress` reaches the `usize`
subtraction `len -= 1` with `len = 0`, an arithmetic overflow — debug
builds panic, release builds wrap `len` to `2^64 - 1` so the `len <= 0`
exit test keeps failing and the loop keeps emitting tokens — so
`expand(compress([]))` never yields `[]` as the claim requires.  In the
embedding, `lzhufEncodeChecked` models the subtraction faithfully as
fallible and returns `none` on `[]`. -/
theorem compress_empty_underflow : lzhufEncodeChecked [] = none := by
  simp only [lzhufEncodeChecked]
  rw [if_neg (show ¬([] : List Nat).length ≥ 4294967295 from by decide),
    encodeBodyChecked_nil]
  rfl

/-- **C2.** The prefix-and-residue claim quantifies over every byte
sequence, including the empty one, where the encoder's second inner loop
executes `len -= 1` with `len = 0` on its very first iteration (the first
inner loop cannot consume a byte), so `expand(compress(B))` is undefined
at `B = []` and the claimed prefix property fails there. -/
theorem compress_empty_body_underflow : encodeBodyChecked [] = none :=
  encodeBodyChecked_nil



/-! ## The encoder completes on every non-empty input (claim C3) -/

/-- Bookkeeping facts about the first inner loop: `len` is untouched, the
iteration counter moves from `i` to some `i2 ∈ [i, last]`, exactly `i2 - i`
input bytes are consumed, and — given enough fuel — an early exit
(`i2 < last`) happens only because the input ran out. -/
theorem encInner1_facts (fuel : Nat) :
    ∀ (st : EncState) (i last : Nat), i ≤ last →
    ∀ st2 i2, encInner1 st i last fuel = (st2, i2) →
      st2.len = st.len ∧ i ≤ i2 ∧ i2 ≤ last ∧ i2 - i ≤ st.input.length ∧
      st2.input = st.input.drop (i2 - i) ∧
      (last ≤ fuel + i → i2 < last → st2.input = []) := by
  induction fuel with
  | zero =>
    intro st i last hil st2 i2 hP
    have hP2 : (st, i) = (st2, i2) := hP
    injection hP2 with hs hi
    subst hs
    subst hi
    refine ⟨rfl, Nat.le_refl i, hil, by omega, ?_, ?_⟩
    · rw [Nat.sub_self, List.drop_zero]
    · intro hfl hlt
      exact absurd hlt (by omega)
  | succ fuel IH =>
    intro st i last hil st2 i2 hP
    by_cases h : i < last
    · cases hinp : st.input with
      | nil =>
        have heq : encInner1 st i last (fuel + 1) = (st, i) := by
          simp only [encInner1, hinp]
          rw [if_pos h]
        rw [heq] at hP
        injection hP with hs hi
        subst hs
        subst hi
        refine ⟨rfl, Nat.le_refl i, hil, by omega, ?_, fun _ _ => hinp⟩
        rw [Nat.sub_self, List.drop_zero]
        exact hinp
      | cons c rest =>
        obtain ⟨lz, heq⟩ : ∃ lz, encInner1 st i last (fuel + 1) =
            encInner1 { st with
              lzss := lz,
              input := rest,
              s := (st.s + 1) % WIN_SIZE,
              r := (st.r + 1) % WIN_SIZE } (i + 1) last fuel :=
          ⟨_, by simp only [encInner1, hinp]; rw [if_pos h]⟩
        rw [heq] at hP
        obtain ⟨h1, h2, h3, h4, h5, h6⟩ := IH _ (i + 1) last h st2 i2 hP
        have h4a : i2 - (i + 1) ≤ rest.length := h4
        have hlc : (c :: rest).length = rest.length + 1 := rfl
        refine ⟨?_, by omega, h3, by omega, ?_, ?_⟩
        · rw [h1]
        · have hsub : i2 - i = (i2 - (i + 1)) + 1 := by omega
          rw [hsub, List.drop_succ_cons]
          exact h5
        · intro hfl hlt
          exact h6 (by omega) hlt
    · have heq : encInner1 st i last (fuel + 1) = (st, i) := by
        simp only [encInner1]
        rw [if_neg h]
      rw [heq] at hP
      injection hP with hs hi
      subst hs
      subst hi
      refine ⟨rfl, Nat.le_refl i, hil, by omega, ?_, ?_⟩
      · rw [Nat.sub_self, List.drop_zero]
      · intro hfl hlt
        exact absurd hlt h

/-- The checked second inner loop never underflows when the residual
iteration count is covered by `len`: it drains exactly `last - i` units of
`len` and leaves the input alone. -/
theorem encInner2Checked_spec (fuel : Nat) :
    ∀ (st : EncState) (i last : Nat), i ≤ last → last - i ≤ st.len →
      last ≤ fuel + i →
    ∃ stB, encInner2Checked st i last fuel = some stB ∧
      stB.len = st.len - (last - i) ∧ stB.input = st.input := by
  induction fuel with
  | zero =>
    intro st i last h1 h2 h3
    exact ⟨st, rfl, by omega, rfl⟩
  | succ fuel IH =>
    intro st i last h1 h2 h3
    by_cases h : i < last
    · have hlen : ¬ st.len = 0 := by omega
      obtain ⟨lz, heq⟩ : ∃ lz, encInner2Checked st i last (fuel + 1) =
          encInner2Checked { st with
            lzss := lz,
            s := (st.s + 1) % WIN_SIZE,
            r := (st.r + 1) % WIN_SIZE,
            len := st.len - 1 } (i + 1) last fuel :=
        ⟨_, by simp only [encInner2Checked]; rw [if_pos h, if_neg hlen]⟩
      rw [heq]
      obtain ⟨stB, hB, hBlen, hBin⟩ := IH { st with
          lzss := lz,
          s := (st.s + 1) % WIN_SIZE,
          r := (st.r + 1) % WIN_SIZE,
          len := st.len - 1 } (i + 1) last h
        (by show last - (i + 1) ≤ st.len - 1
            omega)
        (by omega)
      have hBlen2 : stB.len = st.len - 1 - (last - (i + 1)) := hBlen
      have hBin2 : stB.input = st.input := hBin
      refine ⟨stB, hB, by omega, hBin2⟩
    · have heq : encInner2Checked st i last (fuel + 1) = some st := by
        simp only [encInner2Checked]
        rw [if_neg h]
      rw [heq]
      exact ⟨st, rfl, by omega, rfl⟩

/-- One step of the checked main loop, phrased through `encStep1`:
the step head, the two inner loops, then exit or recurse. -/
theorem encMainChecked_eq (st : EncState) (fuel : Nat) :
    encMainChecked st (fuel + 1) =
      match encInner2Checked (encInner1 (encStep1 st) 0
          (encStep1 st).lzss.matchLength ((encStep1 st).lzss.matchLength + 1)).1
        (encInner1 (encStep1 st) 0 (encStep1 st).lzss.matchLength
          ((encStep1 st).lzss.matchLength + 1)).2
        (encStep1 st).lzss.matchLength ((encStep1 st).lzss.matchLength + 1) with
      | none => none
      | some st2 => if st2.len = 0 then some st2 else encMainChecked st2 fuel := rfl

/-- The step head leaves `len` and the input untouched, and the recorded
`last_match_length` lands in `[1, len]` whenever `len ≥ 1` (the clamp
bounds it by `len`, and the literal branch resets it to `1`). -/
theorem encStep1_facts (st : EncState) (h1 : 1 ≤ st.len) :
    1 ≤ (encStep1 st).lzss.matchLength ∧
    (encStep1 st).lzss.matchLength ≤ st.len ∧
    (encStep1 st).len = st.len ∧ (encStep1 st).input = st.input := by
  have hthr : THRESHOLD = 2 := rfl
  have hml2 : (if st.lzss.matchLength > st.len then st.len
      else st.lzss.matchLength) ≤ st.len := by
    by_cases hgt : st.lzss.matchLength > st.len
    · exact Nat.le_of_eq (if_pos hgt)
    · rw [if_neg hgt]
      omega
  simp only [encStep1]
  by_cases hc : (if st.lzss.matchLength > st.len then st.len
      else st.lzss.matchLength) ≤ THRESHOLD
  · rw [if_pos hc]
    exact ⟨Nat.le_refl 1, h1, rfl, rfl⟩
  · rw [if_neg hc]
    have hml1 : 1 ≤ (if st.lzss.matchLength > st.len then st.len
        else st.lzss.matchLength) := by omega
    exact ⟨hml1, hml2, rfl, rfl⟩

/-- After the step head the two inner loops complete without underflow
(the second one drains at most `last_match_length ≤ len` units), and the
iteration either exits with `len = 0` or recurses on a state whose measure
`|input| + len` has dropped by `last_match_length ≥ 1`. -/
theorem encTail_some (st1 : EncState) (fuel : Nat)
    (h1 : 1 ≤ st1.lzss.matchLength) (h2 : st1.lzss.matchLength ≤ st1.len)
    (hIH : ∀ st2 : EncState, 1 ≤ st2.len → st2.input.length + st2.len ≤ fuel →
      ∃ stF, encMainChecked st2 fuel = some stF)
    (hmu : st1.input.length + st1.len ≤ fuel + 1) :
    ∃ stB stF,
      encInner2Checked (encInner1 st1 0 st1.lzss.matchLength
          (st1.lzss.matchLength + 1)).1
        (encInner1 st1 0 st1.lzss.matchLength (st1.lzss.matchLength + 1)).2
        st1.lzss.matchLength (st1.lzss.matchLength + 1) = some stB ∧
      (if stB.len = 0 then some stB else encMainChecked stB fuel) = some stF := by
  obtain ⟨e1len, e1i1, e1i2, e1cnt, e1in, e1emp⟩ :=
    encInner1_facts (st1.lzss.matchLength + 1) st1 0 st1.lzss.matchLength
      (Nat.zero_le _)
      (encInner1 st1 0 st1.lzss.matchLength (st1.lzss.matchLength + 1)).1
      (encInner1 st1 0 st1.lzss.matchLength (st1.lzss.matchLength + 1)).2
      rfl
  obtain ⟨stB, hB, hBlen, hBin⟩ :=
    encInner2Checked_spec (st1.lzss.matchLength + 1)
      (encInner1 st1 0 st1.lzss.matchLength (st1.lzss.matchLength + 1)).1
      (encInner1 st1 0 st1.lzss.matchLength (st1.lzss.matchLength + 1)).2
      st1.lzss.matchLength e1i2 (by omega) (by omega)
  refine ⟨stB, ?_⟩
  by_cases hz : stB.len = 0
  · exact ⟨stB, hB, by rw [if_pos hz]⟩
  · have hmu2 : stB.input.length + stB.len ≤ fuel := by
      by_cases hk : (encInner1 st1 0 st1.lzss.matchLength
          (st1.lzss.matchLength + 1)).2 < st1.lzss.matchLength
      · have hemp := e1emp (by omega) hk
        have h0 : stB.input.length = 0 := by simp [hBin, hemp]
        omega
      · have hlen2 : stB.input.length = st1.input.length -
            ((encInner1 st1 0 st1.lzss.matchLength
              (st1.lzss.matchLength + 1)).2 - 0) := by
          rw [hBin, e1in, List.length_drop]
        omega
    obtain ⟨stF, hF⟩ := hIH stB (by omega) hmu2
    exact ⟨stF, hB, by rw [if_neg hz]; exact hF⟩

/-- With `len ≥ 1` and fuel at least the measure `|input| + len`, the
checked main loop never hits the `len -= 1` underflow: it returns a final
state. -/
theorem encMainChecked_some (fuel : Nat) :
    ∀ st : EncState, 1 ≤ st.len → st.input.length + st.len ≤ fuel →
    ∃ stF, encMainChecked st fuel = some stF := by
  induction fuel with
  | zero =>
    intro st hl hmu
    exact absurd hmu (by omega)
  | succ fuel IH =>
    intro st hl hmu
    obtain ⟨f1, f2, f3, f4⟩ := encStep1_facts st hl
    obtain ⟨stB, stF, hB, hF⟩ := encTail_some (encStep1 st) fuel f1
      (by omega) IH (by rw [f4]; omega)
    refine ⟨stF, ?_⟩
    rw [encMainChecked_eq, hB]
    exact hF

/-- `compress` completes on every non-empty input: the initial `len` is
`min LOOKAHEAD |B| ≥ 1` and the fuel `|B| + LOOKAHEAD + 1` dominates the
measure, so the checked body produces a bitstream (contrast the empty
input, where it underflows: `encodeBodyChecked_nil`). -/
theorem encodeBodyChecked_some (B : List Nat) (hB : 1 ≤ B.length) :
    ∃ body, encodeBodyChecked B = some body := by
  have hlook : LOOKAHEAD = 60 := rfl
  obtain ⟨stF, hF⟩ := encMainChecked_some (B.length + LOOKAHEAD + 1)
    { lzss := encPrime { LZSS.init with dict := encInitDict B }
        (WIN_SIZE - LOOKAHEAD) LOOKAHEAD
      huff := (Huff.create [] N_CHAR).startHuff
      obuf := []
      input := B.drop (min LOOKAHEAD B.length)
      s := 0
      r := WIN_SIZE - LOOKAHEAD
      len := min LOOKAHEAD B.length }
    (by show 1 ≤ min LOOKAHEAD B.length
        omega)
    (by show (B.drop (min LOOKAHEAD B.length)).length + min LOOKAHEAD B.length ≤
          B.length + LOOKAHEAD + 1
        rw [List.length_drop]
        omega)
  refine ⟨stF.obuf, ?_⟩
  simp only [encodeBodyChecked]
  rw [hF]
  rfl

/-- C3 (counterexample): an input of exactly `u32::MAX` bytes is strictly
smaller than 2^32, yet `encode` rejects it with `FileTooLarge`; the claim
says compression never fails with `FileTooLarge` within the 2^32 bound. -/
theorem encode_fileTooLarge_at_u32Max :
    (List.replicate 4294967295 (0 : Nat)).length < 2 ^ 32 ∧
      lzhufEncodeE (List.replicate 4294967295 (0 : Nat)) =
        some (.error .fileTooLarge) := by
  constructor
  · rw [List.length_replicate]
    norm_num
  · simp only [lzhufEncodeE]
    rw [if_pos (by rw [List.length_replicate])]

/-- **C3 (amended).** `encode` fails with `FileTooLarge` exactly on inputs
of `u32::MAX` (= 2^32 - 1) bytes or more, so a `FileTooLarge` error is
impossible within the bound; and on any non-empty input below the bound it
succeeds, the output starting with the 4-byte little-endian length header.
(The empty input passes the size gate but never returns a value: it hits
the `len -= 1` usize overflow of C1 — `none` here — which is a program
error, not a `FileTooLarge`.) -/
theorem encode_size_gate (B : List Nat) :
    (4294967295 ≤ B.length → lzhufEncodeE B = some (.error .fileTooLarge)) ∧
    (B.length < 4294967295 →
      ∀ e : Error, lzhufEncodeE B ≠ some (.error e)) ∧
    (B.length < 4294967295 → 1 ≤ B.length →
      ∃ out, lzhufEncodeE B = some (.ok out) ∧ out.take 4 = le32 B.length) := by
  refine ⟨?_, ?_, ?_⟩
  · intro hge
    simp only [lzhufEncodeE]
    rw [if_pos hge]
  · intro hlt e
    simp only [lzhufEncodeE]
    rw [if_neg (by omega)]
    cases hEB : encodeBodyChecked B with
    | none => simp
    | some body => simp
  · intro hlt hne
    obtain ⟨body, hbody⟩ := encodeBodyChecked_some B hne
    refine ⟨le32 B.length ++ bitsToBytes body, ?_, ?_⟩
    · simp only [lzhufEncodeE]
      rw [if_neg (by omega), hbody]
      rfl
    · simp [le32]

/-- Witness for C3 (amended) at the one-byte input `[7]`. -/
theorem encode_size_gate_witness :
    ([7] : List Nat).length < 4294967295 ∧ 1 ≤ ([7] : List Nat).length ∧
      ∃ out, lzhufEncodeE [7] = some (.ok out) ∧
        out.take 4 = le32 ([7] : List Nat).length :=
  ⟨by decide, by decide, (encode_size_gate [7]).2.2 (by decide) (by decide)⟩


end Retro

theorem crc16_nil (s : Nat) : Retro.crc16 s [] = s % 65536 := rfl
